import Mathlib

/-!
# Terrain mesh generation (chunked Marching Cubes): embedding and properties

A shallow embedding of `src/terrain/terrain.cc`.

Modelling conventions.

* `float` values are modelled by `Flt`: exact rationals extended with the two
  infinities and NaN.  Rounding is not modelled; division by zero and the
  other IEEE special cases are.  There is one zero, treated as `+0`.
* `int` values are modelled by `Int`.  The mesh functions use the exact value
  of the lattice index, `indexFromCoord`; the computation in 32-bit `int`
  arithmetic, which wraps around, is `indexFromCoord32` (with `density32` and
  `cornerIndicesOf32` for the write and the corner reads that use it).  The two
  agree at every lattice point exactly when no overflow occurs, which is the
  case in a lattice whose size `(segment + 1) ^ 3` is below `2 ^ 31`
  (`indexFromCoord_fits`, `indexFromCoord32_eq`); from `segment = 1290` on they
  differ.
* `std::vector` is a `List`; `operator[]` outside the bounds is undefined
  behaviour in the source and is modelled by the result `none`.
* `std::map<std::string, int>` is an association list keyed by the list of
  characters of the key.
* The process-wide tunables are gathered in `Config`; the lookup tables of
  `mc.h` and the noise primitive of `perlin.h` are parameters (`Tables`,
  `noise`).
-/

namespace Terrain

/-! ## Scalars -/

/-- Model of a `float`: a rational, an infinity (`neg = true` for `-∞`) or NaN. -/
inductive Flt where
  | fin (q : ℚ)
  | inf (neg : Bool)
  | nan
deriving DecidableEq

namespace Flt

/-- Finite values. -/
def isFinite : Flt → Bool
  | fin _ => true
  | _ => false

/-- Conversion `(float)i` of an `int`. -/
def ofInt (i : Int) : Flt := fin (i : ℚ)

/-- Unary minus. -/
def neg : Flt → Flt
  | fin a => fin (-a)
  | inf s => inf (!s)
  | nan => nan

/-- Addition. -/
def add : Flt → Flt → Flt
  | fin a, fin b => fin (a + b)
  | fin _, inf s => inf s
  | inf s, fin _ => inf s
  | inf s, inf t => if s = t then inf s else nan
  | _, _ => nan

/-- Subtraction. -/
def sub (a b : Flt) : Flt := add a (neg b)

/-- Multiplication. -/
def mul : Flt → Flt → Flt
  | fin a, fin b => fin (a * b)
  | fin a, inf s => if a = 0 then nan else inf (xor s (decide (a < 0)))
  | inf s, fin b => if b = 0 then nan else inf (xor s (decide (b < 0)))
  | inf s, inf t => inf (xor s t)
  | _, _ => nan

/-- Division. -/
def div : Flt → Flt → Flt
  | fin a, fin b =>
      if b = 0 then (if a = 0 then nan else inf (decide (a < 0))) else fin (a / b)
  | fin _, inf _ => fin 0
  | inf s, fin b => inf (xor s (decide (b < 0)))
  | _, _ => nan

/-- Comparison `a < b`; false whenever an operand is NaN. -/
def lt : Flt → Flt → Bool
  | fin a, fin b => decide (a < b)
  | fin _, inf s => !s
  | inf s, fin _ => s
  | inf s, inf t => s && !t
  | _, _ => false

/-- Absolute value. -/
def abs : Flt → Flt
  | fin a => fin |a|
  | inf _ => inf false
  | nan => nan

/-- Largest integer not above the argument, `floor`. -/
def floor : Flt → Flt
  | fin a => fin (⌊a⌋ : ℚ)
  | x => x

/-- Minimum `fmin`: a NaN operand is ignored. -/
def fmin : Flt → Flt → Flt
  | nan, b => b
  | a, nan => a
  | a, b => if lt b a then b else a

/-- Maximum `fmax`: a NaN operand is ignored. -/
def fmax : Flt → Flt → Flt
  | nan, b => b
  | a, nan => a
  | a, b => if lt a b then b else a

end Flt

/-! ## Data model (`terrain.h`) and tunables -/

/-- Position `(x, y, z)`. -/
structure Vector3 where
  x : Flt
  y : Flt
  z : Flt
deriving DecidableEq

/-- Position with the sampled density `w`. -/
structure Vector4 where
  x : Flt
  y : Flt
  z : Flt
  w : Flt
deriving DecidableEq

/-- The global tunables of `terrain.cc`, lines 12-21. -/
structure Config where
  isoLevel : Flt
  noiseScale : Flt
  octaves : Int
  persistence : Flt
  lacunarity : Flt
  floorOffset : Flt
  hardFloor : Flt
  hardFloorWeight : Flt
  noiseWeight : Flt

/-- The initial values of the tunables. -/
def defaults : Config where
  isoLevel := Flt.fin 0
  noiseScale := Flt.fin 3
  octaves := 8
  persistence := Flt.fin (115 / 100)
  lacunarity := Flt.fin (16 / 10)
  floorOffset := Flt.fin 20
  hardFloor := Flt.fin 2
  hardFloorWeight := Flt.fin (306 / 100)
  noiseWeight := Flt.fin (609 / 100)

/-! ## `indexFromCoord` and `interpolateVerts` -/

/-- Flat lattice index, `terrain.cc` lines 62-65, as an exact integer: the
value of the expression without overflow.  The 32-bit computation is
`indexFromCoord32`. -/
def indexFromCoord (x y z segment : Int) : Int :=
  let seg := segment + 1
  z * seg * seg + y * seg + x

/-- Crossing point on an edge, `terrain.cc` lines 67-77. -/
def interpolateVerts (cfg : Config) (v1 v2 : Vector4) : Vector3 :=
  let t := Flt.div (Flt.sub cfg.isoLevel v1.w) (Flt.sub v2.w v1.w)
  let _v1 : Vector3 := ⟨v1.x, v1.y, v1.z⟩
  let _v2 : Vector3 := ⟨v2.x, v2.y, v2.z⟩
  { x := Flt.add _v1.x (Flt.mul (Flt.sub _v2.x v1.x) t)
    y := Flt.add _v1.y (Flt.mul (Flt.sub _v2.y v1.y) t)
    z := Flt.add _v1.z (Flt.mul (Flt.sub _v2.z v1.z) t) }

/-! ## Containers -/

/-- Read `v[i]` of a `std::vector` or array; `none` outside the bounds. -/
def getI {α : Type} (l : List α) (i : Int) : Option α :=
  if 0 ≤ i then l.get? i.toNat else none

/-- Write `v[i] = a`; `none` outside the bounds. -/
def setI {α : Type} (l : List α) (i : Int) (a : α) : Option (List α) :=
  if 0 ≤ i ∧ i.toNat < l.length then some (l.set i.toNat a) else none

/-- Counted loop `for (int i = 0; i < n; i++)` over a fallible body. -/
def forRange {σ : Type} (n : Nat) (body : Int → σ → Option σ) (s : σ) : Option σ :=
  (List.range n).foldlM (fun acc (i : Nat) => body (i : Int) acc) s

/-- One decimal digit. -/
def digitChar : Nat → Char
  | 0 => '0'
  | 1 => '1'
  | 2 => '2'
  | 3 => '3'
  | 4 => '4'
  | 5 => '5'
  | 6 => '6'
  | 7 => '7'
  | 8 => '8'
  | _ => '9'

/-- Decimal digits of `n`, most significant first, in front of `acc`. -/
def toDigitsAux : Nat → Nat → List Char → List Char
  | 0, _, acc => acc
  | fuel + 1, n, acc =>
      if n < 10 then digitChar n :: acc
      else toDigitsAux fuel (n / 10) (digitChar (n % 10) :: acc)

/-- Decimal representation of a natural number. -/
def natToString (n : Nat) : List Char := toDigitsAux (n + 1) n []

/-- Model of `std::to_string(int)`. -/
def to_string (i : Int) : List Char :=
  if i < 0 then '-' :: natToString i.natAbs else natToString i.toNat

/-- Key of the vertex dictionary, `terrain.cc` lines 186-187. -/
def vertexKey (ia ib : Int) : List Char :=
  to_string (min ia ib) ++ ['_'] ++ to_string (max ia ib)

/-- Lookup `vertexDic.find(key)` in the dictionary. -/
def dicFind : List (List Char × Int) → List Char → Option Int
  | [], _ => none
  | (k, v) :: rest, key => if k = key then some v else dicFind rest key

/-! ## Lookup tables (`mc.h`) -/

/-- The three tables of `mc.h`, which `march` reads. -/
structure Tables where
  triangulation : List (List Int)
  cornerIndexAFromEdge : List Int
  cornerIndexBFromEdge : List Int

/-- An edge number of a cube. -/
def edgeOK (e : Int) : Bool := decide (0 ≤ e) && decide (e < 12)

/-- A row of the triangulation table: triplets of edge numbers, then `-1`. -/
def rowOK : List Int → Bool
  | [] => false
  | [e0] => decide (e0 = -1)
  | [e0, _] => decide (e0 = -1)
  | e0 :: e1 :: e2 :: rest =>
      decide (e0 = -1) || (edgeOK e0 && edgeOK e1 && edgeOK e2 && rowOK rest)

/-- A corner number of a cube. -/
def cornerOK (c : Int) : Bool := decide (0 ≤ c) && decide (c < 8)

/-- Well-formed tables: 256 rows of triplets ended by `-1`, and two tables of
12 corner numbers. -/
def Tables.WF (tb : Tables) : Prop :=
  tb.triangulation.length = 256 ∧
  (∀ row ∈ tb.triangulation, rowOK row = true) ∧
  tb.cornerIndexAFromEdge.length = 12 ∧
  tb.cornerIndexBFromEdge.length = 12 ∧
  (∀ c ∈ tb.cornerIndexAFromEdge, cornerOK c = true) ∧
  (∀ c ∈ tb.cornerIndexBFromEdge, cornerOK c = true)

instance (tb : Tables) : Decidable tb.WF := by
  unfold Tables.WF; infer_instance

/-- Row 255 of the triangulation table is empty: it starts with the terminator
`-1`, so that configuration 255 "produces zero triangles via the lookup
table".  A property of the table of `mc.h`, which is a parameter here. -/
def Tables.row255Empty (tb : Tables) : Prop :=
  ∃ rest, tb.triangulation.get? 255 = some (-1 :: rest)

/-! ## `density` -/

/-- The variables carried by the octave loop of `density`. -/
structure OctState where
  noise : Flt
  frequency : Flt
  amplitude : Flt
  weight : Flt

/-- Body of the octave loop, `terrain.cc` lines 93-105. -/
def octaveStep (noise3 : Flt → Flt → Flt → Flt) (cfg : Config) (curPos : Vector3)
    (s : OctState) : OctState :=
  let offsetNoise : Vector3 := ⟨Flt.fin 0, Flt.fin 0, Flt.fin 0⟩
  let weightMultiplier := Flt.fin (105 / 100)
  let v2x := Flt.mul (Flt.add curPos.x offsetNoise.x) s.frequency
  let v2y := Flt.mul (Flt.add curPos.y offsetNoise.y) s.frequency
  let v2z := Flt.mul (Flt.add curPos.z offsetNoise.z) s.frequency
  let n := Flt.div (noise3 v2x v2y v2z) (Flt.fin 2)
  let v := Flt.sub (Flt.fin 1) (Flt.abs n)
  let v := Flt.mul v v
  let v := Flt.mul v s.weight
  { weight := Flt.fmax (Flt.fmin (Flt.mul v weightMultiplier) (Flt.fin 1)) (Flt.fin 0)
    noise := Flt.add s.noise (Flt.mul v s.amplitude)
    amplitude := Flt.mul s.amplitude cfg.persistence
    frequency := Flt.mul s.frequency cfg.lacunarity }

/-- The octave loop run `n` times. -/
def octaveLoop (noise3 : Flt → Flt → Flt → Flt) (cfg : Config) (curPos : Vector3) :
    Nat → OctState → OctState
  | 0, s => s
  | n + 1, s => octaveLoop noise3 cfg curPos n (octaveStep noise3 cfg curPos s)

/-- World position of lattice point `(x, y, z)`, `terrain.cc` lines 81-82. -/
def samplePos (x y z : Int) (origin : Vector3) (unitSize : Flt) : Vector3 :=
  let v1 : Vector3 :=
    ⟨Flt.mul (Flt.ofInt x) unitSize, Flt.mul (Flt.ofInt y) unitSize,
      Flt.mul (Flt.ofInt z) unitSize⟩
  ⟨Flt.add origin.x v1.x, Flt.add origin.y v1.y, Flt.add origin.z v1.z⟩

/-- The sample that `density` stores for lattice point `(x, y, z)`,
`terrain.cc` lines 81-117 and the right-hand side of line 120. -/
def densityValue (noise3 : Flt → Flt → Flt → Flt) (cfg : Config) (x y z : Int)
    (origin : Vector3) (unitSize : Flt) : Vector4 :=
  let curPos := samplePos x y z origin unitSize
  let paramX := Flt.fin 1
  let paramY := Flt.fin (1 / 10)
  let s := octaveLoop noise3 cfg curPos cfg.octaves.toNat
    { noise := Flt.fin 0, frequency := Flt.div cfg.noiseScale (Flt.fin 2000),
      amplitude := Flt.fin 1, weight := Flt.fin (105 / 100) }
  let finalVal :=
    Flt.add
      (Flt.add (Flt.neg (Flt.add (Flt.mul curPos.y (Flt.fin (8 / 10))) cfg.floorOffset))
        (Flt.mul s.noise cfg.noiseWeight))
      (Flt.mul (Flt.sub curPos.y (Flt.mul (Flt.floor (Flt.div curPos.y paramX)) paramX))
        paramY)
  let finalVal :=
    if Flt.lt curPos.y cfg.hardFloor then Flt.add finalVal cfg.hardFloorWeight else finalVal
  let finalVal := if y = 0 then Flt.fin (1 / 10) else finalVal
  ⟨curPos.x, curPos.y, curPos.z, finalVal⟩

/-- Sampling of one lattice point, `terrain.cc` lines 79-121. -/
def density (noise3 : Flt → Flt → Flt → Flt) (cfg : Config) (x y z : Int)
    (origin : Vector3) (unitSize : Flt) (segment : Int) (points : List Vector4) :
    Option (List Vector4) :=
  let index := indexFromCoord x y z segment
  setI points index (densityValue noise3 cfg x y z origin unitSize)

/-! ## `march` -/

/-- The accumulators that `march` updates: the two shared sequences, the
dictionary of the chunk and the running vertex index. -/
structure MeshState where
  vertices : List Vector3
  indices : List Int
  vertexDic : List (List Char × Int)
  index : Int

/-- The eight flat indices of the corners of cube `(x, y, z)`,
`terrain.cc` lines 141-150. -/
def cornerIndicesOf (x y z segment : Int) : List Int :=
  [indexFromCoord x y z segment,
   indexFromCoord (x + 1) y z segment,
   indexFromCoord (x + 1) y (z + 1) segment,
   indexFromCoord x y (z + 1) segment,
   indexFromCoord x (y + 1) z segment,
   indexFromCoord (x + 1) (y + 1) z segment,
   indexFromCoord (x + 1) (y + 1) (z + 1) segment,
   indexFromCoord x (y + 1) (z + 1) segment]

/-- The eight corner samples of cube `(x, y, z)`, `terrain.cc` lines 130-139. -/
def cubeCornersOf (x y z segment : Int) (points : List Vector4) : Option (List Vector4) := do
  let c0 ← getI points (indexFromCoord x y z segment)
  let c1 ← getI points (indexFromCoord (x + 1) y z segment)
  let c2 ← getI points (indexFromCoord (x + 1) y (z + 1) segment)
  let c3 ← getI points (indexFromCoord x y (z + 1) segment)
  let c4 ← getI points (indexFromCoord x (y + 1) z segment)
  let c5 ← getI points (indexFromCoord (x + 1) (y + 1) z segment)
  let c6 ← getI points (indexFromCoord (x + 1) (y + 1) (z + 1) segment)
  let c7 ← getI points (indexFromCoord x (y + 1) (z + 1) segment)
  some [c0, c1, c2, c3, c4, c5, c6, c7]

/-- One bit of the configuration: `if (w < isoLevel) cubeIndex |= bit`. -/
def orBit (cfg : Config) (corners : List Vector4) (k : Nat) (bit : Nat) (cubeIndex : Nat) :
    Nat :=
  match corners.get? k with
  | some c => if Flt.lt c.w cfg.isoLevel then cubeIndex ||| bit else cubeIndex
  | none => cubeIndex

/-- Configuration index of a cube, `terrain.cc` lines 156-164. -/
def cubeIndexOf (cfg : Config) (corners : List Vector4) : Nat :=
  let cubeIndex := 0
  let cubeIndex := orBit cfg corners 0 1 cubeIndex
  let cubeIndex := orBit cfg corners 1 2 cubeIndex
  let cubeIndex := orBit cfg corners 2 4 cubeIndex
  let cubeIndex := orBit cfg corners 3 8 cubeIndex
  let cubeIndex := orBit cfg corners 4 16 cubeIndex
  let cubeIndex := orBit cfg corners 5 32 cubeIndex
  let cubeIndex := orBit cfg corners 6 64 cubeIndex
  let cubeIndex := orBit cfg corners 7 128 cubeIndex
  cubeIndex

/-- Body of the loop over the three edges of a triangle, `terrain.cc`
lines 184-202, for the edge joining corners `seg.1` and `seg.2`. -/
def weldEdge (cfg : Config) (cubeCorners : List Vector4) (cornerIndices : List Int)
    (st : MeshState) (seg : Int × Int) : Option MeshState := do
  let ia ← getI cornerIndices seg.1
  let ib ← getI cornerIndices seg.2
  let vInx := vertexKey ia ib
  match dicFind st.vertexDic vInx with
  | some vertexIndex =>
      some { st with indices := st.indices ++ [vertexIndex] }
  | none => do
      let ca ← getI cubeCorners seg.1
      let cb ← getI cubeCorners seg.2
      let vP := interpolateVerts cfg ca cb
      let vertexIndex := st.index
      some
        { vertices := st.vertices ++ [vP]
          indices := st.indices ++ [vertexIndex]
          vertexDic := (vInx, vertexIndex) :: st.vertexDic
          index := st.index + 1 }

/-- One triangle: the table reads of `terrain.cc` lines 172-181 and the loop
over its three edges, in the order edge 0, edge 2, edge 1. -/
def emitTriangle (cfg : Config) (tb : Tables) (cubeCorners : List Vector4)
    (cornerIndices : List Int) (e0 e1 e2 : Int) (st : MeshState) : Option MeshState := do
  let a0 ← getI tb.cornerIndexAFromEdge e0
  let b0 ← getI tb.cornerIndexBFromEdge e0
  let a1 ← getI tb.cornerIndexAFromEdge e1
  let b1 ← getI tb.cornerIndexBFromEdge e1
  let a2 ← getI tb.cornerIndexAFromEdge e2
  let b2 ← getI tb.cornerIndexBFromEdge e2
  let segs := [(a0, b0), (a2, b2), (a1, b1)]
  segs.foldlM (weldEdge cfg cubeCorners cornerIndices) st

/-- The loop `for (i = 0; triangulation[cubeIndex][i] != -1; i += 3)` over
what is left of the row, `terrain.cc` line 169.  Reading past the row is `none`. -/
def triLoop (cfg : Config) (tb : Tables) (cubeCorners : List Vector4)
    (cornerIndices : List Int) : List Int → MeshState → Option MeshState
  | [], _ => none
  | [e0], st => if e0 = -1 then some st else none
  | [e0, _], st => if e0 = -1 then some st else none
  | e0 :: e1 :: e2 :: rest, st =>
      if e0 = -1 then some st
      else
        (emitTriangle cfg tb cubeCorners cornerIndices e0 e1 e2 st).bind
          (triLoop cfg tb cubeCorners cornerIndices rest)

/-- Marching of one cube, `terrain.cc` lines 123-205. -/
def march (cfg : Config) (tb : Tables) (x y z segment : Int) (points : List Vector4)
    (st : MeshState) : Option MeshState := do
  let cubeCorners ← cubeCornersOf x y z segment points
  let cornerIndices := cornerIndicesOf x y z segment
  let cubeIndex := cubeIndexOf cfg cubeCorners
  if cubeIndex = 0 then some st
  else do
    let row ← tb.triangulation.get? cubeIndex
    triLoop cfg tb cubeCorners cornerIndices row st

/-! ## `createChunk` and `generateTerrain` -/

/-- The value-initialised `Vector4` that `resize` fills the lattice with. -/
def zero4 : Vector4 := ⟨Flt.fin 0, Flt.fin 0, Flt.fin 0, Flt.fin 0⟩

/-- The sampling loops of `createChunk`, `terrain.cc` lines 226-232. -/
def sampleLoops (noise3 : Flt → Flt → Flt → Flt) (cfg : Config) (originPos : Vector3)
    (unitSize : Flt) (segment : Int) (points : List Vector4) : Option (List Vector4) :=
  forRange (segment + 1).toNat (fun i pts =>
    forRange (segment + 1).toNat (fun j pts =>
      forRange (segment + 1).toNat (fun k pts =>
        density noise3 cfg i j k originPos unitSize segment pts) pts) pts) points

/-- Allocation and sampling of the lattice of a chunk, `terrain.cc`
lines 215-232.  A negative size handed to `resize` fails. -/
def sampleLattice (noise3 : Flt → Flt → Flt → Flt) (cfg : Config) (origin : Vector3)
    (chunkSize : Flt) (segment : Int) : Option (List Vector4) :=
  let unitSize := Flt.div chunkSize (Flt.ofInt segment)
  let originPos : Vector3 := ⟨origin.x, origin.y, origin.z⟩
  let size : Int := (segment + 1) ^ 3
  if size < 0 then none
  else sampleLoops noise3 cfg originPos unitSize segment (List.replicate size.toNat zero4)

/-- The marching loops of `createChunk`, `terrain.cc` lines 236-242. -/
def marchLoops (cfg : Config) (tb : Tables) (segment : Int) (points : List Vector4)
    (st : MeshState) : Option MeshState :=
  forRange segment.toNat (fun i st =>
    forRange segment.toNat (fun j st =>
      forRange segment.toNat (fun k st =>
        march cfg tb i j k segment points st) st) st) st

/-- The state in which `createChunk` ends: the accumulators, the dictionary of
the chunk and the local running index. -/
def createChunkState (noise3 : Flt → Flt → Flt → Flt) (cfg : Config) (tb : Tables)
    (origin : Vector3) (chunkSize : Flt) (segment : Int) (vertices : List Vector3)
    (indices : List Int) (indexOffset : Int) : Option MeshState := do
  let points ← sampleLattice noise3 cfg origin chunkSize segment
  marchLoops cfg tb segment points
    { vertices := vertices, indices := indices, vertexDic := [], index := indexOffset }

/-- Processing of one chunk, `terrain.cc` lines 208-244: the accumulators
after the call. -/
def createChunk (noise3 : Flt → Flt → Flt → Flt) (cfg : Config) (tb : Tables)
    (origin : Vector3) (chunkSize : Flt) (segment : Int) (vertices : List Vector3)
    (indices : List Int) (indexOffset : Int) : Option (List Vector3 × List Int) :=
  (createChunkState noise3 cfg tb origin chunkSize segment vertices indices indexOffset).map
    (fun st => (st.vertices, st.indices))

/-- The block handed to the caller: the two counts and the two arrays that
words 2 and 3 point to. -/
structure OutputBlock where
  word0 : Int
  word1 : Int
  vertexBuffer : List Flt
  faceBuffer : List Int
deriving DecidableEq

/-- Packing of the accumulators, `terrain.cc` lines 43-59: the counts, and the
`vertexCount` floats and `faceCount` ints that the two `memcpy` calls copy.
For an empty sequence the address `&(v.front())` is formed but no element is
read, the count being 0: the copied array is empty. -/
def pack (vertices : List Vector3) (indices : List Int) : OutputBlock :=
  let vertexCount : Int := (vertices.length : Int) * 3
  let faceCount : Int := (indices.length : Int)
  { word0 := vertexCount
    word1 := faceCount
    vertexBuffer := ((vertices.map (fun v => [v.x, v.y, v.z])).flatten).take vertexCount.toNat
    faceBuffer := indices.take faceCount.toNat }

/-- The value `(int)pow(2, levelCount)`: a negative exponent gives a fraction,
which the conversion truncates to 0.  The power is taken exactly (no
wrap-around for exponents of 31 and more). -/
def chunkCountOf (levelCount : Int) : Int :=
  if 0 ≤ levelCount then 2 ^ levelCount.toNat else 0

/-- Origin of chunk `(i, j)`, `terrain.cc` lines 35-38. -/
def chunkOrigin (chunkCount : Int) (chunkSize : Flt) (i j : Int) : Vector3 :=
  ⟨Flt.mul (Flt.ofInt (i - chunkCount / 2)) chunkSize, Flt.fin 0,
    Flt.mul (Flt.ofInt (j - chunkCount / 2)) chunkSize⟩

/-- The chunk loops of `generateTerrain`, `terrain.cc` lines 25-41: the
accumulated vertex and index sequences. -/
def generateMesh (noise3 : Flt → Flt → Flt → Flt) (cfg : Config) (tb : Tables)
    (size : Flt) (levelCount maxSegment : Int) : Option (List Vector3 × List Int) :=
  let chunkCount := chunkCountOf levelCount
  let chunkSize := Flt.div size (Flt.ofInt chunkCount)
  forRange chunkCount.toNat (fun i acc =>
    forRange chunkCount.toNat (fun j acc =>
      createChunk noise3 cfg tb (chunkOrigin chunkCount chunkSize i j) chunkSize maxSegment
        acc.1 acc.2 (acc.1.length : Int)) acc) ([], [])

/-- The entry point, `terrain.cc` lines 23-60. -/
def generateTerrain (noise3 : Flt → Flt → Flt → Flt) (cfg : Config) (tb : Tables)
    (size : Flt) (levelCount maxSegment : Int) : Option OutputBlock :=
  (generateMesh noise3 cfg tb size levelCount maxSegment).map (fun acc => pack acc.1 acc.2)

/-! ## The sequence of edges that a chunk visits

`march` handles the edges of the triangles of a cube one after the other.  The
edges visited, and their order, depend on the lattice and the tables only, not
on the accumulators: the definitions below list them, following the control
flow of `march` and of the marching loops of `createChunk`, and
`weldVisit` is the update that `march` performs for one of them. -/

/-- One visited triangle edge: the flat lattice indices of its two corners
(`cornerIndices[v[0]]`, `cornerIndices[v[1]]`) and the two corner samples. -/
structure EdgeVisit where
  ia : Int
  ib : Int
  ca : Vector4
  cb : Vector4

/-- The update of `terrain.cc` lines 186-202 for one visited edge. -/
def weldVisit (cfg : Config) (st : MeshState) (e : EdgeVisit) : MeshState :=
  let vInx := vertexKey e.ia e.ib
  match dicFind st.vertexDic vInx with
  | some vertexIndex => { st with indices := st.indices ++ [vertexIndex] }
  | none =>
      { vertices := st.vertices ++ [interpolateVerts cfg e.ca e.cb]
        indices := st.indices ++ [st.index]
        vertexDic := (vInx, st.index) :: st.vertexDic
        index := st.index + 1 }

/-- The visit of the edge joining corners `seg.1` and `seg.2` of a cube. -/
def visitOf (cubeCorners : List Vector4) (cornerIndices : List Int) (seg : Int × Int) :
    Option EdgeVisit := do
  let ia ← getI cornerIndices seg.1
  let ib ← getI cornerIndices seg.2
  let ca ← getI cubeCorners seg.1
  let cb ← getI cubeCorners seg.2
  some ⟨ia, ib, ca, cb⟩

/-- The three visits of one triangle, in the order edge 0, edge 2, edge 1. -/
def triangleVisits (tb : Tables) (cubeCorners : List Vector4) (cornerIndices : List Int)
    (e0 e1 e2 : Int) : Option (List EdgeVisit) := do
  let a0 ← getI tb.cornerIndexAFromEdge e0
  let b0 ← getI tb.cornerIndexBFromEdge e0
  let a1 ← getI tb.cornerIndexAFromEdge e1
  let b1 ← getI tb.cornerIndexBFromEdge e1
  let a2 ← getI tb.cornerIndexAFromEdge e2
  let b2 ← getI tb.cornerIndexBFromEdge e2
  let v0 ← visitOf cubeCorners cornerIndices (a0, b0)
  let v2 ← visitOf cubeCorners cornerIndices (a2, b2)
  let v1 ← visitOf cubeCorners cornerIndices (a1, b1)
  some [v0, v2, v1]

/-- The visits of the triangles of a row of the triangulation table. -/
def rowVisits (tb : Tables) (cubeCorners : List Vector4) (cornerIndices : List Int) :
    List Int → Option (List EdgeVisit)
  | [] => none
  | [e0] => if e0 = -1 then some [] else none
  | [e0, _] => if e0 = -1 then some [] else none
  | e0 :: e1 :: e2 :: rest =>
      if e0 = -1 then some []
      else
        (triangleVisits tb cubeCorners cornerIndices e0 e1 e2).bind fun t =>
          (rowVisits tb cubeCorners cornerIndices rest).map fun r => t ++ r

/-- The visits of one `march` call. -/
def marchVisits (cfg : Config) (tb : Tables) (x y z segment : Int) (points : List Vector4) :
    Option (List EdgeVisit) := do
  let cubeCorners ← cubeCornersOf x y z segment points
  let cornerIndices := cornerIndicesOf x y z segment
  let cubeIndex := cubeIndexOf cfg cubeCorners
  if cubeIndex = 0 then some []
  else do
    let row ← tb.triangulation.get? cubeIndex
    rowVisits tb cubeCorners cornerIndices row

/-- The visits of the marching loops of a chunk, in the order of the loops. -/
def chunkVisits (cfg : Config) (tb : Tables) (segment : Int) (points : List Vector4) :
    Option (List EdgeVisit) :=
  forRange segment.toNat (fun i acc =>
    forRange segment.toNat (fun j acc =>
      forRange segment.toNat (fun k acc =>
        (marchVisits cfg tb i j k segment points).map fun t => acc ++ t) acc) acc) []

/-- Two visits concern the same unordered pair of lattice indices. -/
def samePair (e1 e2 : EdgeVisit) : Prop :=
  (e1.ia = e2.ia ∧ e1.ib = e2.ib) ∨ (e1.ia = e2.ib ∧ e1.ib = e2.ia)

instance (e1 e2 : EdgeVisit) : Decidable (samePair e1 e2) := by
  unfold samePair; infer_instance

/-- The values of a list of indices in the order of their first occurrence. -/
def firstOccurrences (l : List Int) : List Int :=
  l.foldl (fun acc i => if i ∈ acc then acc else acc ++ [i]) []

/-! ## Invariants of the accumulators -/

/-- Every index of the index sequence refers to a vertex of the vertex sequence. -/
def ValidIndices (vertices : List Vector3) (indices : List Int) : Prop :=
  ∀ i ∈ indices, 0 ≤ i ∧ i < (vertices.length : Int)

/-- Every index recorded in the dictionary refers to a vertex. -/
def ValidDic (st : MeshState) : Prop :=
  ∀ k v, dicFind st.vertexDic k = some v → 0 ≤ v ∧ v < (st.vertices.length : Int)

/-- The running index is the vertex count, and the indices stored in the
dictionary and in the index sequence refer to vertices. -/
def IdxInv (st : MeshState) : Prop :=
  st.index = (st.vertices.length : Int) ∧ ValidDic st ∧ ValidIndices st.vertices st.indices

/-- The running index and the recorded indices are at least `offset`. -/
def LowInv (offset : Int) (st : MeshState) : Prop :=
  offset ≤ st.index ∧ ∀ k v, dicFind st.vertexDic k = some v → offset ≤ v

/-- The indices `0, 1, ..., n - 1`. -/
def upTo (n : Nat) : List Int := (List.range n).map Int.ofNat

/-- Lattice coordinates: each of `x`, `y`, `z` in `[0, segment]`. -/
def InLattice (segment x y z : Int) : Prop :=
  (0 ≤ x ∧ x ≤ segment) ∧ (0 ≤ y ∧ y ≤ segment) ∧ (0 ≤ z ∧ z ≤ segment)

/-- The lattice has its allocated size and holds, at every lattice point
selected by `S`, the sample that `density` computes for it. -/
def Sampled (noise3 : Flt → Flt → Flt → Flt) (cfg : Config) (origin : Vector3)
    (unitSize : Flt) (segment : Int) (S : Int → Int → Int → Prop) (pts : List Vector4) :
    Prop :=
  (pts.length : Int) = (segment + 1) ^ 3 ∧
  ∀ x y z, InLattice segment x y z → S x y z →
    getI pts (indexFromCoord x y z segment)
      = some (densityValue noise3 cfg x y z origin unitSize)

/-- The accumulated mesh is consistent: every index refers to a vertex, the
indices come in triplets, and the indices in the order of their first
occurrence are `0, 1, ..., n - 1` for `n` vertices. -/
def MeshOK (acc : List Vector3 × List Int) : Prop :=
  ValidIndices acc.1 acc.2 ∧ (∃ k, acc.2.length = 3 * k) ∧
    firstOccurrences acc.2 = upTo acc.1.length

/-- The state in which `createChunk` starts the marching loops. -/
def chunkStart (vertices : List Vector3) (indices : List Int) (indexOffset : Int) :
    MeshState :=
  { vertices := vertices, indices := indices, vertexDic := [], index := indexOffset }

/-! ## Concrete inputs used to instantiate the statements -/

/-- Tables in the format of `mc.h`: configurations 0 and 255 have an empty row,
every other configuration has the single triangle on edges 0, 8, 3; the corner
tables give the two end corners of each of the twelve edges. -/
def exampleTables : Tables where
  triangulation := [-1] :: (List.replicate 254 [0, 8, 3, -1] ++ [[-1]])
  cornerIndexAFromEdge := [0, 1, 2, 3, 4, 5, 6, 7, 0, 1, 2, 3]
  cornerIndexBFromEdge := [1, 2, 3, 0, 5, 6, 7, 4, 4, 5, 6, 7]

/-- A `2 x 2 x 2` lattice (`segment = 1`) whose corner `(0, 0, 0)` alone lies
under the iso-level 0. -/
def examplePoints : List Vector4 :=
  [⟨Flt.fin 0, Flt.fin 0, Flt.fin 0, Flt.fin (-1)⟩,
   ⟨Flt.fin 1, Flt.fin 0, Flt.fin 0, Flt.fin 1⟩,
   ⟨Flt.fin 0, Flt.fin 1, Flt.fin 0, Flt.fin 1⟩,
   ⟨Flt.fin 1, Flt.fin 1, Flt.fin 0, Flt.fin 1⟩,
   ⟨Flt.fin 0, Flt.fin 0, Flt.fin 1, Flt.fin 1⟩,
   ⟨Flt.fin 1, Flt.fin 0, Flt.fin 1, Flt.fin 1⟩,
   ⟨Flt.fin 0, Flt.fin 1, Flt.fin 1, Flt.fin 1⟩,
   ⟨Flt.fin 1, Flt.fin 1, Flt.fin 1, Flt.fin 1⟩]

/-- A noise primitive that is 0 everywhere. -/
def zeroNoise : Flt → Flt → Flt → Flt := fun _ _ _ => Flt.fin 0

/-- The value is representable as a 32-bit `int`. -/
def FitsInt (n : Int) : Prop := -2 ^ 31 ≤ n ∧ n < 2 ^ 31

/-! ## Finite samples -/

/-- The position with the three finite coordinates `x`, `y`, `z`. -/
def vec3 (x y z : ℚ) : Vector3 := ⟨Flt.fin x, Flt.fin y, Flt.fin z⟩

/-- The sample at the finite position `(x, y, z)` with the finite density `w`. -/
def vec4 (x y z w : ℚ) : Vector4 := ⟨Flt.fin x, Flt.fin y, Flt.fin z, Flt.fin w⟩

/-- The two corner samples of a visit are the lattice entries at its two flat
indices. -/
def FromLattice (points : List Vector4) (e : EdgeVisit) : Prop :=
  getI points e.ia = some e.ca ∧ getI points e.ib = some e.cb

/-- The configuration bit of a corner sample: 1 when its density is strictly
below the iso-level, 0 otherwise. -/
def bitOf (cfg : Config) (c : Vector4) : Nat :=
  if Flt.lt c.w cfg.isoLevel then 1 else 0

/-- Inside in the sense of the density contract of the spec: the density of
the sample is strictly below the iso-level. -/
def inside (cfg : Config) (c : Vector4) : Bool := Flt.lt c.w cfg.isoLevel

/-- The origins of the chunks in the order in which the chunk loops of
`generateTerrain` process them: `i` in the outer loop, `j` in the inner one. -/
def chunkOrigins (chunkCount : Int) (chunkSize : Flt) : List Vector3 :=
  (List.range chunkCount.toNat).flatMap fun (i : Nat) =>
    (List.range chunkCount.toNat).map fun (j : Nat) =>
      chunkOrigin chunkCount chunkSize (i : Int) (j : Int)

/-- The coordinate `(i - chunkCount / 2) * chunkSize` of a chunk origin over
the rationals, for `chunkSize = size / chunkCount`; the division of
`chunkCount` by 2 is the integer one. -/
def originCoord (chunkCount : Int) (size : ℚ) (i : Int) : ℚ :=
  ((i - chunkCount / 2 : Int) : ℚ) * (size / (chunkCount : ℚ))

/-- The default tunables with `hardFloorWeight` set to the finite value `h`. -/
def withHardFloorWeight (h : ℚ) : Config :=
  { defaults with hardFloorWeight := Flt.fin h }

/-! ## 32-bit index arithmetic -/

/-- Reduction of an integer to the range of a 32-bit `int` in two's complement:
the value held after an `int` operation whose exact result is `n`.  (Signed
overflow is undefined in C++; the compiled code wraps around, as WebAssembly
`i32` arithmetic does.) -/
def wrapInt32 (n : Int) : Int := (n + 2 ^ 31) % 2 ^ 32 - 2 ^ 31

/-- Flat lattice index as computed in 32-bit `int` arithmetic, `terrain.cc`
lines 62-65: `int seg = segment + 1; return z * seg * seg + y * seg + x;` with
every operation reduced by `wrapInt32`. -/
def indexFromCoord32 (x y z segment : Int) : Int :=
  let seg := wrapInt32 (segment + 1)
  wrapInt32 (wrapInt32 (wrapInt32 (wrapInt32 (z * seg) * seg) + wrapInt32 (y * seg)) + x)

/-- The lattice write of `density`, `terrain.cc` lines 119-120, with the index
computed in 32-bit arithmetic. -/
def density32 (noise3 : Flt → Flt → Flt → Flt) (cfg : Config) (x y z : Int)
    (origin : Vector3) (unitSize : Flt) (segment : Int) (points : List Vector4) :
    Option (List Vector4) :=
  let index := indexFromCoord32 x y z segment
  setI points index (densityValue noise3 cfg x y z origin unitSize)

/-- The indices of the eight corner reads of `march`, `terrain.cc` lines
130-139 (the same eight expressions fill `cornerIndices`, lines 141-150),
computed in 32-bit arithmetic. -/
def cornerIndicesOf32 (x y z segment : Int) : List Int :=
  [indexFromCoord32 x y z segment,
   indexFromCoord32 (wrapInt32 (x + 1)) y z segment,
   indexFromCoord32 (wrapInt32 (x + 1)) y (wrapInt32 (z + 1)) segment,
   indexFromCoord32 x y (wrapInt32 (z + 1)) segment,
   indexFromCoord32 x (wrapInt32 (y + 1)) z segment,
   indexFromCoord32 (wrapInt32 (x + 1)) (wrapInt32 (y + 1)) z segment,
   indexFromCoord32 (wrapInt32 (x + 1)) (wrapInt32 (y + 1)) (wrapInt32 (z + 1)) segment,
   indexFromCoord32 x (wrapInt32 (y + 1)) (wrapInt32 (z + 1)) segment]

/-! ## Lattice indexing -/

/-- Uniqueness of quotient and remainder. -/
theorem divmod_unique (s a x b y : Int) (hx0 : 0 ≤ x) (hx : x < s) (hy0 : 0 ≤ y) (hy : y < s)
    (h : a * s + x = b * s + y) : a = b ∧ x = y := by
  have hs : 0 < s := lt_of_le_of_lt hx0 hx
  have e1 : (a * s + x) % s = x := by
    rw [add_comm, Int.add_mul_emod_self]; exact Int.emod_eq_of_lt hx0 hx
  have e2 : (b * s + y) % s = y := by
    rw [add_comm, Int.add_mul_emod_self]; exact Int.emod_eq_of_lt hy0 hy
  have hxy : x = y := by rw [← e1, ← e2, h]
  subst hxy
  have : a * s = b * s := by linarith
  exact ⟨Int.eq_of_mul_eq_mul_right (ne_of_gt hs) this, rfl⟩

theorem indexFromCoord_inj (segment x y z x' y' z' : Int)
    (hx0 : 0 ≤ x) (hx : x ≤ segment) (hy0 : 0 ≤ y) (hy : y ≤ segment)
    (hx0' : 0 ≤ x') (hx' : x' ≤ segment) (hy0' : 0 ≤ y') (hy' : y' ≤ segment)
    (h : indexFromCoord x y z segment = indexFromCoord x' y' z' segment) :
    x = x' ∧ y = y' ∧ z = z' := by
  unfold indexFromCoord at h
  simp only at h
  have h1 : (z * (segment + 1) + y) * (segment + 1) + x
      = (z' * (segment + 1) + y') * (segment + 1) + x' := by linarith
  obtain ⟨h2, hxx⟩ := divmod_unique (segment + 1) _ x _ x' hx0 (by omega) hx0' (by omega) h1
  obtain ⟨hzz, hyy⟩ := divmod_unique (segment + 1) z y z' y' hy0 (by omega) hy0' (by omega) h2
  exact ⟨hxx, hyy, hzz⟩

theorem indexFromCoord_range (segment x y z : Int)
    (hx0 : 0 ≤ x) (hx : x ≤ segment) (hy0 : 0 ≤ y) (hy : y ≤ segment)
    (hz0 : 0 ≤ z) (hz : z ≤ segment) :
    0 ≤ indexFromCoord x y z segment ∧ indexFromCoord x y z segment < (segment + 1) ^ 3 := by
  unfold indexFromCoord
  simp only
  have hs : 0 ≤ segment := le_trans hx0 hx
  constructor
  · positivity
  · have h1 : z * (segment + 1) * (segment + 1) ≤ segment * (segment + 1) * (segment + 1) := by
      have : z * (segment + 1) ≤ segment * (segment + 1) :=
        mul_le_mul_of_nonneg_right hz (by omega)
      exact mul_le_mul_of_nonneg_right this (by omega)
    have h2 : y * (segment + 1) ≤ segment * (segment + 1) :=
      mul_le_mul_of_nonneg_right hy (by omega)
    nlinarith

theorem indexFromCoord_surj (segment n : Int) (hs : 0 ≤ segment) (hn0 : 0 ≤ n)
    (hn : n < (segment + 1) ^ 3) :
    ∃ x y z : Int, (0 ≤ x ∧ x ≤ segment) ∧ (0 ≤ y ∧ y ≤ segment) ∧ (0 ≤ z ∧ z ≤ segment) ∧
      indexFromCoord x y z segment = n := by
  have hpos : 0 < segment + 1 := by omega
  refine ⟨n % (segment + 1), (n / (segment + 1)) % (segment + 1),
    n / (segment + 1) / (segment + 1), ?_, ?_, ?_, ?_⟩
  · have := Int.emod_nonneg n (ne_of_gt hpos)
    have := Int.emod_lt_of_pos n hpos
    omega
  · have := Int.emod_nonneg (n / (segment + 1)) (ne_of_gt hpos)
    have := Int.emod_lt_of_pos (n / (segment + 1)) hpos
    omega
  · constructor
    · exact Int.ediv_nonneg (Int.ediv_nonneg hn0 (le_of_lt hpos)) (le_of_lt hpos)
    · have h1 : n / (segment + 1) / (segment + 1) < segment + 1 := by
        rw [Int.ediv_lt_iff_lt_mul hpos, Int.ediv_lt_iff_lt_mul hpos]
        calc n < (segment + 1) ^ 3 := hn
          _ = (segment + 1) * (segment + 1) * (segment + 1) := by ring
      omega
  · unfold indexFromCoord
    simp only
    have e1 := Int.ediv_add_emod n (segment + 1)
    have e2 := Int.ediv_add_emod (n / (segment + 1)) (segment + 1)
    nlinarith

/-- In a lattice whose size `(segment + 1) ^ 3` is an `int`, every intermediate
value of `indexFromCoord` at a lattice point is an `int` too: the computation
over `Int` is the one the machine performs. -/
theorem indexFromCoord_fits (segment x y z : Int) (hin : InLattice segment x y z)
    (hsize : (segment + 1) ^ 3 < 2 ^ 31) :
    FitsInt (segment + 1) ∧ FitsInt (z * (segment + 1)) ∧
    FitsInt (z * (segment + 1) * (segment + 1)) ∧ FitsInt (y * (segment + 1)) ∧
    FitsInt (z * (segment + 1) * (segment + 1) + y * (segment + 1)) ∧
    FitsInt (indexFromCoord x y z segment) := by
  obtain ⟨⟨hx0, hx⟩, ⟨hy0, hy⟩, ⟨hz0, hz⟩⟩ := hin
  obtain ⟨h0, h1⟩ := indexFromCoord_range segment x y z hx0 hx hy0 hy hz0 hz
  unfold indexFromCoord at h0 h1
  simp only at h0 h1
  have hs : 0 ≤ segment := le_trans hx0 hx
  have a1 : 0 ≤ z * (segment + 1) := by positivity
  have a2 : 0 ≤ z * (segment + 1) * (segment + 1) := by positivity
  have a3 : 0 ≤ y * (segment + 1) := by positivity
  have a4 : z * (segment + 1) ≤ z * (segment + 1) * (segment + 1) :=
    le_mul_of_one_le_right a1 (by omega)
  have a5 : segment + 1 ≤ (segment + 1) ^ 3 := by
    have : (1 : Int) ≤ segment + 1 := by omega
    nlinarith [mul_nonneg hs hs]
  unfold FitsInt indexFromCoord
  simp only
  refine ⟨⟨by omega, by omega⟩, ⟨by omega, by omega⟩, ⟨by omega, by omega⟩,
    ⟨by omega, by omega⟩, ⟨by omega, by omega⟩, ⟨by omega, by omega⟩⟩

/-! ## 32-bit index computation -/

/-- A value in the range of an `int` is left unchanged by the reduction. -/
theorem wrapInt32_of_fits (n : Int) (h : FitsInt n) : wrapInt32 n = n := by
  unfold FitsInt at h
  unfold wrapInt32
  omega

/-- The reduction always yields a value in the range of an `int`. -/
theorem wrapInt32_fits (n : Int) : FitsInt (wrapInt32 n) := by
  unfold FitsInt wrapInt32
  omega

/-- In a lattice whose size is below `2 ^ 31` the 32-bit computation of the
index of a lattice point does not overflow: it yields the exact value. -/
theorem indexFromCoord32_eq (segment x y z : Int) (hin : InLattice segment x y z)
    (hsize : (segment + 1) ^ 3 < 2 ^ 31) :
    indexFromCoord32 x y z segment = indexFromCoord x y z segment := by
  obtain ⟨f1, f2, f3, f4, f5, f6⟩ := indexFromCoord_fits segment x y z hin hsize
  unfold indexFromCoord at f6 ⊢
  unfold indexFromCoord32
  simp only at f6 ⊢
  rw [wrapInt32_of_fits _ f1, wrapInt32_of_fits _ f2, wrapInt32_of_fits _ f3,
    wrapInt32_of_fits _ f4, wrapInt32_of_fits _ f5, wrapInt32_of_fits _ f6]

/-- In a lattice whose size is below `2 ^ 31` the eight corner indices of a cube
in range are computed without overflow. -/
theorem cornerIndicesOf32_eq (segment x y z : Int) (hx0 : 0 ≤ x) (hx : x < segment)
    (hy0 : 0 ≤ y) (hy : y < segment) (hz0 : 0 ≤ z) (hz : z < segment)
    (hsize : (segment + 1) ^ 3 < 2 ^ 31) :
    cornerIndicesOf32 x y z segment = cornerIndicesOf x y z segment := by
  have hs := (indexFromCoord_fits segment x y z
    ⟨⟨hx0, by omega⟩, ⟨hy0, by omega⟩, ⟨hz0, by omega⟩⟩ hsize).1
  have wx : wrapInt32 (x + 1) = x + 1 :=
    wrapInt32_of_fits _ (by unfold FitsInt at hs ⊢; omega)
  have wy : wrapInt32 (y + 1) = y + 1 :=
    wrapInt32_of_fits _ (by unfold FitsInt at hs ⊢; omega)
  have wz : wrapInt32 (z + 1) = z + 1 :=
    wrapInt32_of_fits _ (by unfold FitsInt at hs ⊢; omega)
  have e : ∀ a b c : Int, 0 ≤ a → a ≤ segment → 0 ≤ b → b ≤ segment → 0 ≤ c → c ≤ segment →
      indexFromCoord32 a b c segment = indexFromCoord a b c segment :=
    fun a b c ha0 ha hb0 hb hc0 hc =>
      indexFromCoord32_eq segment a b c ⟨⟨ha0, ha⟩, ⟨hb0, hb⟩, ⟨hc0, hc⟩⟩ hsize
  unfold cornerIndicesOf32 cornerIndicesOf
  rw [wx, wy, wz,
    e x y z (by omega) (by omega) (by omega) (by omega) (by omega) (by omega),
    e (x + 1) y z (by omega) (by omega) (by omega) (by omega) (by omega) (by omega),
    e (x + 1) y (z + 1) (by omega) (by omega) (by omega) (by omega) (by omega) (by omega),
    e x y (z + 1) (by omega) (by omega) (by omega) (by omega) (by omega) (by omega),
    e x (y + 1) z (by omega) (by omega) (by omega) (by omega) (by omega) (by omega),
    e (x + 1) (y + 1) z (by omega) (by omega) (by omega) (by omega) (by omega) (by omega),
    e (x + 1) (y + 1) (z + 1) (by omega) (by omega) (by omega) (by omega) (by omega)
      (by omega),
    e x (y + 1) (z + 1) (by omega) (by omega) (by omega) (by omega) (by omega) (by omega)]

/-- Over the exact integers the index formula is a bijection from `[0, s)³`
onto `[0, s³)`, `s = segment + 1`, for every `0 ≤ segment`. -/
theorem indexFromCoord_exact_bijOn (segment : Int) (hseg : 0 ≤ segment) :
    Set.BijOn (fun p : Int × Int × Int => indexFromCoord p.1 p.2.1 p.2.2 segment)
      {p | (0 ≤ p.1 ∧ p.1 < segment + 1) ∧ (0 ≤ p.2.1 ∧ p.2.1 < segment + 1) ∧
        (0 ≤ p.2.2 ∧ p.2.2 < segment + 1)}
      {n | 0 ≤ n ∧ n < (segment + 1) ^ 3} := by
  refine ⟨?_, ?_, ?_⟩
  · rintro ⟨x, y, z⟩ hp
    simp only [Set.mem_setOf_eq] at hp ⊢
    obtain ⟨⟨hx0, hx⟩, ⟨hy0, hy⟩, ⟨hz0, hz⟩⟩ := hp
    exact indexFromCoord_range segment x y z hx0 (by omega) hy0 (by omega) hz0 (by omega)
  · rintro ⟨x, y, z⟩ hp ⟨x', y', z'⟩ hp' h
    simp only [Set.mem_setOf_eq] at hp hp' h
    obtain ⟨⟨hx0, hx⟩, ⟨hy0, hy⟩, _⟩ := hp
    obtain ⟨⟨hx0', hx'⟩, ⟨hy0', hy'⟩, _⟩ := hp'
    obtain ⟨rfl, rfl, rfl⟩ := indexFromCoord_inj segment x y z x' y' z' hx0 (by omega) hy0
      (by omega) hx0' (by omega) hy0' (by omega) h
    rfl
  · rintro n ⟨hn0, hn⟩
    obtain ⟨x, y, z, hx, hy, hz, h⟩ := indexFromCoord_surj segment n hseg hn0 hn
    refine ⟨(x, y, z), ?_, h⟩
    simp only [Set.mem_setOf_eq]
    exact ⟨⟨hx.1, by omega⟩, ⟨hy.1, by omega⟩, ⟨hz.1, by omega⟩⟩

/-! ## Non-finite values -/

theorem Flt.add_nonfinite (a b : Flt) (hb : b.isFinite = false) :
    (Flt.add a b).isFinite = false := by
  cases a <;> cases b <;> simp_all [Flt.add, Flt.isFinite]
  split_ifs <;> simp

theorem Flt.mul_nonfinite (a b : Flt) (hb : b.isFinite = false) :
    (Flt.mul a b).isFinite = false := by
  cases a <;> cases b <;> simp_all [Flt.mul, Flt.isFinite]
  all_goals split_ifs <;> simp

theorem Flt.div_sub_self_nonfinite (a w : Flt) :
    (Flt.div a (Flt.sub w w)).isFinite = false := by
  cases a <;> cases w <;> simp [Flt.div, Flt.sub, Flt.add, Flt.neg, Flt.isFinite]
  all_goals split_ifs <;> simp

/-! ## Loops and visits -/

theorem forRange_zero {σ : Type} (body : Int → σ → Option σ) (s : σ) :
    forRange 0 body s = some s := rfl

theorem forRange_succ {σ : Type} (n : Nat) (body : Int → σ → Option σ) (s : σ) :
    forRange (n + 1) body s = (forRange n body s).bind (body (n : Int)) := by
  unfold forRange
  rw [List.range_succ, List.foldlM_append]
  simp [List.foldlM]

/-- Total loop rule: an invariant that every iteration re-establishes. -/
theorem forRange_total {σ : Type} (P : Nat → σ → Prop) (n : Nat) (body : Int → σ → Option σ)
    (s : σ) (h0 : P 0 s)
    (hstep : ∀ i, i < n → ∀ t, P i t → ∃ t', body (i : Int) t = some t' ∧ P (i + 1) t') :
    ∃ t, forRange n body s = some t ∧ P n t := by
  induction n with
  | zero => exact ⟨s, rfl, h0⟩
  | succ m ih =>
    obtain ⟨t, ht, hP⟩ := ih (fun i hi => hstep i (Nat.lt_succ_of_lt hi))
    obtain ⟨t', ht', hP'⟩ := hstep m (Nat.lt_succ_self m) t hP
    exact ⟨t', by rw [forRange_succ, ht]; exact ht', hP'⟩

/-- Partial loop rule: what holds of the result when the loop returns. -/
theorem forRange_partial {σ : Type} (P : Nat → σ → Prop) (n : Nat)
    (body : Int → σ → Option σ) (s : σ) (h0 : P 0 s)
    (hstep : ∀ i, i < n → ∀ t t', P i t → body (i : Int) t = some t' → P (i + 1) t')
    (r : σ) (hr : forRange n body s = some r) : P n r := by
  induction n generalizing r with
  | zero =>
    rw [forRange_zero] at hr
    cases hr; exact h0
  | succ m ih =>
    rw [forRange_succ] at hr
    cases hm : forRange m body s with
    | none => rw [hm] at hr; cases hr
    | some t =>
      rw [hm] at hr
      exact hstep m (Nat.lt_succ_self m) t r
        (ih (fun i hi => hstep i (Nat.lt_succ_of_lt hi)) t hm) hr

theorem getI_isSome_iff {α : Type} (l : List α) (i : Int) :
    (∃ a, getI l i = some a) ↔ (0 ≤ i ∧ i < (l.length : Int)) := by
  unfold getI
  constructor
  · rintro ⟨a, h⟩
    split at h
    · rename_i h0
      have := List.get?_eq_some.mp h
      obtain ⟨hlt, _⟩ := this
      omega
    · cases h
  · rintro ⟨h0, hlt⟩
    rw [if_pos h0]
    have hlt' : i.toNat < l.length := by omega
    exact ⟨l.get ⟨i.toNat, hlt'⟩, List.get?_eq_get hlt'⟩

theorem getI_some_of_range {α : Type} (l : List α) (i : Int) (h0 : 0 ≤ i)
    (hlt : i < (l.length : Int)) : ∃ a, getI l i = some a :=
  (getI_isSome_iff l i).mpr ⟨h0, hlt⟩

theorem getI_range_of_some {α : Type} (l : List α) (i : Int) (a : α) (h : getI l i = some a) :
    0 ≤ i ∧ i < (l.length : Int) :=
  (getI_isSome_iff l i).mp ⟨a, h⟩

/-- The update of `march` for an edge is the update for its visit. -/
theorem weldEdge_eq_visit (cfg : Config) (cc : List Vector4) (ci : List Int)
    (hlen : cc.length = ci.length) (st : MeshState) (seg : Int × Int) :
    weldEdge cfg cc ci st seg = (visitOf cc ci seg).map (weldVisit cfg st) := by
  unfold weldEdge visitOf
  cases ha : getI ci seg.1 with
  | none => simp
  | some ia =>
    cases hb : getI ci seg.2 with
    | none => simp
    | some ib =>
      obtain ⟨ha0, ha1⟩ := getI_range_of_some _ _ _ ha
      obtain ⟨hb0, hb1⟩ := getI_range_of_some _ _ _ hb
      obtain ⟨ca, hca⟩ := getI_some_of_range cc seg.1 ha0 (by omega)
      obtain ⟨cb, hcb⟩ := getI_some_of_range cc seg.2 hb0 (by omega)
      simp only [hca, hcb, Option.bind_eq_bind, Option.some_bind, Option.map_some',
        weldVisit]
      cases dicFind st.vertexDic (vertexKey ia ib) <;> rfl

theorem bind_map_comm {α β γ : Type} (o : Option α) (f : α → Option γ)
    (g : α → Option β) (h : β → γ) (H : ∀ a, f a = (g a).map h) :
    o.bind f = (o.bind g).map h := by
  cases o with
  | none => rfl
  | some a => exact H a

theorem emitTriangle_eq_visits (cfg : Config) (tb : Tables) (cc : List Vector4)
    (ci : List Int) (hlen : cc.length = ci.length) (e0 e1 e2 : Int) (st : MeshState) :
    emitTriangle cfg tb cc ci e0 e1 e2 st
      = (triangleVisits tb cc ci e0 e1 e2).map (fun vs => vs.foldl (weldVisit cfg) st) := by
  unfold emitTriangle triangleVisits
  simp only [Option.bind_eq_bind]
  refine bind_map_comm _ _ _ _ (fun a0 => ?_)
  refine bind_map_comm _ _ _ _ (fun b0 => ?_)
  refine bind_map_comm _ _ _ _ (fun a1 => ?_)
  refine bind_map_comm _ _ _ _ (fun b1 => ?_)
  refine bind_map_comm _ _ _ _ (fun a2 => ?_)
  refine bind_map_comm _ _ _ _ (fun b2 => ?_)
  simp only [List.foldlM_cons, List.foldlM_nil, Option.bind_eq_bind,
    weldEdge_eq_visit cfg cc ci hlen]
  cases visitOf cc ci (a0, b0) with
  | none => rfl
  | some v0 =>
    cases visitOf cc ci (a2, b2) with
    | none => rfl
    | some v2 =>
      cases visitOf cc ci (a1, b1) with
      | none => rfl
      | some v1 => rfl

theorem triLoop_eq_visits (cfg : Config) (tb : Tables) (cc : List Vector4)
    (ci : List Int) (hlen : cc.length = ci.length) :
    (row : List Int) → (st : MeshState) →
    triLoop cfg tb cc ci row st
      = (rowVisits tb cc ci row).map (fun vs => vs.foldl (weldVisit cfg) st)
  | [], st => by simp [triLoop, rowVisits]
  | [e0], st => by simp only [triLoop, rowVisits]; split <;> simp
  | [e0, _], st => by simp only [triLoop, rowVisits]; split <;> simp
  | e0 :: e1 :: e2 :: rest, st => by
    simp only [triLoop, rowVisits]
    split
    · simp
    · rw [emitTriangle_eq_visits cfg tb cc ci hlen]
      cases triangleVisits tb cc ci e0 e1 e2 with
      | none => simp
      | some t =>
        simp only [Option.map_some', Option.some_bind,
          triLoop_eq_visits cfg tb cc ci hlen rest]
        cases rowVisits tb cc ci rest <;> simp [List.foldl_append]

theorem cubeCornersOf_length (x y z segment : Int) (points : List Vector4)
    (cc : List Vector4) (h : cubeCornersOf x y z segment points = some cc) :
    cc.length = 8 := by
  unfold cubeCornersOf at h
  simp only [Option.bind_eq_bind, Option.bind_eq_some] at h
  obtain ⟨c0, _, c1, _, c2, _, c3, _, c4, _, c5, _, c6, _, c7, _, h⟩ := h
  cases h; rfl

/-- A `march` call is the fold of `weldVisit` over its visits. -/
theorem march_eq_visits (cfg : Config) (tb : Tables) (x y z segment : Int)
    (points : List Vector4) (st : MeshState) :
    march cfg tb x y z segment points st
      = (marchVisits cfg tb x y z segment points).map
          (fun vs => vs.foldl (weldVisit cfg) st) := by
  unfold march marchVisits
  cases hcc : cubeCornersOf x y z segment points with
  | none => simp
  | some cc =>
    have hlen : cc.length = (cornerIndicesOf x y z segment).length := by
      rw [cubeCornersOf_length _ _ _ _ _ _ hcc]; rfl
    simp only [Option.bind_eq_bind, Option.some_bind]
    split
    · simp
    · cases tb.triangulation.get? (cubeIndexOf cfg cc) with
      | none => simp
      | some row =>
        simp only [Option.some_bind]
        exact triLoop_eq_visits cfg tb cc _ hlen row st

/-- A loop whose iterations are folds over visits is a fold over the visits
that the same loop collects. -/
theorem forRange_visits (cfg : Config) (n : Nat) (body : Int → MeshState → Option MeshState)
    (tbody : Int → List EdgeVisit → Option (List EdgeVisit))
    (hb : ∀ i st, body i st = (tbody i []).map (fun vs => vs.foldl (weldVisit cfg) st))
    (ht : ∀ i acc, tbody i acc = (tbody i []).map (fun vs => acc ++ vs)) :
    (∀ st, forRange n body st
        = (forRange n tbody []).map (fun vs => vs.foldl (weldVisit cfg) st)) ∧
    (∀ acc, forRange n tbody acc = (forRange n tbody []).map (fun vs => acc ++ vs)) := by
  induction n with
  | zero =>
    constructor
    · intro st; simp [forRange_zero]
    · intro acc; simp [forRange_zero]
  | succ m ih =>
    obtain ⟨ih1, ih2⟩ := ih
    constructor
    · intro st
      rw [forRange_succ, forRange_succ, ih1 st]
      cases forRange m tbody [] with
      | none => rfl
      | some a =>
        simp only [Option.map_some', Option.some_bind]
        rw [hb, ht (m : Int) a]
        cases tbody (m : Int) [] with
        | none => rfl
        | some b => simp [List.foldl_append]
    · intro acc
      rw [forRange_succ, forRange_succ, ih2 acc]
      cases forRange m tbody [] with
      | none => rfl
      | some a =>
        simp only [Option.map_some', Option.some_bind]
        rw [ht (m : Int) (acc ++ a), ht (m : Int) a]
        cases tbody (m : Int) [] with
        | none => rfl
        | some b => simp [List.append_assoc]

theorem march_visits_step (cfg : Config) (tb : Tables) (segment : Int)
    (points : List Vector4) (i j : Int) :
    (∀ (k : Int) (st : MeshState), march cfg tb i j k segment points st
        = (((marchVisits cfg tb i j k segment points).map fun t => [] ++ t)).map
            (fun vs => vs.foldl (weldVisit cfg) st)) ∧
    (∀ (k : Int) (acc : List EdgeVisit),
        ((marchVisits cfg tb i j k segment points).map fun t => acc ++ t)
        = (((marchVisits cfg tb i j k segment points).map fun t => [] ++ t)).map
            (fun vs => acc ++ vs)) := by
  constructor
  · intro k st
    rw [march_eq_visits]
    cases marchVisits cfg tb i j k segment points <;> simp
  · intro k acc
    cases marchVisits cfg tb i j k segment points <;> simp

/-- The marching loops of a chunk are the fold of `weldVisit` over the visits
of the chunk. -/
theorem marchLoops_eq_visits (cfg : Config) (tb : Tables) (segment : Int)
    (points : List Vector4) (st : MeshState) :
    marchLoops cfg tb segment points st
      = (chunkVisits cfg tb segment points).map (fun vs => vs.foldl (weldVisit cfg) st) := by
  have hk : ∀ i j : Int, _ := fun i j =>
    forRange_visits cfg segment.toNat
      (fun k st => march cfg tb i j k segment points st)
      (fun k acc => (marchVisits cfg tb i j k segment points).map fun t => acc ++ t)
      (march_visits_step cfg tb segment points i j).1
      (march_visits_step cfg tb segment points i j).2
  have hj : ∀ i : Int, _ := fun i =>
    forRange_visits cfg segment.toNat
      (fun j st => forRange segment.toNat
        (fun k st => march cfg tb i j k segment points st) st)
      (fun j acc => forRange segment.toNat
        (fun k acc => (marchVisits cfg tb i j k segment points).map fun t => acc ++ t) acc)
      (fun j => (hk i j).1) (fun j => (hk i j).2)
  exact (forRange_visits cfg segment.toNat
      (fun i st => forRange segment.toNat (fun j st => forRange segment.toNat
        (fun k st => march cfg tb i j k segment points st) st) st)
      (fun i acc => forRange segment.toNat (fun j acc => forRange segment.toNat
        (fun k acc => (marchVisits cfg tb i j k segment points).map fun t => acc ++ t)
          acc) acc)
      (fun i => (hj i).1) (fun i => (hj i).2)).1 st

/-! ## Properties of the weld update -/

theorem weldVisit_hit (cfg : Config) (st : MeshState) (e : EdgeVisit) (v : Int)
    (h : dicFind st.vertexDic (vertexKey e.ia e.ib) = some v) :
    weldVisit cfg st e = { st with indices := st.indices ++ [v] } := by
  unfold weldVisit; simp only [h]

theorem weldVisit_miss (cfg : Config) (st : MeshState) (e : EdgeVisit)
    (h : dicFind st.vertexDic (vertexKey e.ia e.ib) = none) :
    weldVisit cfg st e =
      { vertices := st.vertices ++ [interpolateVerts cfg e.ca e.cb]
        indices := st.indices ++ [st.index]
        vertexDic := (vertexKey e.ia e.ib, st.index) :: st.vertexDic
        index := st.index + 1 } := by
  unfold weldVisit; simp only [h]

theorem dicFind_cons (k : List Char) (v : Int) (dic : List (List Char × Int))
    (key : List Char) :
    dicFind ((k, v) :: dic) key = if k = key then some v else dicFind dic key := rfl

theorem IdxInv_weldVisit (cfg : Config) (st : MeshState) (e : EdgeVisit) (h : IdxInv st) :
    IdxInv (weldVisit cfg st e) := by
  obtain ⟨hidx, hdic, hval⟩ := h
  cases hf : dicFind st.vertexDic (vertexKey e.ia e.ib) with
  | some v =>
    rw [weldVisit_hit cfg st e v hf]
    refine ⟨hidx, hdic, ?_⟩
    intro i hi
    simp only [List.mem_append, List.mem_singleton] at hi
    rcases hi with hi | hi
    · exact hval i hi
    · subst hi; exact hdic _ _ hf
  | none =>
    rw [weldVisit_miss cfg st e hf]
    refine ⟨?_, ?_, ?_⟩
    · simp [hidx]
    · intro k v hk
      simp only [dicFind_cons] at hk
      simp only [List.length_append, List.length_singleton, Nat.cast_add, Nat.cast_one]
      split at hk
      · cases hk; omega
      · have := hdic k v hk; omega
    · intro i hi
      simp only [List.mem_append, List.mem_singleton] at hi
      simp only [List.length_append, List.length_singleton, Nat.cast_add, Nat.cast_one]
      rcases hi with hi | hi
      · have := hval i hi; omega
      · omega

theorem IdxInv_foldl (cfg : Config) (vs : List EdgeVisit) (st : MeshState) (h : IdxInv st) :
    IdxInv (vs.foldl (weldVisit cfg) st) := by
  induction vs generalizing st with
  | nil => exact h
  | cons e vs ih => exact ih _ (IdxInv_weldVisit cfg st e h)

theorem indices_length_foldl (cfg : Config) (vs : List EdgeVisit) (st : MeshState) :
    (vs.foldl (weldVisit cfg) st).indices.length = st.indices.length + vs.length := by
  induction vs generalizing st with
  | nil => simp
  | cons e vs ih =>
    rw [List.foldl_cons, ih]
    have : (weldVisit cfg st e).indices.length = st.indices.length + 1 := by
      cases hf : dicFind st.vertexDic (vertexKey e.ia e.ib) with
      | some v => rw [weldVisit_hit cfg st e v hf]; simp
      | none => rw [weldVisit_miss cfg st e hf]; simp
    rw [this, List.length_cons]; omega

theorem firstOccurrences_append (l : List Int) (i : Int) :
    firstOccurrences (l ++ [i])
      = if i ∈ firstOccurrences l then firstOccurrences l else firstOccurrences l ++ [i] := by
  unfold firstOccurrences
  rw [List.foldl_append]
  rfl

theorem mem_upTo (n : Nat) (i : Int) : i ∈ upTo n ↔ 0 ≤ i ∧ i < (n : Int) := by
  unfold upTo
  simp only [List.mem_map, List.mem_range]
  constructor
  · rintro ⟨a, ha, rfl⟩
    simp only [Int.ofNat_eq_coe]; omega
  · rintro ⟨h0, h1⟩
    exact ⟨i.toNat, by omega, by simp only [Int.ofNat_eq_coe]; omega⟩

theorem upTo_succ (n : Nat) : upTo (n + 1) = upTo n ++ [(n : Int)] := by
  unfold upTo
  rw [List.range_succ, List.map_append]
  rfl

theorem first_weldVisit (cfg : Config) (st : MeshState) (e : EdgeVisit) (h : IdxInv st)
    (hf : firstOccurrences st.indices = upTo st.vertices.length) :
    firstOccurrences (weldVisit cfg st e).indices
      = upTo (weldVisit cfg st e).vertices.length := by
  obtain ⟨hidx, hdic, hval⟩ := h
  cases hd : dicFind st.vertexDic (vertexKey e.ia e.ib) with
  | some v =>
    rw [weldVisit_hit cfg st e v hd]
    simp only
    rw [firstOccurrences_append, hf, if_pos ((mem_upTo _ _).mpr (hdic _ _ hd))]
  | none =>
    rw [weldVisit_miss cfg st e hd]
    simp only
    rw [firstOccurrences_append, hf, if_neg, List.length_append, List.length_singleton,
      upTo_succ, hidx]
    rw [mem_upTo]; omega

theorem first_foldl (cfg : Config) (vs : List EdgeVisit) (st : MeshState) (h : IdxInv st)
    (hf : firstOccurrences st.indices = upTo st.vertices.length) :
    firstOccurrences (vs.foldl (weldVisit cfg) st).indices
      = upTo (vs.foldl (weldVisit cfg) st).vertices.length := by
  induction vs generalizing st with
  | nil => exact hf
  | cons e vs ih =>
    exact ih _ (IdxInv_weldVisit cfg st e h) (first_weldVisit cfg st e h hf)

theorem LowInv_weldVisit (cfg : Config) (offset : Int) (st : MeshState) (e : EdgeVisit)
    (h : LowInv offset st) :
    LowInv offset (weldVisit cfg st e) ∧
      ∃ a, (weldVisit cfg st e).indices = st.indices ++ [a] ∧ offset ≤ a := by
  obtain ⟨hidx, hdic⟩ := h
  cases hf : dicFind st.vertexDic (vertexKey e.ia e.ib) with
  | some v =>
    rw [weldVisit_hit cfg st e v hf]
    exact ⟨⟨hidx, hdic⟩, v, rfl, hdic _ _ hf⟩
  | none =>
    rw [weldVisit_miss cfg st e hf]
    refine ⟨⟨by simp only; omega, ?_⟩, st.index, rfl, hidx⟩
    intro k v hk
    simp only [dicFind_cons] at hk
    split at hk
    · cases hk; exact hidx
    · exact hdic k v hk

theorem LowInv_foldl (cfg : Config) (offset : Int) (vs : List EdgeVisit) (st : MeshState)
    (h : LowInv offset st) :
    ∃ added, (vs.foldl (weldVisit cfg) st).indices = st.indices ++ added ∧
      added.length = vs.length ∧ ∀ a ∈ added, offset ≤ a := by
  induction vs generalizing st with
  | nil => exact ⟨[], by simp, rfl, by simp⟩
  | cons e vs ih =>
    obtain ⟨h1, a, ha, hoa⟩ := LowInv_weldVisit cfg offset st e h
    obtain ⟨added, hadd, hlen, hall⟩ := ih _ h1
    refine ⟨a :: added, ?_, by simp [hlen], ?_⟩
    · rw [List.foldl_cons, hadd, ha]; simp
    · intro b hb
      simp only [List.mem_cons] at hb
      rcases hb with hb | hb
      · subst hb; exact hoa
      · exact hall b hb

/-- The vertex sequence only grows, and the running index grows with it. -/
theorem vertices_foldl (cfg : Config) (vs : List EdgeVisit) (st : MeshState) :
    ∃ new, (vs.foldl (weldVisit cfg) st).vertices = st.vertices ++ new ∧
      (vs.foldl (weldVisit cfg) st).index = st.index + (new.length : Int) ∧
      new.length ≤ vs.length := by
  induction vs generalizing st with
  | nil => exact ⟨[], by simp, by simp, by simp⟩
  | cons e vs ih =>
    obtain ⟨new, h1, h2, h3⟩ := ih (weldVisit cfg st e)
    cases hf : dicFind st.vertexDic (vertexKey e.ia e.ib) with
    | some v =>
      rw [weldVisit_hit cfg st e v hf] at h1 h2
      exact ⟨new, by rw [List.foldl_cons, weldVisit_hit cfg st e v hf]; exact h1,
        by rw [List.foldl_cons, weldVisit_hit cfg st e v hf]; exact h2,
        by simp only [List.length_cons]; omega⟩
    | none =>
      rw [weldVisit_miss cfg st e hf] at h1 h2
      refine ⟨interpolateVerts cfg e.ca e.cb :: new, ?_, ?_, ?_⟩
      · rw [List.foldl_cons, weldVisit_miss cfg st e hf, h1]; simp
      · rw [List.foldl_cons, weldVisit_miss cfg st e hf, h2]
        simp only [List.length_cons, Nat.cast_add, Nat.cast_one]; omega
      · simp only [List.length_cons]; omega

/-! ## The visits come in triplets -/

theorem triangleVisits_length (tb : Tables) (cc : List Vector4) (ci : List Int)
    (e0 e1 e2 : Int) (t : List EdgeVisit) (h : triangleVisits tb cc ci e0 e1 e2 = some t) :
    t.length = 3 := by
  unfold triangleVisits at h
  simp only [Option.bind_eq_bind, Option.bind_eq_some] at h
  obtain ⟨_, _, _, _, _, _, _, _, _, _, _, _, _, _, _, _, _, _, h⟩ := h
  cases h; rfl

theorem rowVisits_length (tb : Tables) (cc : List Vector4) (ci : List Int) :
    (row : List Int) → (r : List EdgeVisit) → rowVisits tb cc ci row = some r →
      ∃ k, r.length = 3 * k
  | [], r, h => by simp [rowVisits] at h
  | [e0], r, h => by
    simp only [rowVisits] at h
    split at h
    · cases h; exact ⟨0, rfl⟩
    · cases h
  | [e0, _], r, h => by
    simp only [rowVisits] at h
    split at h
    · cases h; exact ⟨0, rfl⟩
    · cases h
  | e0 :: e1 :: e2 :: rest, r, h => by
    simp only [rowVisits] at h
    split at h
    · cases h; exact ⟨0, rfl⟩
    · simp only [Option.bind_eq_some, Option.map_eq_some'] at h
      obtain ⟨t, ht, r', hr', rfl⟩ := h
      obtain ⟨k, hk⟩ := rowVisits_length tb cc ci rest r' hr'
      refine ⟨k + 1, ?_⟩
      rw [List.length_append, triangleVisits_length tb cc ci e0 e1 e2 t ht, hk]
      ring

theorem marchVisits_length (cfg : Config) (tb : Tables) (x y z segment : Int)
    (points : List Vector4) (vs : List EdgeVisit)
    (h : marchVisits cfg tb x y z segment points = some vs) : ∃ k, vs.length = 3 * k := by
  unfold marchVisits at h
  simp only [Option.bind_eq_bind, Option.bind_eq_some] at h
  obtain ⟨cc, _, h⟩ := h
  split at h
  · cases h; exact ⟨0, rfl⟩
  · simp only [Option.bind_eq_some] at h
    obtain ⟨row, _, h⟩ := h
    exact rowVisits_length tb cc _ row vs h

theorem chunkVisits_length (cfg : Config) (tb : Tables) (segment : Int)
    (points : List Vector4) (vs : List EdgeVisit)
    (h : chunkVisits cfg tb segment points = some vs) : ∃ k, vs.length = 3 * k := by
  unfold chunkVisits at h
  refine forRange_partial (fun _ (acc : List EdgeVisit) => ∃ k, acc.length = 3 * k)
    _ _ [] ⟨0, rfl⟩ ?_ vs h
  intro i _ t t' ht hbody
  refine forRange_partial (fun _ (acc : List EdgeVisit) => ∃ k, acc.length = 3 * k)
    _ _ _ ht ?_ t' hbody
  intro j _ t t' ht hbody
  refine forRange_partial (fun _ (acc : List EdgeVisit) => ∃ k, acc.length = 3 * k)
    _ _ _ ht ?_ t' hbody
  intro k _ t t' ht hbody
  simp only [Option.map_eq_some'] at hbody
  obtain ⟨m, hm, rfl⟩ := hbody
  obtain ⟨a, ha⟩ := ht
  obtain ⟨b, hb⟩ := marchVisits_length cfg tb _ _ _ segment points m hm
  exact ⟨a + b, by rw [List.length_append, ha, hb]; ring⟩

/-! ## The marching loops return -/

theorem getI_mem {α : Type} (l : List α) (i : Int) (a : α) (h : getI l i = some a) :
    a ∈ l := by
  unfold getI at h
  split at h
  · exact List.get?_mem h
  · cases h

theorem visitOf_some (cc : List Vector4) (ci : List Int) (hcc : cc.length = 8)
    (hci : ci.length = 8) (a b : Int) (ha : cornerOK a = true) (hb : cornerOK b = true) :
    ∃ v, visitOf cc ci (a, b) = some v := by
  simp only [cornerOK, Bool.and_eq_true, decide_eq_true_eq] at ha hb
  obtain ⟨ia, hia⟩ := getI_some_of_range ci a ha.1 (by rw [hci]; omega)
  obtain ⟨ib, hib⟩ := getI_some_of_range ci b hb.1 (by rw [hci]; omega)
  obtain ⟨ca, hca⟩ := getI_some_of_range cc a ha.1 (by rw [hcc]; omega)
  obtain ⟨cb, hcb⟩ := getI_some_of_range cc b hb.1 (by rw [hcc]; omega)
  exact ⟨⟨ia, ib, ca, cb⟩, by simp [visitOf, hia, hib, hca, hcb]⟩

theorem edge_reads (tb : Tables) (hwf : tb.WF) (e : Int) (he : edgeOK e = true) :
    ∃ a b, getI tb.cornerIndexAFromEdge e = some a ∧ getI tb.cornerIndexBFromEdge e = some b ∧
      cornerOK a = true ∧ cornerOK b = true := by
  obtain ⟨_, _, hA, hB, hAok, hBok⟩ := hwf
  simp only [edgeOK, Bool.and_eq_true, decide_eq_true_eq] at he
  obtain ⟨a, ha⟩ := getI_some_of_range tb.cornerIndexAFromEdge e he.1 (by rw [hA]; omega)
  obtain ⟨b, hb⟩ := getI_some_of_range tb.cornerIndexBFromEdge e he.1 (by rw [hB]; omega)
  exact ⟨a, b, ha, hb, hAok a (getI_mem _ _ _ ha), hBok b (getI_mem _ _ _ hb)⟩

theorem triangleVisits_some (tb : Tables) (hwf : tb.WF) (cc : List Vector4) (ci : List Int)
    (hcc : cc.length = 8) (hci : ci.length = 8) (e0 e1 e2 : Int) (h0 : edgeOK e0 = true)
    (h1 : edgeOK e1 = true) (h2 : edgeOK e2 = true) :
    ∃ t, triangleVisits tb cc ci e0 e1 e2 = some t := by
  obtain ⟨a0, b0, ha0, hb0, oka0, okb0⟩ := edge_reads tb hwf e0 h0
  obtain ⟨a1, b1, ha1, hb1, oka1, okb1⟩ := edge_reads tb hwf e1 h1
  obtain ⟨a2, b2, ha2, hb2, oka2, okb2⟩ := edge_reads tb hwf e2 h2
  obtain ⟨v0, hv0⟩ := visitOf_some cc ci hcc hci a0 b0 oka0 okb0
  obtain ⟨v1, hv1⟩ := visitOf_some cc ci hcc hci a1 b1 oka1 okb1
  obtain ⟨v2, hv2⟩ := visitOf_some cc ci hcc hci a2 b2 oka2 okb2
  exact ⟨[v0, v2, v1], by
    simp [triangleVisits, ha0, hb0, ha1, hb1, ha2, hb2, hv0, hv1, hv2]⟩

theorem rowVisits_some (tb : Tables) (hwf : tb.WF) (cc : List Vector4) (ci : List Int)
    (hcc : cc.length = 8) (hci : ci.length = 8) :
    (row : List Int) → rowOK row = true → ∃ r, rowVisits tb cc ci row = some r
  | [], h => by simp [rowOK] at h
  | [e0], h => by
    simp only [rowOK, decide_eq_true_eq] at h
    exact ⟨[], by simp [rowVisits, h]⟩
  | [e0, _], h => by
    simp only [rowOK, decide_eq_true_eq] at h
    exact ⟨[], by simp [rowVisits, h]⟩
  | e0 :: e1 :: e2 :: rest, h => by
    simp only [rowOK, Bool.or_eq_true, Bool.and_eq_true, decide_eq_true_eq] at h
    by_cases he : e0 = -1
    · exact ⟨[], by simp [rowVisits, he]⟩
    · rcases h with h | ⟨⟨⟨h0, h1⟩, h2⟩, hrest⟩
      · exact absurd h he
      · obtain ⟨t, ht⟩ := triangleVisits_some tb hwf cc ci hcc hci e0 e1 e2 h0 h1 h2
        obtain ⟨r, hr⟩ := rowVisits_some tb hwf cc ci hcc hci rest hrest
        exact ⟨t ++ r, by simp [rowVisits, he, ht, hr]⟩

theorem orBit_lt (cfg : Config) (cc : List Vector4) (k bit c : Nat) (hbit : bit < 2 ^ 8)
    (hc : c < 2 ^ 8) : orBit cfg cc k bit c < 2 ^ 8 := by
  unfold orBit
  split
  · split
    · exact Nat.or_lt_two_pow hc hbit
    · exact hc
  · exact hc

theorem cubeIndexOf_lt (cfg : Config) (cc : List Vector4) : cubeIndexOf cfg cc < 256 := by
  unfold cubeIndexOf
  have h := fun k bit c hbit hc => orBit_lt cfg cc k bit c hbit hc
  exact h _ _ _ (by norm_num) (h _ _ _ (by norm_num) (h _ _ _ (by norm_num)
    (h _ _ _ (by norm_num) (h _ _ _ (by norm_num) (h _ _ _ (by norm_num)
    (h _ _ _ (by norm_num) (h _ _ _ (by norm_num) (by norm_num))))))))

theorem cubeCornersOf_some (x y z segment : Int) (points : List Vector4)
    (hlen : (points.length : Int) = (segment + 1) ^ 3)
    (hx0 : 0 ≤ x) (hx : x < segment) (hy0 : 0 ≤ y) (hy : y < segment)
    (hz0 : 0 ≤ z) (hz : z < segment) :
    ∃ cc, cubeCornersOf x y z segment points = some cc := by
  have rd : ∀ a b c : Int, 0 ≤ a → a ≤ segment → 0 ≤ b → b ≤ segment → 0 ≤ c → c ≤ segment →
      ∃ v, getI points (indexFromCoord a b c segment) = some v := by
    intro a b c ha0 ha hb0 hb hc0 hc
    obtain ⟨h0, h1⟩ := indexFromCoord_range segment a b c ha0 ha hb0 hb hc0 hc
    exact getI_some_of_range points _ h0 (by rw [hlen]; exact h1)
  obtain ⟨c0, h0⟩ := rd x y z hx0 (by omega) hy0 (by omega) hz0 (by omega)
  obtain ⟨c1, h1⟩ := rd (x + 1) y z (by omega) (by omega) hy0 (by omega) hz0 (by omega)
  obtain ⟨c2, h2⟩ := rd (x + 1) y (z + 1) (by omega) (by omega) hy0 (by omega) (by omega)
    (by omega)
  obtain ⟨c3, h3⟩ := rd x y (z + 1) hx0 (by omega) hy0 (by omega) (by omega) (by omega)
  obtain ⟨c4, h4⟩ := rd x (y + 1) z hx0 (by omega) (by omega) (by omega) hz0 (by omega)
  obtain ⟨c5, h5⟩ := rd (x + 1) (y + 1) z (by omega) (by omega) (by omega) (by omega) hz0
    (by omega)
  obtain ⟨c6, h6⟩ := rd (x + 1) (y + 1) (z + 1) (by omega) (by omega) (by omega) (by omega)
    (by omega) (by omega)
  obtain ⟨c7, h7⟩ := rd x (y + 1) (z + 1) hx0 (by omega) (by omega) (by omega) (by omega)
    (by omega)
  exact ⟨[c0, c1, c2, c3, c4, c5, c6, c7], by
    simp [cubeCornersOf, h0, h1, h2, h3, h4, h5, h6, h7]⟩

/-- Inside the lattice and with well-formed tables, a `march` call has visits. -/
theorem marchVisits_some (cfg : Config) (tb : Tables) (hwf : tb.WF) (x y z segment : Int)
    (points : List Vector4) (hlen : (points.length : Int) = (segment + 1) ^ 3)
    (hx0 : 0 ≤ x) (hx : x < segment) (hy0 : 0 ≤ y) (hy : y < segment)
    (hz0 : 0 ≤ z) (hz : z < segment) :
    ∃ vs, marchVisits cfg tb x y z segment points = some vs := by
  obtain ⟨cc, hcc⟩ := cubeCornersOf_some x y z segment points hlen hx0 hx hy0 hy hz0 hz
  have hcl := cubeCornersOf_length _ _ _ _ _ _ hcc
  unfold marchVisits
  simp only [hcc, Option.bind_eq_bind, Option.some_bind]
  split
  · exact ⟨[], rfl⟩
  · have hlt := cubeIndexOf_lt cfg cc
    have hrow : (cubeIndexOf cfg cc) < tb.triangulation.length := by rw [hwf.1]; exact hlt
    rw [List.get?_eq_get hrow]
    simp only [Option.some_bind]
    exact rowVisits_some tb hwf cc (cornerIndicesOf x y z segment) hcl rfl _
      (hwf.2.1 _ (List.get_mem _ _ _))

theorem chunkVisits_some (cfg : Config) (tb : Tables) (hwf : tb.WF) (segment : Int)
    (points : List Vector4) (hlen : (points.length : Int) = (segment + 1) ^ 3) :
    ∃ vs, chunkVisits cfg tb segment points = some vs := by
  unfold chunkVisits
  obtain ⟨vs, h, _⟩ := forRange_total (fun _ (_ : List EdgeVisit) => True) segment.toNat
    (fun i acc => forRange segment.toNat (fun j acc => forRange segment.toNat (fun k acc =>
      (marchVisits cfg tb i j k segment points).map fun t => acc ++ t) acc) acc) []
    trivial (by
      intro i hi acc _
      refine forRange_total (fun _ (_ : List EdgeVisit) => True) segment.toNat _ acc
        trivial ?_
      intro j hj acc _
      refine forRange_total (fun _ (_ : List EdgeVisit) => True) segment.toNat _ acc
        trivial ?_
      intro k hk acc _
      obtain ⟨m, hm⟩ := marchVisits_some cfg tb hwf i j k segment points hlen
        (by omega) (by omega) (by omega) (by omega) (by omega) (by omega)
      exact ⟨acc ++ m, by simp [hm], trivial⟩)
  exact ⟨vs, h⟩

/-! ## The sampling loops -/

theorem getI_set {α : Type} (l : List α) (i j : Int) (a : α) (hi0 : 0 ≤ i)
    (hi : i < (l.length : Int)) :
    getI (l.set i.toNat a) j = if j = i then some a else getI l j := by
  unfold getI
  by_cases hj0 : 0 ≤ j
  · simp only [if_pos hj0, List.get?_eq_getElem?]
    by_cases hji : j = i
    · subst hji
      rw [if_pos rfl, List.getElem?_set_self (by omega)]
    · rw [if_neg hji, List.getElem?_set_ne (by omega)]
  · simp only [if_neg hj0]
    rw [if_neg (by omega)]

theorem density_step (noise3 : Flt → Flt → Flt → Flt) (cfg : Config) (origin : Vector3)
    (unitSize : Flt) (segment : Int) (S : Int → Int → Int → Prop) (pts : List Vector4)
    (i j k : Int) (hin : InLattice segment i j k)
    (h : Sampled noise3 cfg origin unitSize segment S pts) :
    ∃ pts', density noise3 cfg i j k origin unitSize segment pts = some pts' ∧
      Sampled noise3 cfg origin unitSize segment
        (fun x y z => S x y z ∨ (x = i ∧ y = j ∧ z = k)) pts' := by
  obtain ⟨hlen, hS⟩ := h
  obtain ⟨⟨hi0, hi⟩, ⟨hj0, hj⟩, ⟨hk0, hk⟩⟩ := hin
  obtain ⟨h0, h1⟩ := indexFromCoord_range segment i j k hi0 hi hj0 hj hk0 hk
  have hlt : (indexFromCoord i j k segment).toNat < pts.length := by omega
  refine ⟨pts.set (indexFromCoord i j k segment).toNat
    (densityValue noise3 cfg i j k origin unitSize), ?_, ?_, ?_⟩
  · unfold density setI
    simp only
    rw [if_pos ⟨h0, hlt⟩]
  · rw [List.length_set]; exact hlen
  · intro x y z hxyz hsel
    rw [getI_set _ _ _ _ h0 (by omega)]
    obtain ⟨⟨hx0, hx⟩, ⟨hy0, hy⟩, ⟨hz0, hz⟩⟩ := hxyz
    by_cases heq : indexFromCoord x y z segment = indexFromCoord i j k segment
    · obtain ⟨rfl, rfl, rfl⟩ :=
        indexFromCoord_inj segment x y z i j k hx0 hx hy0 hy hi0 hi hj0 hj heq
      rw [if_pos rfl]
    · rw [if_neg heq]
      rcases hsel with hsel | ⟨rfl, rfl, rfl⟩
      · exact hS x y z ⟨⟨hx0, hx⟩, ⟨hy0, hy⟩, ⟨hz0, hz⟩⟩ hsel
      · exact absurd rfl heq

theorem Sampled_mono (noise3 : Flt → Flt → Flt → Flt) (cfg : Config) (origin : Vector3)
    (unitSize : Flt) (segment : Int) (S S' : Int → Int → Int → Prop) (pts : List Vector4)
    (h : Sampled noise3 cfg origin unitSize segment S pts)
    (hSS : ∀ x y z, InLattice segment x y z → S' x y z → S x y z) :
    Sampled noise3 cfg origin unitSize segment S' pts :=
  ⟨h.1, fun x y z hin hs => h.2 x y z hin (hSS x y z hin hs)⟩

/-- The sampling loops return, and leave at every lattice point the sample
that `density` computes for it. -/
theorem sampleLoops_sampled (noise3 : Flt → Flt → Flt → Flt) (cfg : Config)
    (origin : Vector3) (unitSize : Flt) (segment : Int) (hseg : 0 ≤ segment)
    (pts : List Vector4) (hlen : (pts.length : Int) = (segment + 1) ^ 3) :
    ∃ pts', sampleLoops noise3 cfg origin unitSize segment pts = some pts' ∧
      Sampled noise3 cfg origin unitSize segment (fun _ _ _ => True) pts' := by
  unfold sampleLoops
  obtain ⟨r, hr, hP⟩ := forRange_total
    (fun a p => Sampled noise3 cfg origin unitSize segment (fun x _ _ => x < (a : Int)) p)
    (segment + 1).toNat
    (fun i pts => forRange (segment + 1).toNat (fun j pts =>
      forRange (segment + 1).toNat (fun k pts =>
        density noise3 cfg i j k origin unitSize segment pts) pts) pts) pts
    ⟨hlen, fun x y z hin hs => by have := hin.1.1; simp only [Nat.cast_zero] at hs; omega⟩
    (by
      intro i hi p hp
      obtain ⟨r, hr, hP⟩ := forRange_total
        (fun b q => Sampled noise3 cfg origin unitSize segment
          (fun x y _ => x < (i : Int) ∨ (x = (i : Int) ∧ y < (b : Int))) q)
        (segment + 1).toNat
        (fun j pts => forRange (segment + 1).toNat (fun k pts =>
          density noise3 cfg i j k origin unitSize segment pts) pts) p
        (Sampled_mono _ _ _ _ _ _ _ _ hp (fun x y z hin hs => by
          have := hin.2.1.1; simp only [Nat.cast_zero] at hs; omega))
        (by
          intro j hj q hq
          obtain ⟨r, hr, hP⟩ := forRange_total
            (fun c t => Sampled noise3 cfg origin unitSize segment
              (fun x y z => x < (i : Int) ∨ (x = (i : Int) ∧ y < (j : Int)) ∨
                (x = (i : Int) ∧ y = (j : Int) ∧ z < (c : Int))) t)
            (segment + 1).toNat
            (fun k pts => density noise3 cfg i j k origin unitSize segment pts) q
            (Sampled_mono _ _ _ _ _ _ _ _ hq (fun x y z hin hs => by
              have := hin.2.2.1; simp only [Nat.cast_zero] at hs; omega))
            (by
              intro k hk t ht
              obtain ⟨t', ht', hS'⟩ := density_step noise3 cfg origin unitSize segment _ t
                (i : Int) (j : Int) (k : Int)
                ⟨⟨by omega, by omega⟩, ⟨by omega, by omega⟩, ⟨by omega, by omega⟩⟩ ht
              refine ⟨t', ht', Sampled_mono _ _ _ _ _ _ _ _ hS' (fun x y z _ hs => ?_)⟩
              simp only [Nat.cast_add, Nat.cast_one] at hs
              omega)
          refine ⟨r, hr, Sampled_mono _ _ _ _ _ _ _ _ hP (fun x y z hin hs => ?_)⟩
          have := hin.2.2.2
          simp only [Nat.cast_add, Nat.cast_one] at hs
          omega)
      refine ⟨r, hr, Sampled_mono _ _ _ _ _ _ _ _ hP (fun x y z hin hs => ?_)⟩
      have := hin.2.1.2
      simp only [Nat.cast_add, Nat.cast_one] at hs
      omega)
  refine ⟨r, hr, Sampled_mono _ _ _ _ _ _ _ _ hP (fun x y z hin _ => ?_)⟩
  have := hin.1.2
  show x < (((segment + 1).toNat : Nat) : Int)
  omega

/-- The lattice of a chunk: allocation and sampling return for `0 ≤ segment`. -/
theorem sampleLattice_sampled (noise3 : Flt → Flt → Flt → Flt) (cfg : Config)
    (origin : Vector3) (chunkSize : Flt) (segment : Int) (hseg : 0 ≤ segment) :
    ∃ pts, sampleLattice noise3 cfg origin chunkSize segment = some pts ∧
      Sampled noise3 cfg origin (Flt.div chunkSize (Flt.ofInt segment)) segment
        (fun _ _ _ => True) pts := by
  unfold sampleLattice
  have hpos : (0 : Int) ≤ (segment + 1) ^ 3 := by positivity
  simp only [if_neg (not_lt.mpr hpos)]
  exact sampleLoops_sampled noise3 cfg origin _ segment hseg _ (by
    rw [List.length_replicate]; omega)

/-! ## Chunks -/

/-- When `createChunk` returns, its final state is the fold of `weldVisit`
over the visits of the chunk, which come in triplets. -/
theorem createChunkState_visits (noise3 : Flt → Flt → Flt → Flt) (cfg : Config) (tb : Tables)
    (origin : Vector3) (chunkSize : Flt) (segment : Int) (vertices : List Vector3)
    (indices : List Int) (indexOffset : Int) (st : MeshState)
    (h : createChunkState noise3 cfg tb origin chunkSize segment vertices indices indexOffset
      = some st) :
    ∃ pts visits, sampleLattice noise3 cfg origin chunkSize segment = some pts ∧
      chunkVisits cfg tb segment pts = some visits ∧ (∃ k, visits.length = 3 * k) ∧
      st = visits.foldl (weldVisit cfg) (chunkStart vertices indices indexOffset) := by
  unfold createChunkState at h
  simp only [Option.bind_eq_bind, Option.bind_eq_some] at h
  obtain ⟨pts, hpts, hm⟩ := h
  rw [marchLoops_eq_visits] at hm
  simp only [Option.map_eq_some'] at hm
  obtain ⟨visits, hv, rfl⟩ := hm
  exact ⟨pts, visits, hpts, hv, chunkVisits_length cfg tb segment pts visits hv, rfl⟩

/-- With well-formed tables and `0 ≤ segment`, `createChunk` returns. -/
theorem createChunkState_some (noise3 : Flt → Flt → Flt → Flt) (cfg : Config) (tb : Tables)
    (hwf : tb.WF) (origin : Vector3) (chunkSize : Flt) (segment : Int) (hseg : 0 ≤ segment)
    (vertices : List Vector3) (indices : List Int) (indexOffset : Int) :
    ∃ st, createChunkState noise3 cfg tb origin chunkSize segment vertices indices indexOffset
      = some st := by
  obtain ⟨pts, hpts, hS⟩ := sampleLattice_sampled noise3 cfg origin chunkSize segment hseg
  obtain ⟨visits, hv⟩ := chunkVisits_some cfg tb hwf segment pts hS.1
  refine ⟨visits.foldl (weldVisit cfg) (chunkStart vertices indices indexOffset), ?_⟩
  unfold createChunkState
  simp only [hpts, Option.bind_eq_bind, Option.some_bind]
  rw [marchLoops_eq_visits, hv]
  rfl

theorem IdxInv_chunkStart (vertices : List Vector3) (indices : List Int)
    (h : ValidIndices vertices indices) :
    IdxInv (chunkStart vertices indices (vertices.length : Int)) :=
  ⟨rfl, fun k v hk => by simp [chunkStart, dicFind] at hk, h⟩

theorem createChunk_eq (noise3 : Flt → Flt → Flt → Flt) (cfg : Config) (tb : Tables)
    (origin : Vector3) (chunkSize : Flt) (segment : Int) (vertices : List Vector3)
    (indices : List Int) (indexOffset : Int) (r : List Vector3 × List Int) :
    createChunk noise3 cfg tb origin chunkSize segment vertices indices indexOffset = some r ↔
      ∃ st, createChunkState noise3 cfg tb origin chunkSize segment vertices indices
        indexOffset = some st ∧ r = (st.vertices, st.indices) := by
  unfold createChunk
  simp only [Option.map_eq_some']
  constructor
  · rintro ⟨st, h, rfl⟩; exact ⟨st, h, rfl⟩
  · rintro ⟨st, h, rfl⟩; exact ⟨st, h, rfl⟩

/-- A chunk started at the current vertex count keeps the mesh consistent. -/
theorem createChunk_MeshOK (noise3 : Flt → Flt → Flt → Flt) (cfg : Config) (tb : Tables)
    (origin : Vector3) (chunkSize : Flt) (segment : Int) (acc r : List Vector3 × List Int)
    (hacc : MeshOK acc)
    (h : createChunk noise3 cfg tb origin chunkSize segment acc.1 acc.2 (acc.1.length : Int)
      = some r) : MeshOK r := by
  obtain ⟨st, hst, rfl⟩ := (createChunk_eq _ _ _ _ _ _ _ _ _ _).mp h
  obtain ⟨pts, visits, _, _, ⟨k, hk⟩, rfl⟩ := createChunkState_visits _ _ _ _ _ _ _ _ _ _ hst
  obtain ⟨hval, ⟨k0, hk0⟩, hfirst⟩ := hacc
  have hinv := IdxInv_chunkStart acc.1 acc.2 hval
  refine ⟨(IdxInv_foldl cfg visits _ hinv).2.2, ⟨k0 + k, ?_⟩,
    first_foldl cfg visits _ hinv hfirst⟩
  simp only
  rw [indices_length_foldl, hk]
  simp only [chunkStart]
  omega

/-- Whenever the chunk loops return, the accumulated mesh is consistent. -/
theorem generateMesh_MeshOK (noise3 : Flt → Flt → Flt → Flt) (cfg : Config) (tb : Tables)
    (size : Flt) (levelCount maxSegment : Int) (acc : List Vector3 × List Int)
    (h : generateMesh noise3 cfg tb size levelCount maxSegment = some acc) : MeshOK acc := by
  unfold generateMesh at h
  have h0 : MeshOK (([], []) : List Vector3 × List Int) :=
    ⟨fun i hi => by simp at hi, ⟨0, rfl⟩, rfl⟩
  refine forRange_partial (fun _ a => MeshOK a) _ _ _ h0 ?_ acc h
  intro i _ t t' ht hbody
  refine forRange_partial (fun _ a => MeshOK a) _ _ _ ht ?_ t' hbody
  intro j _ t t' ht hbody
  exact createChunk_MeshOK _ _ _ _ _ _ _ _ ht hbody

/-- With well-formed tables and `0 ≤ maxSegment`, the chunk loops return. -/
theorem generateMesh_some (noise3 : Flt → Flt → Flt → Flt) (cfg : Config) (tb : Tables)
    (hwf : tb.WF) (size : Flt) (levelCount maxSegment : Int) (hseg : 0 ≤ maxSegment) :
    ∃ acc, generateMesh noise3 cfg tb size levelCount maxSegment = some acc := by
  unfold generateMesh
  obtain ⟨acc, h, _⟩ := forRange_total (fun _ (_ : List Vector3 × List Int) => True)
    (chunkCountOf levelCount).toNat
    (fun i acc => forRange (chunkCountOf levelCount).toNat (fun j acc =>
      createChunk noise3 cfg tb
        (chunkOrigin (chunkCountOf levelCount)
          (Flt.div size (Flt.ofInt (chunkCountOf levelCount))) i j)
        (Flt.div size (Flt.ofInt (chunkCountOf levelCount))) maxSegment
        acc.1 acc.2 (acc.1.length : Int)) acc)
    ([], []) trivial (by
      intro i _ t _
      refine forRange_total (fun _ (_ : List Vector3 × List Int) => True)
        (chunkCountOf levelCount).toNat
        (fun j acc => createChunk noise3 cfg tb
          (chunkOrigin (chunkCountOf levelCount)
            (Flt.div size (Flt.ofInt (chunkCountOf levelCount))) i j)
          (Flt.div size (Flt.ofInt (chunkCountOf levelCount))) maxSegment
          acc.1 acc.2 (acc.1.length : Int)) t trivial ?_
      intro j _ t _
      obtain ⟨st, hst⟩ := createChunkState_some noise3 cfg tb hwf
        (chunkOrigin (chunkCountOf levelCount)
          (Flt.div size (Flt.ofInt (chunkCountOf levelCount))) i j)
        (Flt.div size (Flt.ofInt (chunkCountOf levelCount))) maxSegment hseg t.1 t.2
        (t.1.length : Int)
      exact ⟨(st.vertices, st.indices),
        (createChunk_eq _ _ _ _ _ _ _ _ _ _).mpr ⟨st, hst, rfl⟩, trivial⟩)
  exact ⟨acc, h⟩

/-! ## The example tables -/

theorem exampleTables_WF : exampleTables.WF := by
  refine ⟨by simp only [exampleTables, List.length_cons, List.length_append,
    List.length_replicate, List.length_singleton, List.length_nil], ?_, rfl, rfl,
    by decide, by decide⟩
  intro row hrow
  simp only [exampleTables, List.mem_cons, List.mem_append, List.mem_replicate,
    List.mem_singleton, List.not_mem_nil, or_false] at hrow
  rcases hrow with rfl | ⟨_, rfl⟩ | rfl <;> decide

/-! ## Packing -/

theorem pack_faceBuffer (vertices : List Vector3) (indices : List Int) :
    (pack vertices indices).faceBuffer = indices := by
  simp [pack]

theorem pack_word0 (vertices : List Vector3) (indices : List Int) :
    (pack vertices indices).word0 = 3 * (vertices.length : Int) := by
  simp [pack, mul_comm]

theorem pack_word1 (vertices : List Vector3) (indices : List Int) :
    (pack vertices indices).word1 = (indices.length : Int) := rfl

theorem generateTerrain_eq (noise3 : Flt → Flt → Flt → Flt) (cfg : Config) (tb : Tables)
    (size : Flt) (levelCount maxSegment : Int) (out : OutputBlock) :
    generateTerrain noise3 cfg tb size levelCount maxSegment = some out ↔
      ∃ acc, generateMesh noise3 cfg tb size levelCount maxSegment = some acc ∧
        out = pack acc.1 acc.2 := by
  unfold generateTerrain
  simp only [Option.map_eq_some']
  constructor
  · rintro ⟨acc, h, rfl⟩; exact ⟨acc, h, rfl⟩
  · rintro ⟨acc, h, rfl⟩; exact ⟨acc, h, rfl⟩

/-! ## The dictionary key -/

theorem digitChar_inj (a b : Nat) (ha : a < 10) (hb : b < 10)
    (h : digitChar a = digitChar b) : a = b := by
  interval_cases a <;> interval_cases b <;> first | rfl | (exact absurd h (by decide))

theorem digitChar_ne_underscore (d : Nat) : digitChar d ≠ '_' := by
  unfold digitChar; split <;> decide

theorem digitChar_ne_minus (d : Nat) : digitChar d ≠ '-' := by
  unfold digitChar; split <;> decide

theorem toDigitsAux_eq (fuel : Nat) : ∀ (n : Nat) (acc : List Char), 0 < n → n < fuel →
    toDigitsAux fuel n acc = ((Nat.digits 10 n).reverse.map digitChar) ++ acc := by
  induction fuel with
  | zero => intro n acc _ h; omega
  | succ f ih =>
    intro n acc hn hlt
    unfold toDigitsAux
    by_cases h10 : n < 10
    · rw [if_pos h10, Nat.digits_of_lt 10 n (by omega) h10]
      rfl
    · rw [if_neg h10, ih (n / 10) _ (by omega) (by omega),
        Nat.digits_def' (by norm_num) hn]
      simp

theorem natToString_eq (n : Nat) (hn : 0 < n) :
    natToString n = (Nat.digits 10 n).reverse.map digitChar := by
  unfold natToString
  rw [toDigitsAux_eq (n + 1) n [] hn (by omega), List.append_nil]

theorem natToString_zero : natToString 0 = ['0'] := rfl

theorem map_digitChar_inj : ∀ (l1 l2 : List Nat), (∀ d ∈ l1, d < 10) → (∀ d ∈ l2, d < 10) →
    l1.map digitChar = l2.map digitChar → l1 = l2
  | [], [], _, _, _ => rfl
  | [], _ :: _, _, _, h => by simp at h
  | _ :: _, [], _, _, h => by simp at h
  | a :: l1, b :: l2, h1, h2, h => by
    simp only [List.map_cons, List.cons.injEq] at h
    have hab := digitChar_inj a b (h1 a (List.mem_cons_self _ _)) (h2 b (List.mem_cons_self _ _))
      h.1
    have := map_digitChar_inj l1 l2 (fun d hd => h1 d (List.mem_cons_of_mem _ hd))
      (fun d hd => h2 d (List.mem_cons_of_mem _ hd)) h.2
    rw [hab, this]

theorem natToString_pos_ne_zero (n : Nat) (hn : 0 < n) : natToString n ≠ ['0'] := by
  intro h
  rw [natToString_eq n hn] at h
  have h0 : (Nat.digits 10 n).reverse.map digitChar = [0].map digitChar := h
  have hd := map_digitChar_inj _ _
    (fun d hd => Nat.digits_lt_base (by norm_num) (List.mem_reverse.mp hd))
    (fun d hd => by simp only [List.mem_singleton] at hd; omega) h0
  have hd' : Nat.digits 10 n = [0] := by
    have := congrArg List.reverse hd
    simpa using this
  have := Nat.ofDigits_digits 10 n
  rw [hd'] at this
  simp [Nat.ofDigits] at this
  omega

theorem natToString_inj (a b : Nat) (h : natToString a = natToString b) : a = b := by
  rcases Nat.eq_zero_or_pos a with ha | ha
  · rcases Nat.eq_zero_or_pos b with hb | hb
    · rw [ha, hb]
    · rw [ha, natToString_zero] at h
      exact absurd h.symm (natToString_pos_ne_zero b hb)
  · rcases Nat.eq_zero_or_pos b with hb | hb
    · rw [hb, natToString_zero] at h
      exact absurd h (natToString_pos_ne_zero a ha)
    · rw [natToString_eq a ha, natToString_eq b hb] at h
      have hd := map_digitChar_inj _ _
        (fun d hd => Nat.digits_lt_base (by norm_num) (List.mem_reverse.mp hd))
        (fun d hd => Nat.digits_lt_base (by norm_num) (List.mem_reverse.mp hd)) h
      exact Nat.digits_inj_iff.mp (List.reverse_injective hd)

theorem natToString_chars (n : Nat) (c : Char) (hc : c ∈ natToString n) :
    ∃ d, c = digitChar d := by
  rcases Nat.eq_zero_or_pos n with hn | hn
  · rw [hn, natToString_zero] at hc
    simp only [List.mem_singleton] at hc
    exact ⟨0, hc⟩
  · rw [natToString_eq n hn] at hc
    simp only [List.mem_map] at hc
    obtain ⟨d, _, rfl⟩ := hc
    exact ⟨d, rfl⟩

theorem underscore_not_mem_to_string (i : Int) : '_' ∉ to_string i := by
  intro h
  unfold to_string at h
  split at h
  · simp only [List.mem_cons] at h
    rcases h with h | h
    · exact absurd h (by decide)
    · obtain ⟨d, hd⟩ := natToString_chars _ _ h
      exact digitChar_ne_underscore d hd.symm
  · obtain ⟨d, hd⟩ := natToString_chars _ _ h
    exact digitChar_ne_underscore d hd.symm

theorem to_string_inj (i j : Int) (h : to_string i = to_string j) : i = j := by
  unfold to_string at h
  by_cases hi : i < 0
  · by_cases hj : j < 0
    · rw [if_pos hi, if_pos hj] at h
      have := natToString_inj _ _ (List.cons_injective h)
      omega
    · rw [if_pos hi, if_neg hj] at h
      have hm : '-' ∈ natToString j.toNat := by rw [← h]; exact List.mem_cons_self _ _
      obtain ⟨d, hd⟩ := natToString_chars _ _ hm
      exact absurd hd.symm (digitChar_ne_minus d)
  · by_cases hj : j < 0
    · rw [if_neg hi, if_pos hj] at h
      have hm : '-' ∈ natToString i.toNat := by rw [h]; exact List.mem_cons_self _ _
      obtain ⟨d, hd⟩ := natToString_chars _ _ hm
      exact absurd hd.symm (digitChar_ne_minus d)
    · rw [if_neg hi, if_neg hj] at h
      have := natToString_inj _ _ h
      omega

/-- The key of two pairs of lattice indices is the same exactly when the pairs
are the same up to order. -/
theorem vertexKey_eq_iff (a b c d : Int) :
    vertexKey a b = vertexKey c d ↔ (a = c ∧ b = d) ∨ (a = d ∧ b = c) := by
  unfold vertexKey
  rw [List.append_assoc, List.append_assoc, List.singleton_append, List.singleton_append,
    List.append_cons_inj_of_not_mem (underscore_not_mem_to_string _)
      (underscore_not_mem_to_string _)]
  constructor
  · rintro ⟨h1, _, h2⟩
    have e1 := to_string_inj _ _ h1
    have e2 := to_string_inj _ _ h2
    rcases le_total a b with hab | hab <;> rcases le_total c d with hcd | hcd <;>
      simp only [min_eq_left, min_eq_right, max_eq_left, max_eq_right, hab, hcd] at e1 e2 <;>
      omega
  · rintro (⟨rfl, rfl⟩ | ⟨rfl, rfl⟩)
    · exact ⟨rfl, rfl, rfl⟩
    · exact ⟨by rw [min_comm], rfl, by rw [max_comm]⟩

/-! ## Welding -/

theorem samePair_iff_key (e1 e2 : EdgeVisit) :
    vertexKey e1.ia e1.ib = vertexKey e2.ia e2.ib ↔ samePair e1 e2 :=
  vertexKey_eq_iff _ _ _ _

/-- A key that no visit uses stays absent from the dictionary. -/
theorem dicFind_none_foldl (cfg : Config) (k : List Char) (vs : List EdgeVisit)
    (st : MeshState) (h : dicFind st.vertexDic k = none)
    (hvs : ∀ e ∈ vs, vertexKey e.ia e.ib ≠ k) :
    dicFind (vs.foldl (weldVisit cfg) st).vertexDic k = none := by
  induction vs generalizing st with
  | nil => exact h
  | cons e vs ih =>
    refine ih _ ?_ (fun e' he' => hvs e' (List.mem_cons_of_mem _ he'))
    cases hf : dicFind st.vertexDic (vertexKey e.ia e.ib) with
    | some v => rw [weldVisit_hit cfg st e v hf]; exact h
    | none =>
      rw [weldVisit_miss cfg st e hf]
      simp only [dicFind_cons]
      rw [if_neg (hvs e (List.mem_cons_self _ _))]
      exact h

/-- A recorded index is never changed nor removed. -/
theorem dicFind_some_foldl (cfg : Config) (k : List Char) (v : Int) (vs : List EdgeVisit)
    (st : MeshState) (h : dicFind st.vertexDic k = some v) :
    dicFind (vs.foldl (weldVisit cfg) st).vertexDic k = some v := by
  induction vs generalizing st with
  | nil => exact h
  | cons e vs ih =>
    refine ih _ ?_
    cases hf : dicFind st.vertexDic (vertexKey e.ia e.ib) with
    | some w => rw [weldVisit_hit cfg st e w hf]; exact h
    | none =>
      rw [weldVisit_miss cfg st e hf]
      simp only [dicFind_cons]
      rw [if_neg (fun heq => by rw [heq, h] at hf; cases hf)]
      exact h

/-- A list with an element satisfying `p` splits at the first such element. -/
theorem split_at_first {α : Type} (p : α → Prop) [DecidablePred p] :
    ∀ l : List α, (∃ a ∈ l, p a) →
      ∃ l1 a l2, l = l1 ++ a :: l2 ∧ p a ∧ ∀ b ∈ l1, ¬ p b
  | [], h => by obtain ⟨a, ha, _⟩ := h; simp at ha
  | x :: l, h => by
    by_cases hx : p x
    · exact ⟨[], x, l, rfl, hx, by simp⟩
    · obtain ⟨a, ha, hpa⟩ := h
      have hmem : a ∈ l := by
        simp only [List.mem_cons] at ha
        rcases ha with rfl | ha
        · exact absurd hpa hx
        · exact ha
      obtain ⟨l1, a', l2, hl, hpa', hl1⟩ := split_at_first p l ⟨a, hmem, hpa⟩
      refine ⟨x :: l1, a', l2, by rw [hl]; rfl, hpa', ?_⟩
      intro b hb
      simp only [List.mem_cons] at hb
      rcases hb with rfl | hb
      · exact hx
      · exact hl1 b hb

theorem samePair_symm (e1 e2 : EdgeVisit) (h : samePair e1 e2) : samePair e2 e1 := by
  unfold samePair at *
  rcases h with ⟨h1, h2⟩ | ⟨h1, h2⟩
  · exact Or.inl ⟨h1.symm, h2.symm⟩
  · exact Or.inr ⟨h2.symm, h1.symm⟩

theorem samePair_trans (e1 e2 e3 : EdgeVisit) (h12 : samePair e1 e2) (h23 : samePair e2 e3) :
    samePair e1 e3 := by
  rw [← samePair_iff_key] at *
  rw [h12, h23]

/-! ## Arithmetic on finite values -/

@[simp] theorem Flt.add_fin (a b : ℚ) : Flt.add (Flt.fin a) (Flt.fin b) = Flt.fin (a + b) := rfl

@[simp] theorem Flt.neg_fin (a : ℚ) : Flt.neg (Flt.fin a) = Flt.fin (-a) := rfl

@[simp] theorem Flt.sub_fin (a b : ℚ) : Flt.sub (Flt.fin a) (Flt.fin b) = Flt.fin (a - b) := by
  simp [Flt.sub, sub_eq_add_neg]

@[simp] theorem Flt.mul_fin (a b : ℚ) : Flt.mul (Flt.fin a) (Flt.fin b) = Flt.fin (a * b) := rfl

theorem Flt.div_fin (a b : ℚ) (hb : b ≠ 0) :
    Flt.div (Flt.fin a) (Flt.fin b) = Flt.fin (a / b) := by
  simp [Flt.div, hb]

@[simp] theorem Flt.lt_fin (a b : ℚ) : Flt.lt (Flt.fin a) (Flt.fin b) = decide (a < b) := rfl

/-- On finite samples of different densities, `interpolateVerts` is the
linear interpolation with parameter `(isoLevel - w1) / (w2 - w1)`. -/
theorem interpolateVerts_fin (cfg : Config) (iso x1 y1 z1 w1 x2 y2 z2 w2 : ℚ)
    (hiso : cfg.isoLevel = Flt.fin iso) (hw : w1 ≠ w2) :
    interpolateVerts cfg (vec4 x1 y1 z1 w1) (vec4 x2 y2 z2 w2)
      = vec3 (x1 + (x2 - x1) * ((iso - w1) / (w2 - w1)))
          (y1 + (y2 - y1) * ((iso - w1) / (w2 - w1)))
          (z1 + (z2 - z1) * ((iso - w1) / (w2 - w1))) := by
  have hd : w2 - w1 ≠ 0 := sub_ne_zero.mpr (Ne.symm hw)
  simp [interpolateVerts, vec3, vec4, hiso, Flt.div_fin _ _ hd]

theorem lerp_swap (iso a b w1 w2 : ℚ) (hw : w1 ≠ w2) :
    a + (b - a) * ((iso - w1) / (w2 - w1)) = b + (a - b) * ((iso - w2) / (w1 - w2)) := by
  have h1 : w2 - w1 ≠ 0 := sub_ne_zero.mpr (Ne.symm hw)
  have h2 : w1 - w2 ≠ 0 := sub_ne_zero.mpr hw
  field_simp
  ring

theorem vertexKey_comm (a b : Int) : vertexKey a b = vertexKey b a :=
  (vertexKey_eq_iff a b b a).mpr (Or.inr ⟨rfl, rfl⟩)

/-! ## The corner samples of a visit -/

theorem cubeCorners_get (x y z segment : Int) (points : List Vector4) (cc : List Vector4)
    (h : cubeCornersOf x y z segment points = some cc) (k i : Int) (c : Vector4)
    (hi : getI (cornerIndicesOf x y z segment) k = some i) (hc : getI cc k = some c) :
    getI points i = some c := by
  unfold cubeCornersOf at h
  simp only [Option.bind_eq_bind, Option.bind_eq_some] at h
  obtain ⟨c0, h0, c1, h1, c2, h2, c3, h3, c4, h4, c5, h5, c6, h6, c7, h7, h⟩ := h
  cases h
  obtain ⟨hk0, hk8⟩ := getI_range_of_some _ _ _ hi
  have hk8' : k < 8 := by simpa [cornerIndicesOf] using hk8
  interval_cases k <;> simp [getI, cornerIndicesOf] at hi hc <;> subst hi <;> subst hc <;>
    assumption

theorem visitOf_fromLattice (x y z segment : Int) (points : List Vector4)
    (cc : List Vector4) (h : cubeCornersOf x y z segment points = some cc)
    (seg : Int × Int) (e : EdgeVisit)
    (he : visitOf cc (cornerIndicesOf x y z segment) seg = some e) : FromLattice points e := by
  unfold visitOf at he
  simp only [Option.bind_eq_bind, Option.bind_eq_some] at he
  obtain ⟨ia, hia, ib, hib, ca, hca, cb, hcb, he⟩ := he
  cases he
  exact ⟨cubeCorners_get x y z segment points cc h seg.1 ia ca hia hca,
    cubeCorners_get x y z segment points cc h seg.2 ib cb hib hcb⟩

theorem triangleVisits_fromLattice (tb : Tables) (x y z segment : Int)
    (points : List Vector4) (cc : List Vector4)
    (h : cubeCornersOf x y z segment points = some cc) (e0 e1 e2 : Int) (t : List EdgeVisit)
    (ht : triangleVisits tb cc (cornerIndicesOf x y z segment) e0 e1 e2 = some t) :
    ∀ e ∈ t, FromLattice points e := by
  unfold triangleVisits at ht
  simp only [Option.bind_eq_bind, Option.bind_eq_some] at ht
  obtain ⟨a0, _, b0, _, a1, _, b1, _, a2, _, b2, _, v0, hv0, v2, hv2, v1, hv1, ht⟩ := ht
  cases ht
  intro e he
  simp only [List.mem_cons, List.mem_singleton, List.not_mem_nil, or_false] at he
  rcases he with rfl | rfl | rfl
  · exact visitOf_fromLattice x y z segment points cc h _ _ hv0
  · exact visitOf_fromLattice x y z segment points cc h _ _ hv2
  · exact visitOf_fromLattice x y z segment points cc h _ _ hv1

theorem rowVisits_fromLattice (tb : Tables) (x y z segment : Int) (points : List Vector4)
    (cc : List Vector4) (h : cubeCornersOf x y z segment points = some cc) :
    (row : List Int) → (r : List EdgeVisit) →
    rowVisits tb cc (cornerIndicesOf x y z segment) row = some r →
      ∀ e ∈ r, FromLattice points e
  | [], r, hr => by simp [rowVisits] at hr
  | [e0], r, hr => by
    simp only [rowVisits] at hr
    split at hr
    · cases hr; intro e he; simp at he
    · cases hr
  | [e0, _], r, hr => by
    simp only [rowVisits] at hr
    split at hr
    · cases hr; intro e he; simp at he
    · cases hr
  | e0 :: e1 :: e2 :: rest, r, hr => by
    simp only [rowVisits] at hr
    split at hr
    · cases hr; intro e he; simp at he
    · simp only [Option.bind_eq_some, Option.map_eq_some'] at hr
      obtain ⟨t, ht, r', hr', rfl⟩ := hr
      intro e he
      simp only [List.mem_append] at he
      rcases he with he | he
      · exact triangleVisits_fromLattice tb x y z segment points cc h e0 e1 e2 t ht e he
      · exact rowVisits_fromLattice tb x y z segment points cc h rest r' hr' e he

theorem marchVisits_fromLattice (cfg : Config) (tb : Tables) (x y z segment : Int)
    (points : List Vector4) (vs : List EdgeVisit)
    (h : marchVisits cfg tb x y z segment points = some vs) :
    ∀ e ∈ vs, FromLattice points e := by
  unfold marchVisits at h
  simp only [Option.bind_eq_bind, Option.bind_eq_some] at h
  obtain ⟨cc, hcc, h⟩ := h
  split at h
  · cases h; intro e he; simp at he
  · simp only [Option.bind_eq_some] at h
    obtain ⟨row, _, h⟩ := h
    exact rowVisits_fromLattice tb x y z segment points cc hcc row vs h

theorem chunkVisits_fromLattice (cfg : Config) (tb : Tables) (segment : Int)
    (points : List Vector4) (vs : List EdgeVisit)
    (h : chunkVisits cfg tb segment points = some vs) :
    ∀ e ∈ vs, FromLattice points e := by
  unfold chunkVisits at h
  refine forRange_partial (fun _ (acc : List EdgeVisit) => ∀ e ∈ acc, FromLattice points e)
    _ _ [] (fun e he => by simp at he) ?_ vs h
  intro i _ t t' ht hbody
  refine forRange_partial (fun _ (acc : List EdgeVisit) => ∀ e ∈ acc, FromLattice points e)
    _ _ _ ht ?_ t' hbody
  intro j _ t t' ht hbody
  refine forRange_partial (fun _ (acc : List EdgeVisit) => ∀ e ∈ acc, FromLattice points e)
    _ _ _ ht ?_ t' hbody
  intro k _ t t' ht hbody
  simp only [Option.map_eq_some'] at hbody
  obtain ⟨m, hm, rfl⟩ := hbody
  intro e he
  simp only [List.mem_append] at he
  rcases he with he | he
  · exact ht e he
  · exact marchVisits_fromLattice cfg tb _ _ _ segment points m hm e he

theorem lerp_between (a b t : ℚ) (h0 : 0 ≤ t) (h1 : t ≤ 1) :
    min a b ≤ a + (b - a) * t ∧ a + (b - a) * t ≤ max a b := by
  rcases le_total a b with hab | hab
  · rw [min_eq_left hab, max_eq_right hab]
    constructor <;> nlinarith
  · rw [min_eq_right hab, max_eq_left hab]
    constructor <;> nlinarith

/-! ## The configuration index -/

/-- The configuration index of eight corners is the sum of their bits, bit `k`
with value `2 ^ k`. -/
theorem cubeIndexOf_eq_sum (cfg : Config) (c0 c1 c2 c3 c4 c5 c6 c7 : Vector4) :
    cubeIndexOf cfg [c0, c1, c2, c3, c4, c5, c6, c7]
      = bitOf cfg c0 + 2 * bitOf cfg c1 + 4 * bitOf cfg c2 + 8 * bitOf cfg c3
        + 16 * bitOf cfg c4 + 32 * bitOf cfg c5 + 64 * bitOf cfg c6 + 128 * bitOf cfg c7 := by
  unfold cubeIndexOf orBit bitOf
  simp only [List.get?_cons_zero, List.get?_cons_succ]
  cases Flt.lt c0.w cfg.isoLevel <;> cases Flt.lt c1.w cfg.isoLevel <;>
  cases Flt.lt c2.w cfg.isoLevel <;> cases Flt.lt c3.w cfg.isoLevel <;>
  cases Flt.lt c4.w cfg.isoLevel <;> cases Flt.lt c5.w cfg.isoLevel <;>
  cases Flt.lt c6.w cfg.isoLevel <;> cases Flt.lt c7.w cfg.isoLevel <;> rfl

theorem bitOf_le_one (cfg : Config) (c : Vector4) : bitOf cfg c ≤ 1 := by
  unfold bitOf; split <;> omega

theorem bitOf_eq_one_iff (cfg : Config) (c : Vector4) :
    bitOf cfg c = 1 ↔ Flt.lt c.w cfg.isoLevel = true := by
  unfold bitOf; split <;> simp_all

theorem bitOf_eq_zero_iff (cfg : Config) (c : Vector4) :
    bitOf cfg c = 0 ↔ Flt.lt c.w cfg.isoLevel = false := by
  unfold bitOf; split <;> simp_all

/-- Bit `k` of the sum of eight weighted bits is the `k`-th bit. -/
theorem testBit_sum (b0 b1 b2 b3 b4 b5 b6 b7 : Nat) (h0 : b0 ≤ 1) (h1 : b1 ≤ 1) (h2 : b2 ≤ 1)
    (h3 : b3 ≤ 1) (h4 : b4 ≤ 1) (h5 : b5 ≤ 1) (h6 : b6 ≤ 1) (h7 : b7 ≤ 1) :
    [0, 1, 2, 3, 4, 5, 6, 7].map
        (b0 + 2 * b1 + 4 * b2 + 8 * b3 + 16 * b4 + 32 * b5 + 64 * b6 + 128 * b7).testBit
      = [b0, b1, b2, b3, b4, b5, b6, b7].map (fun b => decide (b = 1)) := by
  interval_cases b0 <;> interval_cases b1 <;> interval_cases b2 <;> interval_cases b3 <;>
  interval_cases b4 <;> interval_cases b5 <;> interval_cases b6 <;> interval_cases b7 <;>
  decide

/-! ## The chunk grid -/

theorem foldlM_flatMap {α β σ : Type} (f : σ → β → Option σ) (g : α → List β) :
    ∀ (l : List α) (s : σ),
      (l.flatMap g).foldlM f s = l.foldlM (fun acc a => (g a).foldlM f acc) s
  | [], s => rfl
  | a :: l, s => by
    rw [List.flatMap_cons, List.foldlM_append, List.foldlM_cons]
    cases (g a).foldlM f s with
    | none => rfl
    | some t => exact foldlM_flatMap f g l t

/-- The chunk loops are one pass over the list of chunk origins. -/
theorem generateMesh_eq_foldlM (noise3 : Flt → Flt → Flt → Flt) (cfg : Config) (tb : Tables)
    (size : Flt) (levelCount maxSegment : Int) :
    generateMesh noise3 cfg tb size levelCount maxSegment
      = (chunkOrigins (chunkCountOf levelCount)
          (Flt.div size (Flt.ofInt (chunkCountOf levelCount)))).foldlM
          (fun acc origin => createChunk noise3 cfg tb origin
            (Flt.div size (Flt.ofInt (chunkCountOf levelCount))) maxSegment
            acc.1 acc.2 (acc.1.length : Int)) ([], []) := by
  unfold generateMesh chunkOrigins forRange
  rw [foldlM_flatMap]
  simp only [List.foldlM_map]

theorem length_flatMap_const {α β : Type} (g : α → List β) (m : Nat)
    (h : ∀ a, (g a).length = m) : ∀ l : List α, (l.flatMap g).length = l.length * m
  | [] => by simp
  | a :: l => by
    rw [List.flatMap_cons, List.length_append, h, length_flatMap_const g m h l,
      List.length_cons]
    ring

theorem chunkOrigins_length (chunkCount : Int) (chunkSize : Flt) :
    (chunkOrigins chunkCount chunkSize).length = chunkCount.toNat * chunkCount.toNat := by
  unfold chunkOrigins
  rw [length_flatMap_const _ chunkCount.toNat (fun a => by simp), List.length_range]

/-- Over finite values the origin of chunk `(i, j)` has the coordinates
`originCoord`. -/
theorem chunkOrigin_fin (chunkCount : Int) (hc : chunkCount ≠ 0) (q : ℚ) (i j : Int) :
    Flt.div (Flt.fin q) (Flt.ofInt chunkCount) = Flt.fin (q / (chunkCount : ℚ)) ∧
    chunkOrigin chunkCount (Flt.div (Flt.fin q) (Flt.ofInt chunkCount)) i j
      = vec3 (originCoord chunkCount q i) 0 (originCoord chunkCount q j) := by
  have hq : ((chunkCount : Int) : ℚ) ≠ 0 := by exact_mod_cast hc
  have hd : Flt.div (Flt.fin q) (Flt.ofInt chunkCount) = Flt.fin (q / (chunkCount : ℚ)) := by
    unfold Flt.ofInt
    exact Flt.div_fin _ _ hq
  refine ⟨hd, ?_⟩
  unfold chunkOrigin
  rw [hd]
  simp [Flt.ofInt, vec3, originCoord]

theorem chunkCountOf_pos (levelCount : Int) (h : 1 ≤ levelCount) :
    chunkCountOf levelCount = 2 * 2 ^ (levelCount.toNat - 1) ∧ 0 < chunkCountOf levelCount ∧
      chunkCountOf levelCount / 2 = 2 ^ (levelCount.toNat - 1) := by
  unfold chunkCountOf
  rw [if_pos (by omega)]
  have hL : levelCount.toNat = (levelCount.toNat - 1) + 1 := by omega
  have e : (2 : Int) ^ levelCount.toNat = 2 * 2 ^ (levelCount.toNat - 1) := by
    conv_lhs => rw [hL, pow_succ]
    ring
  refine ⟨e, by positivity, ?_⟩
  rw [e]
  exact Int.mul_ediv_cancel_left _ (by norm_num)

/-- For an even chunk count the cells start at `-size / 2`, each starts where
the previous one ends, and the last one ends at `size / 2`. -/
theorem originCoord_steps (n : Int) (m : Int) (hn : n = 2 * m) (hm : 0 < m) (q : ℚ) :
    originCoord n q 0 = -q / 2 ∧
    (∀ i : Int, originCoord n q (i + 1) = originCoord n q i + q / (n : ℚ)) ∧
    originCoord n q (n - 1) + q / (n : ℚ) = q / 2 ∧
    (∀ i : Int, originCoord n q i = -q / 2 + (i : ℚ) * (q / (n : ℚ))) := by
  have hdiv : n / 2 = m := by rw [hn]; exact Int.mul_ediv_cancel_left _ (by norm_num)
  have hmq : (m : ℚ) ≠ 0 := by
    have : (0 : ℚ) < (m : ℚ) := by exact_mod_cast hm
    exact ne_of_gt this
  have hnq : (n : ℚ) = 2 * (m : ℚ) := by rw [hn]; push_cast; ring
  have gen : ∀ i : Int, originCoord n q i = -q / 2 + (i : ℚ) * (q / (n : ℚ)) := by
    intro i
    unfold originCoord
    rw [hdiv, hnq]
    push_cast
    field_simp
    ring
  refine ⟨?_, ?_, ?_, gen⟩
  · rw [gen]; simp
  · intro i; rw [gen, gen]; push_cast; ring
  · rw [gen, hnq]; push_cast; rw [hnq]; field_simp; ring

/-- For a positive size and an even chunk count, every abscissa of
`[-size / 2, size / 2)` lies in exactly one of the cells
`[start, start + size / n)`. -/
theorem cell_unique (n m : Int) (hn : n = 2 * m) (hm : 0 < m) (q : ℚ) (hq : 0 < q) (p : ℚ)
    (hp0 : -q / 2 ≤ p) (hp1 : p < q / 2) :
    ∃ i : Int, (0 ≤ i ∧ i < n ∧ originCoord n q i ≤ p ∧ p < originCoord n q i + q / (n : ℚ)) ∧
      ∀ k : Int, (0 ≤ k ∧ k < n ∧ originCoord n q k ≤ p ∧ p < originCoord n q k + q / (n : ℚ)) →
        k = i := by
  obtain ⟨_, _, _, gen⟩ := originCoord_steps n m hn hm q
  have hnpos : (0 : ℚ) < (n : ℚ) := by
    have : (0 : Int) < n := by omega
    exact_mod_cast this
  have hc : 0 < q / (n : ℚ) := div_pos hq hnpos
  have hcn : q / (n : ℚ) * (n : ℚ) = q := by field_simp
  have key : ∀ k : Int, (originCoord n q k ≤ p ∧ p < originCoord n q k + q / (n : ℚ)) ↔
      ⌊(p + q / 2) / (q / (n : ℚ))⌋ = k := by
    intro k
    rw [gen k, Int.floor_eq_iff, le_div_iff₀ hc, div_lt_iff₀ hc]
    constructor
    · rintro ⟨h1, h2⟩; constructor <;> linarith
    · rintro ⟨h1, h2⟩; constructor <;> linarith
  refine ⟨⌊(p + q / 2) / (q / (n : ℚ))⌋, ⟨?_, ?_, (key _).mpr rfl⟩, ?_⟩
  · apply Int.floor_nonneg.mpr
    exact div_nonneg (by linarith) hc.le
  · rw [Int.floor_lt, div_lt_iff₀ hc]
    have : (n : ℚ) * (q / (n : ℚ)) = q := by field_simp
    rw [this]; linarith
  · rintro k ⟨_, _, h1, h2⟩
    exact ((key k).mp ⟨h1, h2⟩).symm

/-! ## The density over finite values -/

theorem Flt.fmin_fin (a b : ℚ) : Flt.fmin (Flt.fin a) (Flt.fin b) = Flt.fin (min a b) := by
  unfold Flt.fmin
  simp only [Flt.lt_fin]
  by_cases h : b < a
  · simp [h, min_eq_right h.le]
  · simp [h, min_eq_left (not_lt.mp h)]

theorem Flt.fmax_fin (a b : ℚ) : Flt.fmax (Flt.fin a) (Flt.fin b) = Flt.fin (max a b) := by
  unfold Flt.fmax
  simp only [Flt.lt_fin]
  by_cases h : a < b
  · simp [h, max_eq_right h.le]
  · simp [h, max_eq_left (not_lt.mp h)]

theorem Flt.abs_fin (a : ℚ) : Flt.abs (Flt.fin a) = Flt.fin |a| := rfl

theorem Flt.floor_fin (a : ℚ) : Flt.floor (Flt.fin a) = Flt.fin ((⌊a⌋ : Int) : ℚ) := rfl

/-- One octave on finite values: the state stays finite, and the accumulated
noise, the amplitude and the weight stay non-negative. -/
theorem octaveStep_fin (noise3 : Flt → Flt → Flt → Flt)
    (hnoise : ∀ a b c, ∃ q, noise3 a b c = Flt.fin q ∧ -1 ≤ q ∧ q ≤ 1) (cfg : Config)
    (p l : ℚ) (hp : cfg.persistence = Flt.fin p) (hp0 : 0 ≤ p) (hl : cfg.lacunarity = Flt.fin l)
    (px py pz n f a w : ℚ) (hn : 0 ≤ n) (ha : 0 ≤ a) (hw : 0 ≤ w) :
    ∃ n' f' a' w', octaveStep noise3 cfg (vec3 px py pz) ⟨Flt.fin n, Flt.fin f, Flt.fin a, Flt.fin w⟩
        = ⟨Flt.fin n', Flt.fin f', Flt.fin a', Flt.fin w'⟩ ∧ 0 ≤ n' ∧ 0 ≤ a' ∧ 0 ≤ w' := by
  obtain ⟨q, hq, _, _⟩ := hnoise (Flt.fin ((px + 0) * f)) (Flt.fin ((py + 0) * f))
    (Flt.fin ((pz + 0) * f))
  have h2 : (2 : ℚ) ≠ 0 := by norm_num
  have hv : 0 ≤ (1 - |q / 2|) * (1 - |q / 2|) * w :=
    mul_nonneg (mul_self_nonneg _) hw
  refine ⟨n + (1 - |q / 2|) * (1 - |q / 2|) * w * a, f * l, a * p,
    max (min ((1 - |q / 2|) * (1 - |q / 2|) * w * (105 / 100)) 1) 0, ?_,
    add_nonneg hn (mul_nonneg hv ha), mul_nonneg ha hp0, le_max_right _ _⟩
  unfold octaveStep
  simp only [vec3, hq, hp, hl, Flt.div_fin _ _ h2, Flt.abs_fin, Flt.sub_fin, Flt.mul_fin,
    Flt.add_fin, Flt.fmin_fin, Flt.fmax_fin]

theorem octaveLoop_fin (noise3 : Flt → Flt → Flt → Flt)
    (hnoise : ∀ a b c, ∃ q, noise3 a b c = Flt.fin q ∧ -1 ≤ q ∧ q ≤ 1) (cfg : Config)
    (p l : ℚ) (hp : cfg.persistence = Flt.fin p) (hp0 : 0 ≤ p) (hl : cfg.lacunarity = Flt.fin l)
    (px py pz : ℚ) :
    ∀ (count : Nat) (n f a w : ℚ), 0 ≤ n → 0 ≤ a → 0 ≤ w →
      ∃ n' f' a' w', octaveLoop noise3 cfg (vec3 px py pz) count
          ⟨Flt.fin n, Flt.fin f, Flt.fin a, Flt.fin w⟩
        = ⟨Flt.fin n', Flt.fin f', Flt.fin a', Flt.fin w'⟩ ∧ 0 ≤ n' ∧ 0 ≤ a' ∧ 0 ≤ w'
  | 0, n, f, a, w, hn, ha, hw => ⟨n, f, a, w, rfl, hn, ha, hw⟩
  | count + 1, n, f, a, w, hn, ha, hw => by
    obtain ⟨n1, f1, a1, w1, h1, hn1, ha1, hw1⟩ :=
      octaveStep_fin noise3 hnoise cfg p l hp hp0 hl px py pz n f a w hn ha hw
    obtain ⟨n2, f2, a2, w2, h2, hn2, ha2, hw2⟩ :=
      octaveLoop_fin noise3 hnoise cfg p l hp hp0 hl px py pz count n1 f1 a1 w1 hn1 ha1 hw1
    exact ⟨n2, f2, a2, w2, by rw [octaveLoop, h1, h2], hn2, ha2, hw2⟩

theorem samplePos_fin (x y z : Int) (ox oy oz u : ℚ) :
    samplePos x y z (vec3 ox oy oz) (Flt.fin u)
      = vec3 (ox + (x : ℚ) * u) (oy + (y : ℚ) * u) (oz + (z : ℚ) * u) := by
  simp [samplePos, vec3, Flt.ofInt]

/-- Inside the lattice and with well-formed tables, a `march` call returns. -/
theorem march_some (cfg : Config) (tb : Tables) (hwf : tb.WF) (x y z segment : Int)
    (points : List Vector4) (hlen : (points.length : Int) = (segment + 1) ^ 3)
    (hx : 0 ≤ x ∧ x < segment) (hy : 0 ≤ y ∧ y < segment) (hz : 0 ≤ z ∧ z < segment)
    (st : MeshState) : ∃ st', march cfg tb x y z segment points st = some st' := by
  obtain ⟨vs, hvs⟩ := marchVisits_some cfg tb hwf x y z segment points hlen hx.1 hx.2 hy.1 hy.2
    hz.1 hz.2
  exact ⟨vs.foldl (weldVisit cfg) st, by rw [march_eq_visits, hvs]; rfl⟩

/-! ## Claims -/

/-- C1 (as amended), index validity.  For every noise function, configuration,
size, `levelCount` and `maxSegment`: whenever `generateTerrain` returns a block,
every element `i` of its index array satisfies `0 ≤ i` and `i <` the number of
vertices (`3 * i < word0`, `word0` counting floats); with tables whose rows are
triplets of edge numbers in `0..11` ended by `-1` and whose corner tables hold
twelve corner numbers in `0..7`, and with `0 ≤ maxSegment`, it does return.
A single `march` call that returns preserves: the running index equals the
vertex count, every index recorded in the dictionary refers to a vertex, and
every element of the index sequence refers to a vertex; for a cube inside a
lattice of the allocated size and well-formed tables, the call does return. -/
theorem index_validity (noise3 : Flt → Flt → Flt → Flt) (cfg : Config) (tb : Tables)
    (size : Flt) (levelCount maxSegment : Int) :
    (∀ out, generateTerrain noise3 cfg tb size levelCount maxSegment = some out →
      ∀ i ∈ out.faceBuffer, 0 ≤ i ∧ 3 * i < out.word0) ∧
    (tb.WF → 0 ≤ maxSegment →
      ∃ out acc, generateTerrain noise3 cfg tb size levelCount maxSegment = some out ∧
        generateMesh noise3 cfg tb size levelCount maxSegment = some acc ∧
        out = pack acc.1 acc.2 ∧ ValidIndices acc.1 acc.2) ∧
    (∀ x y z segment points st st', IdxInv st →
      march cfg tb x y z segment points st = some st' → IdxInv st') ∧
    (tb.WF → ∀ (x y z segment : Int) (points : List Vector4) (st : MeshState),
      (points.length : Int) = (segment + 1) ^ 3 →
      (0 ≤ x ∧ x < segment) → (0 ≤ y ∧ y < segment) → (0 ≤ z ∧ z < segment) → IdxInv st →
      ∃ st', march cfg tb x y z segment points st = some st' ∧ IdxInv st') := by
  have hmarch : ∀ x y z segment points st st', IdxInv st →
      march cfg tb x y z segment points st = some st' → IdxInv st' := by
    intro x y z segment points st st' hinv h
    rw [march_eq_visits] at h
    simp only [Option.map_eq_some'] at h
    obtain ⟨vs, _, rfl⟩ := h
    exact IdxInv_foldl cfg vs st hinv
  refine ⟨?_, ?_, hmarch, ?_⟩
  · intro out hout i hi
    obtain ⟨acc, hacc, rfl⟩ := (generateTerrain_eq _ _ _ _ _ _ _).mp hout
    rw [pack_faceBuffer] at hi
    rw [pack_word0]
    have := (generateMesh_MeshOK _ _ _ _ _ _ acc hacc).1 i hi
    omega
  · intro hwf hseg
    obtain ⟨acc, hacc⟩ := generateMesh_some noise3 cfg tb hwf size levelCount maxSegment hseg
    exact ⟨pack acc.1 acc.2, acc, (generateTerrain_eq _ _ _ _ _ _ _).mpr ⟨acc, hacc, rfl⟩,
      hacc, rfl, (generateMesh_MeshOK _ _ _ _ _ _ acc hacc).1⟩
  · intro hwf x y z segment points st hlen hx hy hz hinv
    obtain ⟨st', hst'⟩ := march_some cfg tb hwf x y z segment points hlen hx hy hz st
    exact ⟨st', hst', hmarch x y z segment points st st' hinv hst'⟩

/-- Instance of `index_validity`: the example tables are well formed, and a run
with `size = 400`, `levelCount = 0`, `maxSegment = 2` returns a valid mesh. -/
theorem index_validity_witness :
    exampleTables.WF ∧ (0 : Int) ≤ 2 ∧
    ∃ out acc, generateTerrain zeroNoise defaults exampleTables (Flt.fin 400) 0 2 = some out ∧
      generateMesh zeroNoise defaults exampleTables (Flt.fin 400) 0 2 = some acc ∧
      out = pack acc.1 acc.2 ∧ ValidIndices acc.1 acc.2 :=
  ⟨exampleTables_WF, by decide,
    (index_validity zeroNoise defaults exampleTables (Flt.fin 400) 0 2).2.1
      exampleTables_WF (by decide)⟩

/-- C1, counterexample to the statement for a single `march` call.  The state
has no vertex, no index and running index 0 (so every index is valid and the
running index equals the vertex count), but its dictionary records index 7
for the key `0_1`.  The `march` call on cube `(0, 0, 0)` of the example lattice
returns with 2 vertices and the index sequence `7, 0, 1`: the index 7 does not
refer to a vertex. -/
theorem march_stale_dictionary :
    ValidIndices [] [] ∧
    (march defaults exampleTables 0 0 0 1 examplePoints
        ⟨[], [], [(['0', '_', '1'], 7)], 0⟩).map
      (fun st => (st.vertices.length, st.indices)) = some (2, [7, 0, 1]) ∧
    ¬ (∀ st', march defaults exampleTables 0 0 0 1 examplePoints
        ⟨[], [], [(['0', '_', '1'], 7)], 0⟩ = some st' →
        ValidIndices st'.vertices st'.indices) := by
  have hrun : (march defaults exampleTables 0 0 0 1 examplePoints
        ⟨[], [], [(['0', '_', '1'], 7)], 0⟩).map
      (fun st => (st.vertices.length, st.indices)) = some (2, [7, 0, 1]) := by decide
  refine ⟨fun i hi => by simp at hi, hrun, ?_⟩
  intro hall
  simp only [Option.map_eq_some'] at hrun
  obtain ⟨st', hst', heq⟩ := hrun
  have hv := hall st' hst'
  simp only [Prod.mk.injEq] at heq
  have h7 := hv 7 (by rw [heq.2]; simp)
  rw [heq.1] at h7
  omega

/-- C2, triangle completeness.  For every input and every table: whenever
`generateTerrain` returns a block, its index count `word1` and the length of
its index array are multiples of 3; every `march` call that returns appends
`3 * k` indices, `k` the number of triplets visited (its visits number
`3 * k`, one index each); with well-formed tables and `0 ≤ maxSegment`
`generateTerrain` does return, and so does `march` for a cube inside a lattice
of the allocated size. -/
theorem triangle_completeness (noise3 : Flt → Flt → Flt → Flt) (cfg : Config) (tb : Tables)
    (size : Flt) (levelCount maxSegment : Int) :
    (∀ out, generateTerrain noise3 cfg tb size levelCount maxSegment = some out →
      out.word1 % 3 = 0 ∧ out.faceBuffer.length % 3 = 0) ∧
    (∀ x y z segment points st st', march cfg tb x y z segment points st = some st' →
      ∃ vs k, marchVisits cfg tb x y z segment points = some vs ∧ vs.length = 3 * k ∧
        st'.indices.length = st.indices.length + 3 * k) ∧
    (tb.WF → 0 ≤ maxSegment →
      ∃ out, generateTerrain noise3 cfg tb size levelCount maxSegment = some out ∧
        out.word1 % 3 = 0) ∧
    (tb.WF → ∀ (x y z segment : Int) (points : List Vector4) (st : MeshState),
      (points.length : Int) = (segment + 1) ^ 3 →
      (0 ≤ x ∧ x < segment) → (0 ≤ y ∧ y < segment) → (0 ≤ z ∧ z < segment) →
      ∃ st' k, march cfg tb x y z segment points st = some st' ∧
        st'.indices.length = st.indices.length + 3 * k) := by
  have key : ∀ out, generateTerrain noise3 cfg tb size levelCount maxSegment = some out →
      out.word1 % 3 = 0 ∧ out.faceBuffer.length % 3 = 0 := by
    intro out hout
    obtain ⟨acc, hacc, rfl⟩ := (generateTerrain_eq _ _ _ _ _ _ _).mp hout
    obtain ⟨k, hk⟩ := (generateMesh_MeshOK _ _ _ _ _ _ acc hacc).2.1
    rw [pack_faceBuffer, pack_word1, hk]
    constructor
    · push_cast; omega
    · omega
  have hmarch : ∀ x y z segment points st st',
      march cfg tb x y z segment points st = some st' →
      ∃ vs k, marchVisits cfg tb x y z segment points = some vs ∧ vs.length = 3 * k ∧
        st'.indices.length = st.indices.length + 3 * k := by
    intro x y z segment points st st' h
    rw [march_eq_visits] at h
    simp only [Option.map_eq_some'] at h
    obtain ⟨vs, hvs, rfl⟩ := h
    obtain ⟨k, hk⟩ := marchVisits_length cfg tb x y z segment points vs hvs
    exact ⟨vs, k, hvs, hk, by rw [indices_length_foldl, hk]⟩
  refine ⟨key, hmarch, ?_, ?_⟩
  · intro hwf hseg
    obtain ⟨acc, hacc⟩ := generateMesh_some noise3 cfg tb hwf size levelCount maxSegment hseg
    have hout := (generateTerrain_eq noise3 cfg tb size levelCount maxSegment _).mpr
      ⟨acc, hacc, rfl⟩
    exact ⟨pack acc.1 acc.2, hout, (key _ hout).1⟩
  · intro hwf x y z segment points st hlen hx hy hz
    obtain ⟨st', hst'⟩ := march_some cfg tb hwf x y z segment points hlen hx hy hz st
    obtain ⟨_, k, _, _, hk⟩ := hmarch x y z segment points st st' hst'
    exact ⟨st', k, hst', hk⟩

/-- Instance of `triangle_completeness` at the example tables. -/
theorem triangle_completeness_witness :
    exampleTables.WF ∧ (0 : Int) ≤ 2 ∧
    ∃ out, generateTerrain zeroNoise defaults exampleTables (Flt.fin 400) 0 2 = some out ∧
      out.word1 % 3 = 0 :=
  ⟨exampleTables_WF, by decide,
    (triangle_completeness zeroNoise defaults exampleTables (Flt.fin 400) 0 2).2.2.1
      exampleTables_WF (by decide)⟩

/-- C6, no reuse across chunks.  `createChunk` runs its marching loops from
the state with an empty dictionary and running index `indexOffset`; whenever
it returns, the index sequence is the one it received followed by the appended
indices, all of them `≥ indexOffset` (one per visited edge); in particular,
called with `indexOffset` the current vertex count, as `generateTerrain` does,
no appended index refers to a vertex of an earlier chunk.  With well-formed
tables and `0 ≤ segment` it does return. -/
theorem no_cross_chunk_reuse (noise3 : Flt → Flt → Flt → Flt) (cfg : Config) (tb : Tables)
    (origin : Vector3) (chunkSize : Flt) (segment : Int) (vertices : List Vector3)
    (indices : List Int) (indexOffset : Int) :
    (∀ st, createChunkState noise3 cfg tb origin chunkSize segment vertices indices
        indexOffset = some st →
      ∃ pts, sampleLattice noise3 cfg origin chunkSize segment = some pts ∧
        marchLoops cfg tb segment pts
          { vertices := vertices, indices := indices, vertexDic := [], index := indexOffset }
          = some st) ∧
    (∀ r, createChunk noise3 cfg tb origin chunkSize segment vertices indices indexOffset
        = some r →
      ∃ added, r.2 = indices ++ added ∧ ∀ i ∈ added, indexOffset ≤ i) ∧
    (∀ r, createChunk noise3 cfg tb origin chunkSize segment vertices indices
        (vertices.length : Int) = some r →
      ∃ added, r.2 = indices ++ added ∧ ∀ i ∈ added, (vertices.length : Int) ≤ i) ∧
    (tb.WF → 0 ≤ segment →
      ∃ r, createChunk noise3 cfg tb origin chunkSize segment vertices indices indexOffset
        = some r) := by
  have low : ∀ off r, createChunk noise3 cfg tb origin chunkSize segment vertices indices off
      = some r → ∃ added, r.2 = indices ++ added ∧ ∀ i ∈ added, off ≤ i := by
    intro off r h
    obtain ⟨st, hst, rfl⟩ := (createChunk_eq _ _ _ _ _ _ _ _ _ _).mp h
    obtain ⟨pts, visits, _, _, _, rfl⟩ := createChunkState_visits _ _ _ _ _ _ _ _ _ _ hst
    obtain ⟨added, hadd, _, hall⟩ := LowInv_foldl cfg off visits
      (chunkStart vertices indices off)
      ⟨le_refl _, fun k v hk => by simp [chunkStart, dicFind] at hk⟩
    exact ⟨added, hadd, hall⟩
  refine ⟨?_, low indexOffset, low _, ?_⟩
  · intro st hst
    unfold createChunkState at hst
    simp only [Option.bind_eq_bind, Option.bind_eq_some] at hst
    exact hst
  · intro hwf hseg
    obtain ⟨st, hst⟩ := createChunkState_some noise3 cfg tb hwf origin chunkSize segment hseg
      vertices indices indexOffset
    exact ⟨_, (createChunk_eq _ _ _ _ _ _ _ _ _ _).mpr ⟨st, hst, rfl⟩⟩

/-- Instance of `no_cross_chunk_reuse`: a second chunk, called with one vertex
and three indices already accumulated. -/
theorem no_cross_chunk_reuse_witness :
    exampleTables.WF ∧ (0 : Int) ≤ 2 ∧
    ∃ r, createChunk zeroNoise defaults exampleTables ⟨Flt.fin 0, Flt.fin 0, Flt.fin 0⟩
      (Flt.fin 400) 2 [⟨Flt.fin 0, Flt.fin 0, Flt.fin 0⟩] [0, 0, 0] 1 = some r :=
  ⟨exampleTables_WF, by decide,
    (no_cross_chunk_reuse zeroNoise defaults exampleTables ⟨Flt.fin 0, Flt.fin 0, Flt.fin 0⟩
      (Flt.fin 400) 2 [⟨Flt.fin 0, Flt.fin 0, Flt.fin 0⟩] [0, 0, 0] 1).2.2.2
      exampleTables_WF (by decide)⟩

/-- C7, configuration symmetry.  For a cube whose eight corner reads succeed:
with configuration index 0 `march` returns the state unchanged (no vertex, no
index, same running index, same dictionary), whatever the tables; with
configuration index 255 it does so when row 255 of the triangulation table
is empty, that is, starts with the terminator `-1` (`Tables.row255Empty`).  In
both cases the call visits no edge. -/
theorem configuration_symmetry (cfg : Config) (tb : Tables) (x y z segment : Int)
    (points : List Vector4) (st : MeshState) (cc : List Vector4)
    (hcc : cubeCornersOf x y z segment points = some cc)
    (h : cubeIndexOf cfg cc = 0 ∨ (cubeIndexOf cfg cc = 255 ∧ tb.row255Empty)) :
    march cfg tb x y z segment points st = some st ∧
      marchVisits cfg tb x y z segment points = some [] := by
  have hv : marchVisits cfg tb x y z segment points = some [] := by
    unfold marchVisits
    simp only [hcc, Option.bind_eq_bind, Option.some_bind]
    rcases h with h | ⟨h, rest, hrow⟩
    · rw [if_pos h]
    · rw [if_neg (by omega), h, hrow]
      simp only [Option.some_bind]
      cases rest with
      | nil => simp [rowVisits]
      | cons e1 rest =>
        cases rest with
        | nil => simp [rowVisits]
        | cons e2 rest => simp [rowVisits]
  exact ⟨by rw [march_eq_visits, hv]; rfl, hv⟩

/-- Instance of `configuration_symmetry`: the cube of a lattice all of whose
samples are under the iso-level has configuration 255. -/
theorem configuration_symmetry_witness :
    cubeCornersOf 0 0 0 1 (List.replicate 8 ⟨Flt.fin 0, Flt.fin 0, Flt.fin 0, Flt.fin (-1)⟩)
      = some (List.replicate 8 ⟨Flt.fin 0, Flt.fin 0, Flt.fin 0, Flt.fin (-1)⟩) ∧
    cubeIndexOf defaults (List.replicate 8 ⟨Flt.fin 0, Flt.fin 0, Flt.fin 0, Flt.fin (-1)⟩)
      = 255 ∧
    march defaults exampleTables 0 0 0 1
      (List.replicate 8 ⟨Flt.fin 0, Flt.fin 0, Flt.fin 0, Flt.fin (-1)⟩) ⟨[], [], [], 0⟩
      = some ⟨[], [], [], 0⟩ :=
  ⟨by decide, by decide,
    (configuration_symmetry defaults exampleTables 0 0 0 1
      (List.replicate 8 ⟨Flt.fin 0, Flt.fin 0, Flt.fin 0, Flt.fin (-1)⟩) ⟨[], [], [], 0⟩
      (List.replicate 8 ⟨Flt.fin 0, Flt.fin 0, Flt.fin 0, Flt.fin (-1)⟩) (by decide)
      (Or.inr ⟨by decide, [], by decide⟩)).1⟩

/-- C8, running index invariant.  (1) A `march` call that starts with the
running index equal to the vertex count ends so, and only appends vertices.
(2) So does a `createChunk` call made with `indexOffset` the vertex count.
(3) When an edge has no dictionary entry, the vertex is appended at position
`p = ` the vertex count, and `p` is the index pushed and recorded.
(4) Whenever the chunk loops of `generateTerrain` return, the distinct values
of the index sequence, in the order of their first occurrence, are
`0, 1, ..., n - 1` for `n` the final vertex count.
(5) With well-formed tables and `0 ≤ maxSegment` the chunk loops return. -/
theorem running_index_invariant (noise3 : Flt → Flt → Flt → Flt) (cfg : Config)
    (tb : Tables) :
    (∀ x y z segment points st st', st.index = (st.vertices.length : Int) →
      march cfg tb x y z segment points st = some st' →
      st'.index = (st'.vertices.length : Int) ∧ ∃ new, st'.vertices = st.vertices ++ new) ∧
    (∀ origin chunkSize segment vertices indices st,
      createChunkState noise3 cfg tb origin chunkSize segment vertices indices
        (vertices.length : Int) = some st →
      st.index = (st.vertices.length : Int) ∧ ∃ new, st.vertices = vertices ++ new) ∧
    (∀ st e, st.index = (st.vertices.length : Int) →
      dicFind st.vertexDic (vertexKey e.ia e.ib) = none →
      (weldVisit cfg st e).vertices = st.vertices ++ [interpolateVerts cfg e.ca e.cb] ∧
      (weldVisit cfg st e).indices = st.indices ++ [(st.vertices.length : Int)] ∧
      dicFind (weldVisit cfg st e).vertexDic (vertexKey e.ia e.ib)
        = some (st.vertices.length : Int) ∧
      (weldVisit cfg st e).index = ((weldVisit cfg st e).vertices.length : Int)) ∧
    (∀ size levelCount maxSegment acc,
      generateMesh noise3 cfg tb size levelCount maxSegment = some acc →
      firstOccurrences acc.2 = upTo acc.1.length) ∧
    (tb.WF → ∀ size levelCount maxSegment, 0 ≤ maxSegment →
      ∃ acc, generateMesh noise3 cfg tb size levelCount maxSegment = some acc ∧
        firstOccurrences acc.2 = upTo acc.1.length) := by
  have fold : ∀ (vs : List EdgeVisit) (st : MeshState),
      st.index = (st.vertices.length : Int) →
      (vs.foldl (weldVisit cfg) st).index = ((vs.foldl (weldVisit cfg) st).vertices.length : Int)
        ∧ ∃ new, (vs.foldl (weldVisit cfg) st).vertices = st.vertices ++ new := by
    intro vs st hst
    obtain ⟨new, h1, h2, _⟩ := vertices_foldl cfg vs st
    refine ⟨?_, new, h1⟩
    rw [h2, h1, hst, List.length_append]
    push_cast; rfl
  refine ⟨?_, ?_, ?_, ?_, ?_⟩
  · intro x y z segment points st st' hst h
    rw [march_eq_visits] at h
    simp only [Option.map_eq_some'] at h
    obtain ⟨vs, _, rfl⟩ := h
    exact fold vs st hst
  · intro origin chunkSize segment vertices indices st h
    obtain ⟨pts, visits, _, _, _, rfl⟩ := createChunkState_visits _ _ _ _ _ _ _ _ _ _ h
    exact fold visits (chunkStart vertices indices (vertices.length : Int)) rfl
  · intro st e hst hmiss
    rw [weldVisit_miss cfg st e hmiss]
    refine ⟨rfl, by rw [hst], ?_, ?_⟩
    · simp [dicFind, hst]
    · simp [hst]
  · intro size levelCount maxSegment acc h
    exact (generateMesh_MeshOK _ _ _ _ _ _ acc h).2.2
  · intro hwf size levelCount maxSegment hseg
    obtain ⟨acc, hacc⟩ := generateMesh_some noise3 cfg tb hwf size levelCount maxSegment hseg
    exact ⟨acc, hacc, (generateMesh_MeshOK _ _ _ _ _ _ acc hacc).2.2⟩

/-- Instance of `running_index_invariant` at the example tables. -/
theorem running_index_invariant_witness :
    exampleTables.WF ∧ (0 : Int) ≤ 2 ∧
    ∃ acc, generateMesh zeroNoise defaults exampleTables (Flt.fin 400) 1 2 = some acc ∧
      firstOccurrences acc.2 = upTo acc.1.length :=
  ⟨exampleTables_WF, by decide,
    (running_index_invariant zeroNoise defaults exampleTables).2.2.2.2 exampleTables_WF
      (Flt.fin 400) 1 2 (by decide)⟩

/-- C5, welding within a chunk.  (1) When `createChunk` returns, its final
state is the fold of the update `weldVisit` over the visits of the chunk, in
order, from the state with an empty dictionary.  (2) The keys of two visits are
equal exactly when their unordered pairs of lattice indices are.  (3) A visit
whose pair no earlier visit of the chunk has appends one vertex, pushes the
running index and records it under the key.  (4) A visit whose pair an earlier
visit has appends no vertex and pushes exactly the index recorded by the first
visit with that pair (the running index at that first visit), whatever the
order of the two corners. -/
theorem welding_within_chunk (noise3 : Flt → Flt → Flt → Flt) (cfg : Config) (tb : Tables)
    (origin : Vector3) (chunkSize : Flt) (segment : Int) (vertices : List Vector3)
    (indices : List Int) (indexOffset : Int) :
    (∀ st, createChunkState noise3 cfg tb origin chunkSize segment vertices indices
        indexOffset = some st →
      ∃ pts visits, sampleLattice noise3 cfg origin chunkSize segment = some pts ∧
        chunkVisits cfg tb segment pts = some visits ∧
        st = visits.foldl (weldVisit cfg) (chunkStart vertices indices indexOffset)) ∧
    (∀ e1 e2 : EdgeVisit, vertexKey e1.ia e1.ib = vertexKey e2.ia e2.ib ↔ samePair e1 e2) ∧
    (∀ (pre : List EdgeVisit) (e : EdgeVisit), (∀ e' ∈ pre, ¬ samePair e' e) →
      weldVisit cfg (pre.foldl (weldVisit cfg) (chunkStart vertices indices indexOffset)) e =
        { vertices := (pre.foldl (weldVisit cfg)
              (chunkStart vertices indices indexOffset)).vertices
            ++ [interpolateVerts cfg e.ca e.cb]
          indices := (pre.foldl (weldVisit cfg)
              (chunkStart vertices indices indexOffset)).indices
            ++ [(pre.foldl (weldVisit cfg) (chunkStart vertices indices indexOffset)).index]
          vertexDic := (vertexKey e.ia e.ib,
              (pre.foldl (weldVisit cfg) (chunkStart vertices indices indexOffset)).index)
            :: (pre.foldl (weldVisit cfg)
              (chunkStart vertices indices indexOffset)).vertexDic
          index := (pre.foldl (weldVisit cfg)
              (chunkStart vertices indices indexOffset)).index + 1 }) ∧
    (∀ (pre : List EdgeVisit) (e : EdgeVisit), (∃ e' ∈ pre, samePair e' e) →
      ∃ pre1 e1 pre2, pre = pre1 ++ e1 :: pre2 ∧ samePair e1 e ∧
        (∀ e' ∈ pre1, ¬ samePair e' e) ∧
        weldVisit cfg (pre.foldl (weldVisit cfg) (chunkStart vertices indices indexOffset)) e =
          { (pre.foldl (weldVisit cfg) (chunkStart vertices indices indexOffset)) with
            indices := (pre.foldl (weldVisit cfg)
                (chunkStart vertices indices indexOffset)).indices
              ++ [(pre1.foldl (weldVisit cfg)
                (chunkStart vertices indices indexOffset)).index] }) := by
  have hempty : ∀ k, dicFind (chunkStart vertices indices indexOffset).vertexDic k = none :=
    fun k => rfl
  have first : ∀ (pre : List EdgeVisit) (e : EdgeVisit), (∀ e' ∈ pre, ¬ samePair e' e) →
      dicFind (pre.foldl (weldVisit cfg)
        (chunkStart vertices indices indexOffset)).vertexDic (vertexKey e.ia e.ib) = none :=
    fun pre e hpre => dicFind_none_foldl cfg _ pre _ (hempty _)
      (fun e' he' hk => hpre e' he' ((samePair_iff_key e' e).mp hk))
  refine ⟨?_, samePair_iff_key, ?_, ?_⟩
  · intro st hst
    obtain ⟨pts, visits, h1, h2, _, h3⟩ := createChunkState_visits _ _ _ _ _ _ _ _ _ _ hst
    exact ⟨pts, visits, h1, h2, h3⟩
  · intro pre e hpre
    exact weldVisit_miss cfg _ e (first pre e hpre)
  · intro pre e hex
    obtain ⟨pre1, e1, pre2, hsplit, hsame, hnone⟩ :=
      split_at_first (fun e' => samePair e' e) pre hex
    refine ⟨pre1, e1, pre2, hsplit, hsame, hnone, ?_⟩
    have hmiss := first pre1 e1 (fun e' he' h' =>
      hnone e' he' (samePair_trans e' e1 e h' hsame))
    have hrec : dicFind (weldVisit cfg (pre1.foldl (weldVisit cfg)
        (chunkStart vertices indices indexOffset)) e1).vertexDic (vertexKey e1.ia e1.ib)
        = some (pre1.foldl (weldVisit cfg) (chunkStart vertices indices indexOffset)).index := by
      rw [weldVisit_miss cfg _ e1 hmiss]
      simp [dicFind]
    have hkeep := dicFind_some_foldl cfg _ _ pre2 _ hrec
    have hfold : pre.foldl (weldVisit cfg) (chunkStart vertices indices indexOffset)
        = pre2.foldl (weldVisit cfg) (weldVisit cfg (pre1.foldl (weldVisit cfg)
            (chunkStart vertices indices indexOffset)) e1) := by
      rw [hsplit, List.foldl_append, List.foldl_cons]
    rw [hfold]
    exact weldVisit_hit cfg _ e _ (by rw [← (samePair_iff_key e1 e).mpr hsame]; exact hkeep)

/-- Instance of `welding_within_chunk`: the edge between lattice indices 0 and
1 is visited, then the edge between 0 and 2, then the edge between 1 and 0:
the third visit pushes the index of the first. -/
theorem welding_within_chunk_witness :
    (∃ e' ∈ [(⟨0, 1, zero4, zero4⟩ : EdgeVisit), ⟨0, 2, zero4, zero4⟩],
      samePair e' ⟨1, 0, zero4, zero4⟩) ∧
    ([(⟨0, 1, zero4, zero4⟩ : EdgeVisit), ⟨0, 2, zero4, zero4⟩, ⟨1, 0, zero4, zero4⟩].foldl
      (weldVisit defaults) (chunkStart [] [] 5)).indices = [5, 6, 5] ∧
    ∃ pre1 e1 pre2, [(⟨0, 1, zero4, zero4⟩ : EdgeVisit), ⟨0, 2, zero4, zero4⟩]
        = pre1 ++ e1 :: pre2 ∧ samePair e1 ⟨1, 0, zero4, zero4⟩ ∧
      (∀ e' ∈ pre1, ¬ samePair e' ⟨1, 0, zero4, zero4⟩) ∧
      weldVisit defaults ([(⟨0, 1, zero4, zero4⟩ : EdgeVisit), ⟨0, 2, zero4, zero4⟩].foldl
          (weldVisit defaults) (chunkStart [] [] 5)) ⟨1, 0, zero4, zero4⟩ =
        { ([(⟨0, 1, zero4, zero4⟩ : EdgeVisit), ⟨0, 2, zero4, zero4⟩].foldl
            (weldVisit defaults) (chunkStart [] [] 5)) with
          indices := ([(⟨0, 1, zero4, zero4⟩ : EdgeVisit), ⟨0, 2, zero4, zero4⟩].foldl
              (weldVisit defaults) (chunkStart [] [] 5)).indices
            ++ [(pre1.foldl (weldVisit defaults) (chunkStart [] [] 5)).index] } :=
  ⟨⟨⟨0, 1, zero4, zero4⟩, by simp, by decide⟩, by decide,
    (welding_within_chunk zeroNoise defaults exampleTables ⟨Flt.fin 0, Flt.fin 0, Flt.fin 0⟩
      (Flt.fin 1) 1 [] [] 5).2.2.2 [⟨0, 1, zero4, zero4⟩, ⟨0, 2, zero4, zero4⟩]
      ⟨1, 0, zero4, zero4⟩ ⟨⟨0, 1, zero4, zero4⟩, by simp, by decide⟩⟩

/-- C3, bottom-layer pinning.  For `0 ≤ segment` (in particular `1 ≤ segment`),
every origin, chunk size, configuration and noise function: the allocation and
the sampling loops of `createChunk` return a lattice whose entry at
`indexFromCoord x 0 z segment` has `w = 0.1` for all `x`, `z` in
`[0, segment]`; and a `density` call for a lattice point with `y ≠ 0` leaves
that entry as it is. -/
theorem bottom_layer_pinning (noise3 : Flt → Flt → Flt → Flt) (cfg : Config)
    (origin : Vector3) (chunkSize : Flt) (segment : Int) (hseg : 0 ≤ segment) :
    (∃ pts, sampleLattice noise3 cfg origin chunkSize segment = some pts ∧
      ∀ x z, 0 ≤ x → x ≤ segment → 0 ≤ z → z ≤ segment →
        ∃ v, getI pts (indexFromCoord x 0 z segment) = some v ∧ v.w = Flt.fin (1 / 10)) ∧
    (∀ x z x' y' z' unitSize pts pts', InLattice segment x 0 z → InLattice segment x' y' z' →
      y' ≠ 0 → density noise3 cfg x' y' z' origin unitSize segment pts = some pts' →
      getI pts' (indexFromCoord x 0 z segment) = getI pts (indexFromCoord x 0 z segment)) := by
  constructor
  · obtain ⟨pts, hpts, hS⟩ := sampleLattice_sampled noise3 cfg origin chunkSize segment hseg
    refine ⟨pts, hpts, ?_⟩
    intro x z hx0 hx hz0 hz
    refine ⟨_, hS.2 x 0 z ⟨⟨hx0, hx⟩, ⟨le_refl _, hseg⟩, ⟨hz0, hz⟩⟩ trivial, ?_⟩
    simp [densityValue]
  · intro x z x' y' z' unitSize pts pts' hin hin' hy' hd
    unfold density setI at hd
    simp only at hd
    split at hd
    · rename_i hrange
      cases hd
      rw [getI_set _ _ _ _ hrange.1 (by omega)]
      rw [if_neg]
      intro heq
      obtain ⟨_, hy, _⟩ := indexFromCoord_inj segment x 0 z x' y' z' hin.1.1 hin.1.2
        hin.2.1.1 hin.2.1.2 hin'.1.1 hin'.1.2 hin'.2.1.1 hin'.2.1.2 heq
      exact hy' hy.symm
    · cases hd

/-- Instance of `bottom_layer_pinning` for a `3 x 3 x 3` lattice. -/
theorem bottom_layer_pinning_witness :
    (0 : Int) ≤ 2 ∧
    ∃ pts, sampleLattice zeroNoise defaults ⟨Flt.fin 0, Flt.fin 0, Flt.fin 0⟩ (Flt.fin 64) 2
        = some pts ∧
      ∀ x z, 0 ≤ x → x ≤ 2 → 0 ≤ z → z ≤ 2 →
        ∃ v, getI pts (indexFromCoord x 0 z 2) = some v ∧ v.w = Flt.fin (1 / 10) :=
  ⟨by decide,
    (bottom_layer_pinning zeroNoise defaults ⟨Flt.fin 0, Flt.fin 0, Flt.fin 0⟩ (Flt.fin 64) 2
      (by decide)).1⟩

/-- C4 (amended), the lattice index is a bijection while it does not overflow.
For `0 ≤ segment` with `(segment + 1)³ < 2³¹` and `s = segment + 1`: the index
that the 32-bit computation `indexFromCoord32` yields for coordinates in
`[0, s)³` is `z * s * s + y * s + x`, and this map is a bijection from the
coordinates in `[0, s)³` onto the integers of `[0, s³)`. -/
theorem indexFromCoord_bijOn (segment : Int) (hseg : 0 ≤ segment)
    (hsize : (segment + 1) ^ 3 < 2 ^ 31) :
    (∀ x y z, (0 ≤ x ∧ x < segment + 1) → (0 ≤ y ∧ y < segment + 1) →
      (0 ≤ z ∧ z < segment + 1) →
      indexFromCoord32 x y z segment
        = z * (segment + 1) * (segment + 1) + y * (segment + 1) + x) ∧
    Set.BijOn (fun p : Int × Int × Int => indexFromCoord32 p.1 p.2.1 p.2.2 segment)
      {p | (0 ≤ p.1 ∧ p.1 < segment + 1) ∧ (0 ≤ p.2.1 ∧ p.2.1 < segment + 1) ∧
        (0 ≤ p.2.2 ∧ p.2.2 < segment + 1)}
      {n | 0 ≤ n ∧ n < (segment + 1) ^ 3} := by
  have e : ∀ x y z : Int, (0 ≤ x ∧ x < segment + 1) → (0 ≤ y ∧ y < segment + 1) →
      (0 ≤ z ∧ z < segment + 1) →
      indexFromCoord32 x y z segment = indexFromCoord x y z segment :=
    fun x y z hx hy hz => indexFromCoord32_eq segment x y z
      ⟨⟨hx.1, by omega⟩, ⟨hy.1, by omega⟩, ⟨hz.1, by omega⟩⟩ hsize
  refine ⟨fun x y z hx hy hz => (e x y z hx hy hz).trans rfl, ?_⟩
  refine (indexFromCoord_exact_bijOn segment hseg).congr ?_
  rintro ⟨x, y, z⟩ hp
  simp only [Set.mem_setOf_eq] at hp
  exact (e x y z hp.1 hp.2.1 hp.2.2).symm

/-- Instance of `indexFromCoord_bijOn` for `segment = 1`: the eight corners of
a `2 x 2 x 2` lattice and the indices `0..7`. -/
theorem indexFromCoord_bijOn_witness :
    (0 : Int) ≤ 1 ∧ ((1 : Int) + 1) ^ 3 < 2 ^ 31 ∧
    Set.BijOn (fun p : Int × Int × Int => indexFromCoord32 p.1 p.2.1 p.2.2 1)
      {p | (0 ≤ p.1 ∧ p.1 < 1 + 1) ∧ (0 ≤ p.2.1 ∧ p.2.1 < 1 + 1) ∧
        (0 ≤ p.2.2 ∧ p.2.2 < 1 + 1)}
      {n | 0 ≤ n ∧ n < (1 + 1) ^ 3} :=
  ⟨by decide, by decide, (indexFromCoord_bijOn 1 (by decide) (by decide)).2⟩

/-- C4 as stated fails at `segment = 1290`, where `s³ = 1291³ > 2³¹`: for the
in-range coordinates `(1290, 1290, 1290)` the 32-bit computation yields
`-2143282126` (the exact value is `2151685170`), which is outside `[0, s³)`, so
the index is not a bijection from `[0, s)³` onto `[0, s³)`.  At
`segment = 65535` the distinct in-range coordinates `(0, 0, 0)` and `(0, 0, 1)`
get the same index. -/
theorem indexFromCoord_overflow :
    (0 : Int) ≤ 1290 ∧
    indexFromCoord32 1290 1290 1290 1290 = -2143282126 ∧
    indexFromCoord 1290 1290 1290 1290 = 2151685170 ∧
    ¬ Set.BijOn (fun p : Int × Int × Int => indexFromCoord32 p.1 p.2.1 p.2.2 1290)
      {p | (0 ≤ p.1 ∧ p.1 < 1290 + 1) ∧ (0 ≤ p.2.1 ∧ p.2.1 < 1290 + 1) ∧
        (0 ≤ p.2.2 ∧ p.2.2 < 1290 + 1)}
      {n | 0 ≤ n ∧ n < (1290 + 1) ^ 3} ∧
    indexFromCoord32 0 0 0 65535 = indexFromCoord32 0 0 1 65535 := by
  refine ⟨by decide, by decide, by decide, ?_, by decide⟩
  intro h
  have hm := h.mapsTo (show ((1290, 1290, 1290) : Int × Int × Int) ∈
    {p : Int × Int × Int | (0 ≤ p.1 ∧ p.1 < 1290 + 1) ∧ (0 ≤ p.2.1 ∧ p.2.1 < 1290 + 1) ∧
        (0 ≤ p.2.2 ∧ p.2.2 < 1290 + 1)} from by
      simp only [Set.mem_setOf_eq]; decide)
  simp only [Set.mem_setOf_eq] at hm
  have hv : indexFromCoord32 1290 1290 1290 1290 = -2143282126 := by decide
  rw [hv] at hm
  omega

/-! ### C9: no validation of the configuration -/

theorem forRange_one {σ : Type} (body : Int → σ → Option σ) (s : σ) :
    forRange 1 body s = body 0 s := by
  rw [forRange_succ 0 body s, forRange_zero]
  rfl

theorem createChunkState_segment_zero (noise3 : Flt → Flt → Flt → Flt) (cfg : Config)
    (tb : Tables) (origin : Vector3) (chunkSize : Flt) (vertices : List Vector3)
    (indices : List Int) (indexOffset : Int) :
    sampleLattice noise3 cfg origin chunkSize 0
      = some [densityValue noise3 cfg 0 0 0 origin (Flt.div chunkSize (Flt.ofInt 0))] ∧
    createChunk noise3 cfg tb origin chunkSize 0 vertices indices indexOffset
      = some (vertices, indices) := by
  have hs : sampleLattice noise3 cfg origin chunkSize 0
      = some [densityValue noise3 cfg 0 0 0 origin (Flt.div chunkSize (Flt.ofInt 0))] := by
    have h1 : ((0 : Int) + 1).toNat = 1 := rfl
    have h3 : (((0 : Int) + 1) ^ 3).toNat = 1 := rfl
    unfold sampleLattice sampleLoops
    simp only [h1, h3, forRange_one, density, indexFromCoord]
    rfl
  refine ⟨hs, ?_⟩
  unfold createChunk createChunkState
  rw [hs]
  simp [marchLoops, forRange]

theorem generateMesh_const (noise3 : Flt → Flt → Flt → Flt) (cfg : Config) (tb : Tables)
    (size : Flt) (levelCount maxSegment : Int)
    (hchunk : ∀ origin chunkSize vertices indices indexOffset,
      createChunk noise3 cfg tb origin chunkSize maxSegment vertices indices indexOffset
        = some (vertices, indices)) :
    generateMesh noise3 cfg tb size levelCount maxSegment = some ([], []) := by
  unfold generateMesh
  obtain ⟨acc, h, hacc⟩ := forRange_total (fun _ (a : List Vector3 × List Int) => a = ([], []))
    (chunkCountOf levelCount).toNat
    (fun i acc => forRange (chunkCountOf levelCount).toNat (fun j acc =>
      createChunk noise3 cfg tb
        (chunkOrigin (chunkCountOf levelCount)
          (Flt.div size (Flt.ofInt (chunkCountOf levelCount))) i j)
        (Flt.div size (Flt.ofInt (chunkCountOf levelCount))) maxSegment
        acc.1 acc.2 (acc.1.length : Int)) acc)
    ([], []) rfl (by
      intro i _ t ht
      refine forRange_total (fun _ (a : List Vector3 × List Int) => a = ([], []))
        (chunkCountOf levelCount).toNat
        (fun j acc => createChunk noise3 cfg tb
          (chunkOrigin (chunkCountOf levelCount)
            (Flt.div size (Flt.ofInt (chunkCountOf levelCount))) i j)
          (Flt.div size (Flt.ofInt (chunkCountOf levelCount))) maxSegment
          acc.1 acc.2 (acc.1.length : Int)) t ht ?_
      intro j _ t ht
      exact ⟨t, hchunk _ _ _ _ _, ht⟩)
  rw [h, hacc]

/-- C9 (as amended), the configuration is not validated.  `generateTerrain`
with `levelCount < 0` processes no chunk and returns the empty block
(`word0 = 0`, `word1 = 0`, no vertex, no index), whatever `maxSegment`;
`generateTerrain` with `maxSegment = 0` returns the empty block too; and
`createChunk` with `segment = 0` computes the sample of lattice point
`(0, 0, 0)` (with `unitSize = chunkSize / 0`) and returns the accumulators
unchanged. -/
theorem configuration_not_validated (noise3 : Flt → Flt → Flt → Flt) (cfg : Config)
    (tb : Tables) (size : Flt) :
    (∀ levelCount maxSegment, levelCount < 0 →
      generateTerrain noise3 cfg tb size levelCount maxSegment = some ⟨0, 0, [], []⟩) ∧
    (∀ levelCount,
      generateTerrain noise3 cfg tb size levelCount 0 = some ⟨0, 0, [], []⟩) ∧
    (∀ origin chunkSize vertices indices indexOffset,
      sampleLattice noise3 cfg origin chunkSize 0
        = some [densityValue noise3 cfg 0 0 0 origin (Flt.div chunkSize (Flt.ofInt 0))] ∧
      createChunk noise3 cfg tb origin chunkSize 0 vertices indices indexOffset
        = some (vertices, indices)) := by
  refine ⟨?_, ?_, ?_⟩
  · intro levelCount maxSegment hneg
    have : generateMesh noise3 cfg tb size levelCount maxSegment = some ([], []) := by
      unfold generateMesh chunkCountOf
      rw [if_neg (by omega)]
      rfl
    unfold generateTerrain
    rw [this]
    rfl
  · intro levelCount
    have := generateMesh_const noise3 cfg tb size levelCount 0
      (fun origin chunkSize vertices indices indexOffset =>
        (createChunkState_segment_zero noise3 cfg tb origin chunkSize vertices indices
          indexOffset).2)
    unfold generateTerrain
    rw [this]
    rfl
  · intro origin chunkSize vertices indices indexOffset
    exact createChunkState_segment_zero noise3 cfg tb origin chunkSize vertices indices
      indexOffset

/-- Instance of `configuration_not_validated` at `levelCount = -3`. -/
theorem configuration_not_validated_witness :
    (-3 : Int) < 0 ∧
    generateTerrain zeroNoise defaults exampleTables (Flt.fin 64) (-3) 4
      = some ⟨0, 0, [], []⟩ :=
  ⟨by decide,
    (configuration_not_validated zeroNoise defaults exampleTables (Flt.fin 64)).1 (-3) 4
      (by decide)⟩

/-- C9, counterexample.  `createChunk` with `segment = 0` does not fail: it
returns the accumulators it received, after computing a density sample, the
one of lattice point `(0, 0, 0)` (pinned to `0.1`, at a position that is NaN
since `unitSize = 64 / 0`).  Likewise the calls `generateTerrain(64, 0, 0)`
(`maxSegment < 1`) and `generateTerrain(64, -1, 4)` (`levelCount < 0`) do not
fail: both return an output block, the empty one. -/
theorem invalid_configuration_accepted :
    createChunk zeroNoise defaults exampleTables ⟨Flt.fin 0, Flt.fin 0, Flt.fin 0⟩
      (Flt.fin 64) 0 [] [] 0 = some ([], []) ∧
    sampleLattice zeroNoise defaults ⟨Flt.fin 0, Flt.fin 0, Flt.fin 0⟩ (Flt.fin 64) 0
      = some [⟨Flt.nan, Flt.nan, Flt.nan, Flt.fin (1 / 10)⟩] ∧
    generateTerrain zeroNoise defaults exampleTables (Flt.fin 64) 0 0
      = some ⟨0, 0, [], []⟩ ∧
    generateTerrain zeroNoise defaults exampleTables (Flt.fin 64) (-1) 4
      = some ⟨0, 0, [], []⟩ := by
  refine ⟨by decide, by rfl, by decide, by decide⟩

/-- C10 (as amended), degenerate edge.  For two corner samples with
`v1.w = v2.w`, `interpolateVerts` divides by zero: the interpolation
parameter `(isoLevel - v1.w) / (v2.w - v1.w)` is not finite (it is not clamped
to 0), and each of the three coordinates it returns is infinite or NaN. -/
theorem interpolateVerts_degenerate (cfg : Config) (v1 v2 : Vector4) (h : v1.w = v2.w) :
    (Flt.div (Flt.sub cfg.isoLevel v1.w) (Flt.sub v2.w v1.w)).isFinite = false ∧
    (interpolateVerts cfg v1 v2).x.isFinite = false ∧
    (interpolateVerts cfg v1 v2).y.isFinite = false ∧
    (interpolateVerts cfg v1 v2).z.isFinite = false := by
  have ht : (Flt.div (Flt.sub cfg.isoLevel v1.w) (Flt.sub v2.w v1.w)).isFinite = false := by
    rw [← h]; exact Flt.div_sub_self_nonfinite _ _
  unfold interpolateVerts
  exact ⟨ht, Flt.add_nonfinite _ _ (Flt.mul_nonfinite _ _ ht),
    Flt.add_nonfinite _ _ (Flt.mul_nonfinite _ _ ht),
    Flt.add_nonfinite _ _ (Flt.mul_nonfinite _ _ ht)⟩

/-- Instance of `interpolateVerts_degenerate`: two samples of density 1 at
`(0, 0, 0)` and `(1, 0, 0)`. -/
theorem interpolateVerts_degenerate_witness :
    (⟨Flt.fin 0, Flt.fin 0, Flt.fin 0, Flt.fin 1⟩ : Vector4).w
      = (⟨Flt.fin 1, Flt.fin 0, Flt.fin 0, Flt.fin 1⟩ : Vector4).w ∧
    (interpolateVerts defaults ⟨Flt.fin 0, Flt.fin 0, Flt.fin 0, Flt.fin 1⟩
      ⟨Flt.fin 1, Flt.fin 0, Flt.fin 0, Flt.fin 1⟩).x.isFinite = false :=
  ⟨rfl, (interpolateVerts_degenerate defaults ⟨Flt.fin 0, Flt.fin 0, Flt.fin 0, Flt.fin 1⟩
    ⟨Flt.fin 1, Flt.fin 0, Flt.fin 0, Flt.fin 1⟩ rfl).2.1⟩

/-- C10, counterexample.  For the samples of density 1 at `(0, 0, 0)` and
`(1, 0, 0)` and iso-level 0, `interpolateVerts` returns `(-∞, NaN, NaN)`, not
the position `(0, 0, 0)` of the first sample. -/
theorem interpolateVerts_equal_densities :
    interpolateVerts defaults ⟨Flt.fin 0, Flt.fin 0, Flt.fin 0, Flt.fin 1⟩
        ⟨Flt.fin 1, Flt.fin 0, Flt.fin 0, Flt.fin 1⟩
      = ⟨Flt.inf true, Flt.nan, Flt.nan⟩ ∧
    interpolateVerts defaults ⟨Flt.fin 0, Flt.fin 0, Flt.fin 0, Flt.fin 1⟩
        ⟨Flt.fin 1, Flt.fin 0, Flt.fin 0, Flt.fin 1⟩
      ≠ ⟨Flt.fin 0, Flt.fin 0, Flt.fin 0⟩ := by
  constructor
  · simp [interpolateVerts, defaults, Flt.div, Flt.sub, Flt.add, Flt.neg, Flt.mul]
  · simp [interpolateVerts, defaults, Flt.div, Flt.sub, Flt.add, Flt.neg, Flt.mul]

/-- C18, the vertex key identifies the unordered pair.  The key that `march`
builds for the lattice indices `a`, `b` is the decimal of `min a b`, an
underscore, and the decimal of `max a b`; the keys of `(a, b)` and `(c, d)` are
equal if and only if `{a, b} = {c, d}`, so `key(a, b) = key(b, a)` and two
different unordered pairs never collide.  The equivalence holds for all
integers, in particular for the non-negative indices of a lattice. -/
theorem vertexKey_identifies_pair (a b c d : Int) :
    (vertexKey a b = vertexKey c d ↔ (a = c ∧ b = d) ∨ (a = d ∧ b = c)) ∧
    vertexKey a b = vertexKey b a ∧
    (0 ≤ a → 0 ≤ b →
      vertexKey a b
        = natToString (min a b).toNat ++ ['_'] ++ natToString (max a b).toNat) := by
  refine ⟨vertexKey_eq_iff a b c d, vertexKey_comm a b, ?_⟩
  intro ha hb
  unfold vertexKey to_string
  rw [if_neg (by omega), if_neg (by omega)]

/-- Instance of `vertexKey_identifies_pair`: the key of the lattice indices 12
and 7 is `7_12`. -/
theorem vertexKey_identifies_pair_witness :
    (0 : Int) ≤ 12 ∧ (0 : Int) ≤ 7 ∧ vertexKey 12 7 = ['7', '_', '1', '2'] ∧
    vertexKey 12 7
      = natToString (min (12 : Int) 7).toNat ++ ['_'] ++ natToString (max (12 : Int) 7).toNat :=
  ⟨by decide, by decide, by decide,
    (vertexKey_identifies_pair 12 7 0 0).2.2 (by decide) (by decide)⟩

/-- C19, interpolation is order-independent.  Over exact arithmetic (finite
iso-level, finite samples) and for two samples of different densities,
`interpolateVerts v1 v2 = interpolateVerts v2 v1`.  Hence two visits of a
chunk with the same unordered pair of lattice indices, whose corner samples
are finite and of different densities, interpolate to the same position,
whatever the cube and the corner order of each. -/
theorem interpolation_order_independent (cfg : Config) (iso : ℚ)
    (hiso : cfg.isoLevel = Flt.fin iso) :
    (∀ x1 y1 z1 w1 x2 y2 z2 w2 : ℚ, w1 ≠ w2 →
      interpolateVerts cfg (vec4 x1 y1 z1 w1) (vec4 x2 y2 z2 w2)
        = interpolateVerts cfg (vec4 x2 y2 z2 w2) (vec4 x1 y1 z1 w1)) ∧
    (∀ (tb : Tables) (segment : Int) (points : List Vector4) (visits : List EdgeVisit)
      (e1 e2 : EdgeVisit) (x1 y1 z1 w1 x2 y2 z2 w2 : ℚ),
      chunkVisits cfg tb segment points = some visits → e1 ∈ visits → e2 ∈ visits →
      samePair e1 e2 → e1.ca = vec4 x1 y1 z1 w1 → e1.cb = vec4 x2 y2 z2 w2 → w1 ≠ w2 →
      interpolateVerts cfg e1.ca e1.cb = interpolateVerts cfg e2.ca e2.cb) := by
  have swap : ∀ x1 y1 z1 w1 x2 y2 z2 w2 : ℚ, w1 ≠ w2 →
      interpolateVerts cfg (vec4 x1 y1 z1 w1) (vec4 x2 y2 z2 w2)
        = interpolateVerts cfg (vec4 x2 y2 z2 w2) (vec4 x1 y1 z1 w1) := by
    intro x1 y1 z1 w1 x2 y2 z2 w2 hw
    rw [interpolateVerts_fin cfg iso _ _ _ _ _ _ _ _ hiso hw,
      interpolateVerts_fin cfg iso _ _ _ _ _ _ _ _ hiso (Ne.symm hw),
      lerp_swap iso x1 x2 w1 w2 hw, lerp_swap iso y1 y2 w1 w2 hw, lerp_swap iso z1 z2 w1 w2 hw]
  refine ⟨swap, ?_⟩
  intro tb segment points visits e1 e2 x1 y1 z1 w1 x2 y2 z2 w2 hv h1 h2 hsame ha hb hw
  obtain ⟨h1a, h1b⟩ := chunkVisits_fromLattice cfg tb segment points visits hv e1 h1
  obtain ⟨h2a, h2b⟩ := chunkVisits_fromLattice cfg tb segment points visits hv e2 h2
  rcases hsame with ⟨hia, hib⟩ | ⟨hia, hib⟩
  · rw [hia] at h1a
    rw [hib] at h1b
    have ea : e1.ca = e2.ca := Option.some.inj (h1a.symm.trans h2a)
    have eb : e1.cb = e2.cb := Option.some.inj (h1b.symm.trans h2b)
    rw [ea, eb]
  · rw [hia] at h1a
    rw [hib] at h1b
    have ea : e1.ca = e2.cb := Option.some.inj (h1a.symm.trans h2b)
    have eb : e1.cb = e2.ca := Option.some.inj (h1b.symm.trans h2a)
    rw [← ea, ← eb, ha, hb]
    exact swap x1 y1 z1 w1 x2 y2 z2 w2 hw

/-- Instance of `interpolation_order_independent` at the default iso-level. -/
theorem interpolation_order_independent_witness :
    defaults.isoLevel = Flt.fin 0 ∧ (-1 : ℚ) ≠ 3 ∧
    interpolateVerts defaults (vec4 0 0 0 (-1)) (vec4 1 2 4 3)
      = interpolateVerts defaults (vec4 1 2 4 3) (vec4 0 0 0 (-1)) :=
  ⟨rfl, by norm_num,
    (interpolation_order_independent defaults 0 rfl).1 0 0 0 (-1) 1 2 4 3 (by norm_num)⟩

/-- C20, the crossing point lies on the cut edge.  Over exact arithmetic
(finite iso-level, finite samples), when exactly one of the two densities is
strictly below the iso-level (the two configuration bits differ), the
densities differ, the interpolation parameter
`t = (isoLevel - w1) / (w2 - w1)` is finite with `0 ≤ t ≤ 1`, and each
coordinate of `interpolateVerts v1 v2` is finite and lies between the
corresponding coordinates of `v1` and `v2`, inclusive. -/
theorem crossing_point_on_edge (cfg : Config) (iso x1 y1 z1 w1 x2 y2 z2 w2 : ℚ)
    (hiso : cfg.isoLevel = Flt.fin iso)
    (hcross : Flt.lt (vec4 x1 y1 z1 w1).w cfg.isoLevel
      ≠ Flt.lt (vec4 x2 y2 z2 w2).w cfg.isoLevel) :
    w1 ≠ w2 ∧
    ∃ t X Y Z : ℚ,
      Flt.div (Flt.sub cfg.isoLevel (vec4 x1 y1 z1 w1).w)
        (Flt.sub (vec4 x2 y2 z2 w2).w (vec4 x1 y1 z1 w1).w) = Flt.fin t ∧
      t = (iso - w1) / (w2 - w1) ∧ 0 ≤ t ∧ t ≤ 1 ∧
      interpolateVerts cfg (vec4 x1 y1 z1 w1) (vec4 x2 y2 z2 w2) = vec3 X Y Z ∧
      (min x1 x2 ≤ X ∧ X ≤ max x1 x2) ∧ (min y1 y2 ≤ Y ∧ Y ≤ max y1 y2) ∧
      (min z1 z2 ≤ Z ∧ Z ≤ max z1 z2) := by
  simp only [vec4, hiso, Flt.lt_fin, ne_eq, decide_eq_decide] at hcross
  have hw : w1 ≠ w2 := by
    intro h; subst h; exact hcross Iff.rfl
  have hd : w2 - w1 ≠ 0 := sub_ne_zero.mpr (Ne.symm hw)
  have ht : 0 ≤ (iso - w1) / (w2 - w1) ∧ (iso - w1) / (w2 - w1) ≤ 1 := by
    by_cases h1 : w1 < iso
    · have h2 : ¬ w2 < iso := fun h2 => hcross ⟨fun _ => h2, fun _ => h1⟩
      have hpos : 0 < w2 - w1 := by linarith
      exact ⟨div_nonneg (by linarith) hpos.le, (div_le_one hpos).mpr (by linarith)⟩
    · have h2 : w2 < iso := by
        by_contra h2
        exact hcross ⟨fun h => absurd h h1, fun h => absurd h h2⟩
      have hneg : w2 - w1 < 0 := by linarith
      constructor
      · exact div_nonneg_of_nonpos (by linarith) hneg.le
      · rw [div_le_one_of_neg hneg]; linarith
  refine ⟨hw, (iso - w1) / (w2 - w1), _, _, _, ?_, rfl, ht.1, ht.2,
    interpolateVerts_fin cfg iso x1 y1 z1 w1 x2 y2 z2 w2 hiso hw,
    lerp_between x1 x2 _ ht.1 ht.2, lerp_between y1 y2 _ ht.1 ht.2,
    lerp_between z1 z2 _ ht.1 ht.2⟩
  simp [vec4, hiso, Flt.div_fin _ _ hd]

/-- Instance of `crossing_point_on_edge`: densities `-1` and `3` around the
default iso-level 0. -/
theorem crossing_point_on_edge_witness :
    defaults.isoLevel = Flt.fin 0 ∧
    Flt.lt (vec4 0 0 0 (-1)).w defaults.isoLevel ≠ Flt.lt (vec4 1 2 4 3).w defaults.isoLevel ∧
    (-1 : ℚ) ≠ 3 ∧
    ∃ t X Y Z : ℚ,
      Flt.div (Flt.sub defaults.isoLevel (vec4 0 0 0 (-1)).w)
        (Flt.sub (vec4 1 2 4 3).w (vec4 0 0 0 (-1)).w) = Flt.fin t ∧
      t = (0 - (-1)) / (3 - (-1)) ∧ 0 ≤ t ∧ t ≤ 1 ∧
      interpolateVerts defaults (vec4 0 0 0 (-1)) (vec4 1 2 4 3) = vec3 X Y Z ∧
      (min 0 1 ≤ X ∧ X ≤ max 0 1) ∧ (min 0 2 ≤ Y ∧ Y ≤ max 0 2) ∧
      (min 0 4 ≤ Z ∧ Z ≤ max 0 4) :=
  ⟨rfl, by decide, crossing_point_on_edge defaults 0 0 0 0 (-1) 1 2 4 3 rfl (by decide)⟩

/-- C13, cube classification.  For a cube `(x, y, z)` with
`0 ≤ x, y, z < segment` in a lattice of the allocated size, the eight corner
samples that `march` gathers are the lattice entries at `(x,y,z)`,
`(x+1,y,z)`, `(x+1,y,z+1)`, `(x,y,z+1)`, `(x,y+1,z)`, `(x+1,y+1,z)`,
`(x+1,y+1,z+1)`, `(x,y+1,z+1)`, in that order; the configuration index is the
number whose bit `k` is set exactly when the density of corner `k` is strictly
below the iso-level, that is, the sum of the `2 ^ k` of those corners; it is
below 256; and it is the index on which `march` branches and with which it
reads the triangulation table. -/
theorem cube_classification (cfg : Config) (tb : Tables) (x y z segment : Int)
    (points : List Vector4) (hlen : (points.length : Int) = (segment + 1) ^ 3)
    (hx : 0 ≤ x ∧ x < segment) (hy : 0 ≤ y ∧ y < segment) (hz : 0 ≤ z ∧ z < segment) :
    ∃ c0 c1 c2 c3 c4 c5 c6 c7,
      getI points (indexFromCoord x y z segment) = some c0 ∧
      getI points (indexFromCoord (x + 1) y z segment) = some c1 ∧
      getI points (indexFromCoord (x + 1) y (z + 1) segment) = some c2 ∧
      getI points (indexFromCoord x y (z + 1) segment) = some c3 ∧
      getI points (indexFromCoord x (y + 1) z segment) = some c4 ∧
      getI points (indexFromCoord (x + 1) (y + 1) z segment) = some c5 ∧
      getI points (indexFromCoord (x + 1) (y + 1) (z + 1) segment) = some c6 ∧
      getI points (indexFromCoord x (y + 1) (z + 1) segment) = some c7 ∧
      cubeCornersOf x y z segment points = some [c0, c1, c2, c3, c4, c5, c6, c7] ∧
      [0, 1, 2, 3, 4, 5, 6, 7].map (cubeIndexOf cfg [c0, c1, c2, c3, c4, c5, c6, c7]).testBit
        = [c0, c1, c2, c3, c4, c5, c6, c7].map (fun c => Flt.lt c.w cfg.isoLevel) ∧
      cubeIndexOf cfg [c0, c1, c2, c3, c4, c5, c6, c7]
        = bitOf cfg c0 + 2 * bitOf cfg c1 + 4 * bitOf cfg c2 + 8 * bitOf cfg c3
          + 16 * bitOf cfg c4 + 32 * bitOf cfg c5 + 64 * bitOf cfg c6 + 128 * bitOf cfg c7 ∧
      cubeIndexOf cfg [c0, c1, c2, c3, c4, c5, c6, c7] < 256 ∧
      ∀ st, march cfg tb x y z segment points st =
        if cubeIndexOf cfg [c0, c1, c2, c3, c4, c5, c6, c7] = 0 then some st
        else (tb.triangulation.get? (cubeIndexOf cfg [c0, c1, c2, c3, c4, c5, c6, c7])).bind
          (fun row => triLoop cfg tb [c0, c1, c2, c3, c4, c5, c6, c7]
            (cornerIndicesOf x y z segment) row st) := by
  obtain ⟨cc, hcc⟩ := cubeCornersOf_some x y z segment points hlen hx.1 hx.2 hy.1 hy.2
    hz.1 hz.2
  have hcc' := hcc
  unfold cubeCornersOf at hcc'
  simp only [Option.bind_eq_bind, Option.bind_eq_some] at hcc'
  obtain ⟨c0, h0, c1, h1, c2, h2, c3, h3, c4, h4, c5, h5, c6, h6, c7, h7, hc⟩ := hcc'
  cases hc
  refine ⟨c0, c1, c2, c3, c4, c5, c6, c7, h0, h1, h2, h3, h4, h5, h6, h7, hcc, ?_,
    cubeIndexOf_eq_sum cfg c0 c1 c2 c3 c4 c5 c6 c7, cubeIndexOf_lt cfg _, ?_⟩
  · rw [cubeIndexOf_eq_sum, testBit_sum _ _ _ _ _ _ _ _ (bitOf_le_one cfg c0)
      (bitOf_le_one cfg c1) (bitOf_le_one cfg c2) (bitOf_le_one cfg c3) (bitOf_le_one cfg c4)
      (bitOf_le_one cfg c5) (bitOf_le_one cfg c6) (bitOf_le_one cfg c7)]
    have hb : ∀ c : Vector4, decide (bitOf cfg c = 1) = Flt.lt c.w cfg.isoLevel := by
      intro c
      unfold bitOf
      cases Flt.lt c.w cfg.isoLevel <;> simp
    simp only [List.map_cons, List.map_nil, hb]
  · intro st
    unfold march
    simp only [hcc, Option.bind_eq_bind, Option.some_bind]

/-- Instance of `cube_classification`: cube `(0, 0, 0)` of the example
lattice, whose corner 0 alone is below the iso-level, has configuration 1. -/
theorem cube_classification_witness :
    ((examplePoints.length : Nat) : Int) = (1 + 1) ^ 3 ∧
    cubeCornersOf 0 0 0 1 examplePoints
      = some [vec4 0 0 0 (-1), vec4 1 0 0 1, vec4 1 0 1 1, vec4 0 0 1 1,
          vec4 0 1 0 1, vec4 1 1 0 1, vec4 1 1 1 1, vec4 0 1 1 1] ∧
    (cubeCornersOf 0 0 0 1 examplePoints).map (cubeIndexOf defaults) = some 1 ∧
    ∃ c0 c1 c2 c3 c4 c5 c6 c7,
      cubeCornersOf 0 0 0 1 examplePoints = some [c0, c1, c2, c3, c4, c5, c6, c7] ∧
      cubeIndexOf defaults [c0, c1, c2, c3, c4, c5, c6, c7] < 256 := by
  refine ⟨by decide, by decide, by decide, ?_⟩
  obtain ⟨c0, c1, c2, c3, c4, c5, c6, c7, _, _, _, _, _, _, _, _, hcc, _, _, hlt, _⟩ :=
    cube_classification defaults exampleTables 0 0 0 1 examplePoints (by decide)
      (by decide) (by decide) (by decide)
  exact ⟨c0, c1, c2, c3, c4, c5, c6, c7, hcc, hlt⟩

/-- C14 (as amended), meaning of configurations 0 and 255.  With inside
defined as in the density contract (density strictly below the iso-level), a
cube has configuration index 0 exactly when none of its eight corners is
inside, and configuration index 255 exactly when all eight are inside. -/
theorem configuration_meaning (cfg : Config) (c0 c1 c2 c3 c4 c5 c6 c7 : Vector4) :
    (cubeIndexOf cfg [c0, c1, c2, c3, c4, c5, c6, c7] = 0 ↔
      ∀ c ∈ [c0, c1, c2, c3, c4, c5, c6, c7], inside cfg c = false) ∧
    (cubeIndexOf cfg [c0, c1, c2, c3, c4, c5, c6, c7] = 255 ↔
      ∀ c ∈ [c0, c1, c2, c3, c4, c5, c6, c7], inside cfg c = true) := by
  rw [cubeIndexOf_eq_sum]
  have e0 := bitOf_le_one cfg c0
  have e1 := bitOf_le_one cfg c1
  have e2 := bitOf_le_one cfg c2
  have e3 := bitOf_le_one cfg c3
  have e4 := bitOf_le_one cfg c4
  have e5 := bitOf_le_one cfg c5
  have e6 := bitOf_le_one cfg c6
  have e7 := bitOf_le_one cfg c7
  simp only [List.forall_mem_cons, List.not_mem_nil, false_imp_iff, implies_true, and_true,
    inside, ← bitOf_eq_zero_iff, ← bitOf_eq_one_iff]
  constructor
  · constructor
    · intro h; omega
    · intro h; omega
  · constructor
    · intro h; omega
    · intro h; omega

/-- C14, counterexample.  At the default iso-level 0, the eight corners of
density `-1` are all inside in the sense of the density contract, and their
configuration index is 255, not 0; the eight corners of density `1` are all
outside, and their configuration index is 0, not 255. -/
theorem all_inside_is_255 :
    (∀ c ∈ List.replicate 8 (vec4 0 0 0 (-1)), inside defaults c = true) ∧
    cubeIndexOf defaults (List.replicate 8 (vec4 0 0 0 (-1))) = 255 ∧
    cubeIndexOf defaults (List.replicate 8 (vec4 0 0 0 (-1))) ≠ 0 ∧
    (∀ c ∈ List.replicate 8 (vec4 0 0 0 1), inside defaults c = false) ∧
    cubeIndexOf defaults (List.replicate 8 (vec4 0 0 0 1)) = 0 ∧
    cubeIndexOf defaults (List.replicate 8 (vec4 0 0 0 1)) ≠ 255 := by
  refine ⟨?_, by decide, by decide, ?_, by decide, by decide⟩
  · intro c hc
    rw [List.eq_of_mem_replicate hc]
    decide
  · intro c hc
    rw [List.eq_of_mem_replicate hc]
    decide

theorem flatten_coords_length (vertices : List Vector3) :
    ((vertices.map (fun v => [v.x, v.y, v.z])).flatten).length = vertices.length * 3 := by
  induction vertices with
  | nil => rfl
  | cons v vs ih =>
    simp only [List.map_cons, List.flatten_cons, List.length_append, ih, List.length_cons,
      List.length_nil]
    omega

theorem pack_vertexBuffer (vertices : List Vector3) (indices : List Int) :
    (pack vertices indices).vertexBuffer
      = (vertices.map (fun v => [v.x, v.y, v.z])).flatten := by
  unfold pack
  simp only
  apply List.take_of_length_le
  rw [flatten_coords_length]
  have : (((vertices.length : Int) * 3).toNat) = vertices.length * 3 := by omega
  omega

/-- C12, packed counts and order.  For every vertex sequence `V` and index
sequence `I`, the block packed from them has `word0 = 3 * length V`,
`word1 = length I`, a vertex array that is the flattening
`[V0.x, V0.y, V0.z, V1.x, ...]` of `V`, of length `3 * length V`, and an index
array equal to `I`; and the block that `generateTerrain` returns is the one
packed from the sequences that its chunk loops accumulate. -/
theorem packed_counts_and_order (V : List Vector3) (I : List Int) :
    (pack V I).word0 = 3 * (V.length : Int) ∧
    (pack V I).word1 = (I.length : Int) ∧
    (pack V I).vertexBuffer = (V.map (fun v => [v.x, v.y, v.z])).flatten ∧
    (pack V I).vertexBuffer.length = 3 * V.length ∧
    (∀ p (h : p < V.length),
      (pack V I).vertexBuffer.get? (3 * p) = some (V.get ⟨p, h⟩).x ∧
      (pack V I).vertexBuffer.get? (3 * p + 1) = some (V.get ⟨p, h⟩).y ∧
      (pack V I).vertexBuffer.get? (3 * p + 2) = some (V.get ⟨p, h⟩).z) ∧
    (pack V I).faceBuffer = I ∧
    (∀ noise3 cfg tb size levelCount maxSegment,
      generateTerrain noise3 cfg tb size levelCount maxSegment
        = (generateMesh noise3 cfg tb size levelCount maxSegment).map
            (fun acc => pack acc.1 acc.2)) := by
  refine ⟨pack_word0 V I, pack_word1 V I, pack_vertexBuffer V I, ?_, ?_, pack_faceBuffer V I,
    fun _ _ _ _ _ _ => rfl⟩
  · rw [pack_vertexBuffer, flatten_coords_length]; omega
  · rw [pack_vertexBuffer]
    intro p h
    induction V generalizing p with
    | nil => simp at h
    | cons v vs ih =>
      cases p with
      | zero => simp
      | succ q =>
        have hq : q < vs.length := by simpa using h
        have := ih q hq
        simp only [List.map_cons, List.flatten_cons, List.get_cons_succ]
        have e0 : 3 * (q + 1) = 3 * q + 3 := by ring
        have e1 : 3 * q + 3 + 1 = 3 * q + 1 + 3 := by ring
        have e2 : 3 * q + 3 + 2 = 3 * q + 2 + 3 := by ring
        rw [e0, e1, e2]
        exact this

/-- C16 (amended), lattice accesses stay in range while the lattice size is an
`int`.  For `0 ≤ segment` (in particular `1 ≤ segment`) with
`(segment + 1)³ < 2³¹`: the allocation size `(segment + 1)³` is an `int`; the
flat index that the 32-bit computation yields for a lattice point with
coordinates in `[0, segment]³` is the exact one and is in
`[0, (segment + 1)³)`; so is each of the eight corner indices of a cube with
`0 ≤ x, y, z < segment`; every `density` call at a lattice point writes at its
flat index; the sampling loops return a lattice of `(segment + 1)³` entries,
and all eight corner reads of `march` for a cube in range succeed. -/
theorem lattice_accesses_in_range (noise3 : Flt → Flt → Flt → Flt) (cfg : Config)
    (origin : Vector3) (chunkSize : Flt) (segment : Int) (hseg : 0 ≤ segment)
    (hsize : (segment + 1) ^ 3 < 2 ^ 31) :
    FitsInt ((segment + 1) ^ 3) ∧
    (∀ x y z, InLattice segment x y z →
      indexFromCoord32 x y z segment = indexFromCoord x y z segment ∧
      0 ≤ indexFromCoord32 x y z segment ∧
      indexFromCoord32 x y z segment < (segment + 1) ^ 3) ∧
    (∀ x y z, (0 ≤ x ∧ x < segment) → (0 ≤ y ∧ y < segment) → (0 ≤ z ∧ z < segment) →
      cornerIndicesOf32 x y z segment = cornerIndicesOf x y z segment ∧
      ∀ i ∈ cornerIndicesOf32 x y z segment, 0 ≤ i ∧ i < (segment + 1) ^ 3) ∧
    (∀ x y z unitSize (pts : List Vector4), InLattice segment x y z →
      (pts.length : Int) = (segment + 1) ^ 3 →
      density32 noise3 cfg x y z origin unitSize segment pts
        = density noise3 cfg x y z origin unitSize segment pts ∧
      density32 noise3 cfg x y z origin unitSize segment pts
        = some (pts.set (indexFromCoord32 x y z segment).toNat
            (densityValue noise3 cfg x y z origin unitSize))) ∧
    (∃ pts, sampleLattice noise3 cfg origin chunkSize segment = some pts ∧
      (pts.length : Int) = (segment + 1) ^ 3 ∧
      ∀ x y z, (0 ≤ x ∧ x < segment) → (0 ≤ y ∧ y < segment) → (0 ≤ z ∧ z < segment) →
        ∃ cc, cubeCornersOf x y z segment pts = some cc) := by
  have rg : ∀ a b c : Int, 0 ≤ a → a ≤ segment → 0 ≤ b → b ≤ segment → 0 ≤ c → c ≤ segment →
      0 ≤ indexFromCoord a b c segment ∧ indexFromCoord a b c segment < (segment + 1) ^ 3 :=
    fun a b c => indexFromCoord_range segment a b c
  refine ⟨?_, ?_, ?_, ?_, ?_⟩
  · have : (0 : Int) ≤ (segment + 1) ^ 3 := by positivity
    unfold FitsInt
    constructor <;> omega
  · intro x y z hin
    rw [indexFromCoord32_eq segment x y z hin hsize]
    exact ⟨rfl, rg x y z hin.1.1 hin.1.2 hin.2.1.1 hin.2.1.2 hin.2.2.1 hin.2.2.2⟩
  · intro x y z hx hy hz
    rw [cornerIndicesOf32_eq segment x y z hx.1 hx.2 hy.1 hy.2 hz.1 hz.2 hsize]
    refine ⟨rfl, ?_⟩
    intro i hi
    simp only [cornerIndicesOf, List.mem_cons, List.mem_singleton, List.not_mem_nil,
      or_false] at hi
    rcases hi with rfl | rfl | rfl | rfl | rfl | rfl | rfl | rfl
    · exact rg _ _ _ (by omega) (by omega) (by omega) (by omega) (by omega) (by omega)
    · exact rg _ _ _ (by omega) (by omega) (by omega) (by omega) (by omega) (by omega)
    · exact rg _ _ _ (by omega) (by omega) (by omega) (by omega) (by omega) (by omega)
    · exact rg _ _ _ (by omega) (by omega) (by omega) (by omega) (by omega) (by omega)
    · exact rg _ _ _ (by omega) (by omega) (by omega) (by omega) (by omega) (by omega)
    · exact rg _ _ _ (by omega) (by omega) (by omega) (by omega) (by omega) (by omega)
    · exact rg _ _ _ (by omega) (by omega) (by omega) (by omega) (by omega) (by omega)
    · exact rg _ _ _ (by omega) (by omega) (by omega) (by omega) (by omega) (by omega)
  · intro x y z unitSize pts hin hlen
    obtain ⟨h0, h1⟩ := rg x y z hin.1.1 hin.1.2 hin.2.1.1 hin.2.1.2 hin.2.2.1 hin.2.2.2
    unfold density32 density setI
    simp only
    rw [indexFromCoord32_eq segment x y z hin hsize]
    refine ⟨rfl, ?_⟩
    rw [if_pos ⟨h0, by omega⟩]
  · obtain ⟨pts, hpts, hS⟩ := sampleLattice_sampled noise3 cfg origin chunkSize segment hseg
    exact ⟨pts, hpts, hS.1, fun x y z hx hy hz =>
      cubeCornersOf_some x y z segment pts hS.1 hx.1 hx.2 hy.1 hy.2 hz.1 hz.2⟩

/-- Instance of `lattice_accesses_in_range` for a `3 x 3 x 3` lattice. -/
theorem lattice_accesses_in_range_witness :
    (0 : Int) ≤ 2 ∧ ((2 : Int) + 1) ^ 3 < 2 ^ 31 ∧
    ∃ pts, sampleLattice zeroNoise defaults (vec3 0 0 0) (Flt.fin 64) 2 = some pts ∧
      (pts.length : Int) = (2 + 1) ^ 3 ∧
      ∀ x y z : Int, (0 ≤ x ∧ x < 2) → (0 ≤ y ∧ y < 2) → (0 ≤ z ∧ z < 2) →
        ∃ cc, cubeCornersOf x y z 2 pts = some cc :=
  ⟨by decide, by decide,
    (lattice_accesses_in_range zeroNoise defaults (vec3 0 0 0) (Flt.fin 64) 2
      (by decide) (by decide)).2.2.2.2⟩

/-- C16 as stated fails at `segment = 1290`: the flat index computed for the
lattice point `(1290, 1290, 1290)` is negative, so the write of `density` at
that point is out of range; the corner read number 6 of the cube
`(1289, 1289, 1289)` uses the same index and is out of range too; and the
allocation size `1291³` is not an `int`. -/
theorem lattice_access_overflow :
    (1 : Int) ≤ 1290 ∧ InLattice 1290 1290 1290 1290 ∧
    ¬ (0 ≤ indexFromCoord32 1290 1290 1290 1290 ∧
      indexFromCoord32 1290 1290 1290 1290 < (1290 + 1) ^ 3) ∧
    (∀ (noise3 : Flt → Flt → Flt → Flt) (cfg : Config) (origin : Vector3) (unitSize : Flt)
      (pts : List Vector4),
      density32 noise3 cfg 1290 1290 1290 origin unitSize 1290 pts = none) ∧
    (((0 : Int) ≤ 1289 ∧ (1289 : Int) < 1290) ∧
      (cornerIndicesOf32 1289 1289 1289 1290).get? 6 = some (-2143282126) ∧
      ∀ pts : List Vector4, getI pts (-2143282126) = none) ∧
    ¬ FitsInt ((1290 + 1) ^ 3) := by
  have hv : indexFromCoord32 1290 1290 1290 1290 = -2143282126 := by decide
  refine ⟨by decide, ?_, ?_, ?_, ⟨by decide, ?_, ?_⟩, ?_⟩
  · unfold InLattice
    decide
  · rw [hv]
    decide
  · intro noise3 cfg origin unitSize pts
    unfold density32 setI
    simp only
    rw [hv]
    rfl
  · decide
  · intro pts
    rfl
  · unfold FitsInt
    decide

/-- What one pass of the loop over the edges of a triangle does: it appends
exactly one index, the one recorded for the key of the edge or, when there is
none, the running index, which it gives to a new vertex. -/
theorem weldEdge_appends (cfg : Config) (cc : List Vector4) (ci : List Int) (st st' : MeshState)
    (a b : Int) (h : weldEdge cfg cc ci st (a, b) = some st') :
    ∃ ia ib i, getI ci a = some ia ∧ getI ci b = some ib ∧
      st'.indices = st.indices ++ [i] ∧
      ((dicFind st.vertexDic (vertexKey ia ib) = some i ∧ st'.vertices = st.vertices) ∨
       (dicFind st.vertexDic (vertexKey ia ib) = none ∧ i = st.index ∧
        ∃ ca cb, getI cc a = some ca ∧ getI cc b = some cb ∧
          st'.vertices = st.vertices ++ [interpolateVerts cfg ca cb])) := by
  unfold weldEdge at h
  simp only [Option.bind_eq_bind, Option.bind_eq_some] at h
  obtain ⟨ia, hia, ib, hib, h⟩ := h
  refine ⟨ia, ib, ?_⟩
  cases hf : dicFind st.vertexDic (vertexKey ia ib) with
  | some v =>
    rw [hf] at h
    simp only [Option.some.injEq] at h
    subst h
    exact ⟨v, hia, hib, rfl, Or.inl ⟨rfl, rfl⟩⟩
  | none =>
    rw [hf] at h
    simp only [Option.bind_eq_bind, Option.bind_eq_some, Option.some.injEq] at h
    obtain ⟨ca, hca, cb, hcb, h⟩ := h
    subst h
    exact ⟨st.index, hia, hib, rfl, Or.inr ⟨rfl, rfl, ca, cb, hca, hcb, rfl⟩⟩

/-- C15, winding order.  (1) For a triplet `(e0, e1, e2)`, `march` reads the
two end corners of each edge from the corner tables and handles the edges in
the order `e0`, `e2`, `e1`: the three indices appended are, in this order,
the index recorded or newly created for the corner pair of `e0`, of `e2` and
of `e1`.  (2) The triplets of a row are handled in table order, up to the
terminator `-1`.  (3) For a non-zero configuration, `march` handles the row
of the triangulation table at the configuration index. -/
theorem winding_order (cfg : Config) (tb : Tables) (cc : List Vector4) (ci : List Int) :
    (∀ e0 e1 e2 st st', emitTriangle cfg tb cc ci e0 e1 e2 st = some st' →
      ∃ a0 b0 a1 b1 a2 b2 s1 s2 i0 i2 i1,
        getI tb.cornerIndexAFromEdge e0 = some a0 ∧ getI tb.cornerIndexBFromEdge e0 = some b0 ∧
        getI tb.cornerIndexAFromEdge e1 = some a1 ∧ getI tb.cornerIndexBFromEdge e1 = some b1 ∧
        getI tb.cornerIndexAFromEdge e2 = some a2 ∧ getI tb.cornerIndexBFromEdge e2 = some b2 ∧
        weldEdge cfg cc ci st (a0, b0) = some s1 ∧ weldEdge cfg cc ci s1 (a2, b2) = some s2 ∧
        weldEdge cfg cc ci s2 (a1, b1) = some st' ∧
        s1.indices = st.indices ++ [i0] ∧ s2.indices = st.indices ++ [i0, i2] ∧
        st'.indices = st.indices ++ [i0, i2, i1]) ∧
    (∀ e0 e1 e2 rest st, e0 ≠ -1 →
      triLoop cfg tb cc ci (e0 :: e1 :: e2 :: rest) st
        = (emitTriangle cfg tb cc ci e0 e1 e2 st).bind (triLoop cfg tb cc ci rest)) ∧
    (∀ rest st, triLoop cfg tb cc ci (-1 :: rest) st = some st) ∧
    (∀ x y z segment points st, cubeCornersOf x y z segment points = some cc →
      cubeIndexOf cfg cc ≠ 0 →
      march cfg tb x y z segment points st
        = (tb.triangulation.get? (cubeIndexOf cfg cc)).bind
            (fun row => triLoop cfg tb cc (cornerIndicesOf x y z segment) row st)) := by
  refine ⟨?_, ?_, ?_, ?_⟩
  · intro e0 e1 e2 st st' h
    unfold emitTriangle at h
    simp only [Option.bind_eq_bind, Option.bind_eq_some, List.foldlM_cons, List.foldlM_nil] at h
    obtain ⟨a0, ha0, b0, hb0, a1, ha1, b1, hb1, a2, ha2, b2, hb2, s1, hs1, s2, hs2, s3, hs3, h⟩
      := h
    have h3 : s3 = st' := Option.some.inj h
    subst h3
    obtain ⟨_, _, i0, _, _, hi0, _⟩ := weldEdge_appends cfg cc ci st s1 a0 b0 hs1
    obtain ⟨_, _, i2, _, _, hi2, _⟩ := weldEdge_appends cfg cc ci s1 s2 a2 b2 hs2
    obtain ⟨_, _, i1, _, _, hi1, _⟩ := weldEdge_appends cfg cc ci s2 s3 a1 b1 hs3
    refine ⟨a0, b0, a1, b1, a2, b2, s1, s2, i0, i2, i1, ha0, hb0, ha1, hb1, ha2, hb2, hs1, hs2,
      hs3, hi0, ?_, ?_⟩
    · rw [hi2, hi0]; simp
    · rw [hi1, hi2, hi0]; simp
  · intro e0 e1 e2 rest st he
    simp only [triLoop, if_neg he]
  · intro rest st
    cases rest with
    | nil => simp [triLoop]
    | cons e1 rest =>
      cases rest with
      | nil => simp [triLoop]
      | cons e2 rest => simp [triLoop]
  · intro x y z segment points st hcc hne
    unfold march
    simp only [hcc, Option.bind_eq_bind, Option.some_bind, if_neg hne]

/-- Instance of `winding_order`: in the example lattice the row of
configuration 1 is the triplet of edges `(0, 8, 3)`; the three vertices are
created in the order edge 0 (lattice indices 0 and 1), edge 3 (indices 4 and
0), edge 8 (indices 0 and 2). -/
theorem winding_order_witness :
    (march defaults exampleTables 0 0 0 1 examplePoints ⟨[], [], [], 0⟩).map
        (fun st => (st.indices, st.vertexDic))
      = some ([0, 1, 2],
          [(['0', '_', '2'], 2), (['0', '_', '4'], 1), (['0', '_', '1'], 0)]) ∧
    (0 : Int) ≠ -1 ∧
    ∀ st, triLoop defaults exampleTables examplePoints (cornerIndicesOf 0 0 0 1) [0, 8, 3, -1] st
      = (emitTriangle defaults exampleTables examplePoints (cornerIndicesOf 0 0 0 1) 0 8 3 st).bind
          (triLoop defaults exampleTables examplePoints (cornerIndicesOf 0 0 0 1) [-1]) :=
  ⟨by decide, by decide, fun st =>
    (winding_order defaults exampleTables examplePoints (cornerIndicesOf 0 0 0 1)).2.1
      0 8 3 [-1] st (by decide)⟩

/-- C11, chunk tiling (exact arithmetic, `size` the rational `q`).
For `levelCount = 1`: `chunkCount = 2`, `chunkSize = q / 2`, and the chunk
loops process exactly four chunks, of origins `(-q/2, 0, -q/2)`,
`(-q/2, 0, 0)`, `(0, 0, -q/2)`, `(0, 0, 0)` in that order.
For every `levelCount ≥ 1`: the chunk loops process the `chunkCount²` origins
`((i - chunkCount/2) * chunkSize, 0, (j - chunkCount/2) * chunkSize)`, `i` in
the outer loop; along each axis the cells start at `-q/2`, each starts where
the previous one ends, the last one ends at `q/2`; and for `q > 0` every point
of the centered square `[-q/2, q/2)²` lies in exactly one of the half-open
squares of side `chunkSize` at these origins (no gap, no overlap). -/
theorem chunk_tiling (noise3 : Flt → Flt → Flt → Flt) (cfg : Config) (tb : Tables) (q : ℚ)
    (maxSegment : Int) :
    (chunkCountOf 1 = 2 ∧
      Flt.div (Flt.fin q) (Flt.ofInt (chunkCountOf 1)) = Flt.fin (q / 2) ∧
      chunkOrigins (chunkCountOf 1) (Flt.div (Flt.fin q) (Flt.ofInt (chunkCountOf 1)))
        = [vec3 (-q / 2) 0 (-q / 2), vec3 (-q / 2) 0 0, vec3 0 0 (-q / 2), vec3 0 0 0] ∧
      generateMesh noise3 cfg tb (Flt.fin q) 1 maxSegment
        = [vec3 (-q / 2) 0 (-q / 2), vec3 (-q / 2) 0 0, vec3 0 0 (-q / 2), vec3 0 0 0].foldlM
            (fun acc origin => createChunk noise3 cfg tb origin (Flt.fin (q / 2)) maxSegment
              acc.1 acc.2 (acc.1.length : Int)) ([], [])) ∧
    (∀ levelCount : Int, 1 ≤ levelCount →
      generateMesh noise3 cfg tb (Flt.fin q) levelCount maxSegment
        = (chunkOrigins (chunkCountOf levelCount)
            (Flt.div (Flt.fin q) (Flt.ofInt (chunkCountOf levelCount)))).foldlM
            (fun acc origin => createChunk noise3 cfg tb origin
              (Flt.div (Flt.fin q) (Flt.ofInt (chunkCountOf levelCount))) maxSegment
              acc.1 acc.2 (acc.1.length : Int)) ([], []) ∧
      (chunkOrigins (chunkCountOf levelCount)
          (Flt.div (Flt.fin q) (Flt.ofInt (chunkCountOf levelCount)))).length
        = (chunkCountOf levelCount).toNat * (chunkCountOf levelCount).toNat ∧
      Flt.div (Flt.fin q) (Flt.ofInt (chunkCountOf levelCount))
        = Flt.fin (q / (chunkCountOf levelCount : ℚ)) ∧
      (∀ i j : Int,
        chunkOrigin (chunkCountOf levelCount)
            (Flt.div (Flt.fin q) (Flt.ofInt (chunkCountOf levelCount))) i j
          = vec3 (originCoord (chunkCountOf levelCount) q i) 0
              (originCoord (chunkCountOf levelCount) q j)) ∧
      originCoord (chunkCountOf levelCount) q 0 = -q / 2 ∧
      (∀ i : Int, originCoord (chunkCountOf levelCount) q (i + 1)
        = originCoord (chunkCountOf levelCount) q i + q / (chunkCountOf levelCount : ℚ)) ∧
      originCoord (chunkCountOf levelCount) q (chunkCountOf levelCount - 1)
        + q / (chunkCountOf levelCount : ℚ) = q / 2 ∧
      (0 < q → ∀ p r : ℚ, -q / 2 ≤ p → p < q / 2 → -q / 2 ≤ r → r < q / 2 →
        ∃ i j : Int,
          ((0 ≤ i ∧ i < chunkCountOf levelCount) ∧ (0 ≤ j ∧ j < chunkCountOf levelCount) ∧
            (originCoord (chunkCountOf levelCount) q i ≤ p ∧
              p < originCoord (chunkCountOf levelCount) q i + q / (chunkCountOf levelCount : ℚ)) ∧
            (originCoord (chunkCountOf levelCount) q j ≤ r ∧
              r < originCoord (chunkCountOf levelCount) q j
                + q / (chunkCountOf levelCount : ℚ))) ∧
          ∀ k l : Int,
            ((0 ≤ k ∧ k < chunkCountOf levelCount) ∧ (0 ≤ l ∧ l < chunkCountOf levelCount) ∧
              (originCoord (chunkCountOf levelCount) q k ≤ p ∧
                p < originCoord (chunkCountOf levelCount) q k
                  + q / (chunkCountOf levelCount : ℚ)) ∧
              (originCoord (chunkCountOf levelCount) q l ≤ r ∧
                r < originCoord (chunkCountOf levelCount) q l
                  + q / (chunkCountOf levelCount : ℚ))) →
            k = i ∧ l = j)) := by
  have hcc : chunkCountOf 1 = 2 := by decide
  have hdiv : Flt.div (Flt.fin q) (Flt.ofInt (chunkCountOf 1)) = Flt.fin (q / 2) := by
    rw [hcc]; unfold Flt.ofInt; rw [Flt.div_fin _ _ (by norm_num)]; norm_num
  have horig : chunkOrigins (chunkCountOf 1) (Flt.div (Flt.fin q) (Flt.ofInt (chunkCountOf 1)))
      = [vec3 (-q / 2) 0 (-q / 2), vec3 (-q / 2) 0 0, vec3 0 0 (-q / 2), vec3 0 0 0] := by
    rw [hdiv, hcc]
    have h2 : (2 : Int).toNat = 2 := rfl
    have hr : List.range 2 = [0, 1] := rfl
    have hneg : (-(1 : ℚ)) * (q / 2) = -q / 2 := by ring
    simp [chunkOrigins, h2, hr, chunkOrigin, Flt.ofInt, vec3, hneg]
  refine ⟨⟨hcc, hdiv, horig, ?_⟩, ?_⟩
  · rw [generateMesh_eq_foldlM, horig, hdiv]
  · intro levelCount hL
    obtain ⟨hn, hpos, _⟩ := chunkCountOf_pos levelCount hL
    have hm : (0 : Int) < 2 ^ (levelCount.toNat - 1) := by positivity
    obtain ⟨s0, s1, s2, _⟩ := originCoord_steps (chunkCountOf levelCount) _ hn hm q
    have hfin := chunkOrigin_fin (chunkCountOf levelCount) (ne_of_gt hpos) q
    refine ⟨generateMesh_eq_foldlM noise3 cfg tb (Flt.fin q) levelCount maxSegment,
      chunkOrigins_length _ _, (hfin 0 0).1, fun i j => (hfin i j).2, s0, s1, s2, ?_⟩
    intro hq p r hp0 hp1 hr0 hr1
    obtain ⟨i, hi, hiu⟩ := cell_unique (chunkCountOf levelCount) _ hn hm q hq p hp0 hp1
    obtain ⟨j, hj, hju⟩ := cell_unique (chunkCountOf levelCount) _ hn hm q hq r hr0 hr1
    refine ⟨i, j, ⟨⟨hi.1, hi.2.1⟩, ⟨hj.1, hj.2.1⟩, hi.2.2, hj.2.2⟩, ?_⟩
    rintro k l ⟨hk, hl, hkp, hlr⟩
    exact ⟨hiu k ⟨hk.1, hk.2, hkp⟩, hju l ⟨hl.1, hl.2, hlr⟩⟩

/-- Instance of `chunk_tiling` for `size = 64` and `levelCount = 2`: sixteen
chunks of size 16. -/
theorem chunk_tiling_witness :
    (1 : Int) ≤ 2 ∧ (0 : ℚ) < 64 ∧
    (chunkOrigins (chunkCountOf 2)
        (Flt.div (Flt.fin 64) (Flt.ofInt (chunkCountOf 2)))).length
      = (chunkCountOf 2).toNat * (chunkCountOf 2).toNat ∧
    originCoord (chunkCountOf 2) 64 0 = -64 / 2 :=
  ⟨by decide, by norm_num,
    ((chunk_tiling zeroNoise defaults exampleTables 64 2).2 2 (by decide)).2.1,
    ((chunk_tiling zeroNoise defaults exampleTables 64 2).2 2 (by decide)).2.2.2.2.1⟩

/-- C17, the hard floor dominates the noise.  Over exact arithmetic (finite
origin and unit size), with the tunables at their defaults except
`hardFloorWeight = h`, and for every noise function with finite values in
`[-1, 1]`: the fractal noise accumulated by the eight octaves is finite and
non-negative; and when `h ≥ 21.6`, every sample whose world ordinate is below
`hardFloor = 2` gets a finite density strictly above the iso-level 0, so that
its configuration bit is not set. -/
theorem hard_floor_dominates (noise3 : Flt → Flt → Flt → Flt)
    (hnoise : ∀ a b c, ∃ q, noise3 a b c = Flt.fin q ∧ -1 ≤ q ∧ q ≤ 1)
    (h : ℚ) (hh : 216 / 10 ≤ h) (x y z : Int) (ox oy oz u : ℚ)
    (hy : oy + (y : ℚ) * u < 2) :
    (samplePos x y z (vec3 ox oy oz) (Flt.fin u)).y = Flt.fin (oy + (y : ℚ) * u) ∧
    (∃ n : ℚ,
      (octaveLoop noise3 (withHardFloorWeight h) (samplePos x y z (vec3 ox oy oz) (Flt.fin u))
        (withHardFloorWeight h).octaves.toNat
        { noise := Flt.fin 0,
          frequency := Flt.div (withHardFloorWeight h).noiseScale (Flt.fin 2000),
          amplitude := Flt.fin 1, weight := Flt.fin (105 / 100) }).noise = Flt.fin n ∧ 0 ≤ n) ∧
    (∃ W : ℚ,
      (densityValue noise3 (withHardFloorWeight h) x y z (vec3 ox oy oz) (Flt.fin u)).w
        = Flt.fin W ∧ 0 < W) ∧
    Flt.lt (densityValue noise3 (withHardFloorWeight h) x y z (vec3 ox oy oz) (Flt.fin u)).w
      (withHardFloorWeight h).isoLevel = false ∧
    bitOf (withHardFloorWeight h)
      (densityValue noise3 (withHardFloorWeight h) x y z (vec3 ox oy oz) (Flt.fin u)) = 0 := by
  have hinit : Flt.div (withHardFloorWeight h).noiseScale (Flt.fin 2000)
      = Flt.fin (3 / 2000) := by
    show Flt.div (Flt.fin 3) (Flt.fin 2000) = _
    rw [Flt.div_fin _ _ (by norm_num)]
  have hoct : (withHardFloorWeight h).octaves.toNat = 8 := rfl
  obtain ⟨n, f, a, w, hloop, hn, _, _⟩ := octaveLoop_fin noise3 hnoise (withHardFloorWeight h)
    (115 / 100) (16 / 10) rfl (by norm_num) rfl (ox + (x : ℚ) * u) (oy + (y : ℚ) * u)
    (oz + (z : ℚ) * u) 8 0 (3 / 2000) 1 (105 / 100) le_rfl (by norm_num) (by norm_num)
  have hpos : (samplePos x y z (vec3 ox oy oz) (Flt.fin u)).y = Flt.fin (oy + (y : ℚ) * u) := by
    rw [samplePos_fin]; rfl
  have hnoiseTerm : (octaveLoop noise3 (withHardFloorWeight h)
      (samplePos x y z (vec3 ox oy oz) (Flt.fin u)) (withHardFloorWeight h).octaves.toNat
      { noise := Flt.fin 0,
        frequency := Flt.div (withHardFloorWeight h).noiseScale (Flt.fin 2000),
        amplitude := Flt.fin 1, weight := Flt.fin (105 / 100) }).noise = Flt.fin n := by
    rw [samplePos_fin, hinit, hoct, hloop]
  have h1 : (1 : ℚ) ≠ 0 := by norm_num
  have hfl : ((⌊(oy + (y : ℚ) * u) / 1⌋ : Int) : ℚ) ≤ oy + (y : ℚ) * u := by
    have := Int.floor_le ((oy + (y : ℚ) * u) / 1)
    simpa using this
  have hW : ∃ W : ℚ,
      (densityValue noise3 (withHardFloorWeight h) x y z (vec3 ox oy oz) (Flt.fin u)).w
        = Flt.fin W ∧ 0 < W := by
    by_cases hy0 : y = 0
    · refine ⟨1 / 10, ?_, by norm_num⟩
      simp [densityValue, hy0]
    · refine ⟨-((oy + (y : ℚ) * u) * (8 / 10) + 20) + n * (609 / 100)
        + ((oy + (y : ℚ) * u) - ((⌊(oy + (y : ℚ) * u) / 1⌋ : Int) : ℚ) * 1) * (1 / 10) + h,
        ?_, ?_⟩
      · unfold densityValue
        simp only [hnoiseTerm, hpos, if_neg hy0]
        have hlt : Flt.lt (Flt.fin (oy + (y : ℚ) * u)) (withHardFloorWeight h).hardFloor
            = true := by
          show Flt.lt (Flt.fin (oy + (y : ℚ) * u)) (Flt.fin 2) = true
          simp [hy]
        rw [hlt]
        show Flt.add (Flt.add (Flt.add (Flt.neg (Flt.add (Flt.mul (Flt.fin (oy + (y : ℚ) * u))
            (Flt.fin (8 / 10))) (Flt.fin 20))) (Flt.mul (Flt.fin n) (Flt.fin (609 / 100))))
            (Flt.mul (Flt.sub (Flt.fin (oy + (y : ℚ) * u))
              (Flt.mul (Flt.floor (Flt.div (Flt.fin (oy + (y : ℚ) * u)) (Flt.fin 1)))
                (Flt.fin 1))) (Flt.fin (1 / 10)))) (Flt.fin h) = _
        simp only [Flt.div_fin _ _ h1, Flt.floor_fin, Flt.mul_fin, Flt.add_fin, Flt.sub_fin,
          Flt.neg_fin]
      · have hn' : 0 ≤ n * (609 / 100) := mul_nonneg hn (by norm_num)
        nlinarith
  obtain ⟨W, hWeq, hWpos⟩ := hW
  have hlt : Flt.lt (densityValue noise3 (withHardFloorWeight h) x y z (vec3 ox oy oz)
      (Flt.fin u)).w (withHardFloorWeight h).isoLevel = false := by
    rw [hWeq]
    show Flt.lt (Flt.fin W) (Flt.fin 0) = false
    simp [hWpos.le]
  exact ⟨hpos, ⟨n, hnoiseTerm, hn⟩, ⟨W, hWeq, hWpos⟩, hlt, (bitOf_eq_zero_iff _ _).mpr hlt⟩

/-- Instance of `hard_floor_dominates`: the noise that is 0 everywhere,
`hardFloorWeight = 22`, and the lattice point `(1, 1, 1)` of a chunk of unit
size 1 at the origin, of world ordinate 1. -/
theorem hard_floor_dominates_witness :
    (∀ a b c, ∃ q, zeroNoise a b c = Flt.fin q ∧ -1 ≤ q ∧ q ≤ 1) ∧ (216 / 10 : ℚ) ≤ 22 ∧
    (0 : ℚ) + ((1 : Int) : ℚ) * 1 < 2 ∧
    bitOf (withHardFloorWeight 22)
      (densityValue zeroNoise (withHardFloorWeight 22) 1 1 1 (vec3 0 0 0) (Flt.fin 1)) = 0 :=
  ⟨fun _ _ _ => ⟨0, rfl, by norm_num, by norm_num⟩, by norm_num, by norm_num,
    (hard_floor_dominates zeroNoise (fun _ _ _ => ⟨0, rfl, by norm_num, by norm_num⟩) 22
      (by norm_num) 1 1 1 0 0 0 1 (by norm_num)).2.2.2.2⟩

end Terrain
